import Mathlib

/-!
# primecount: work distribution layer

A shallow embedding of `src/LoadBalancerP2.cpp` (the range load balancer of
the 2nd partial sieve function), of the loops `for_atomic_inc` and
`for_atomic_add` of `include/for_atomic_inc.hpp`, and of the ordinary leaves
of `src/gourdon/Phi0.cpp`, followed by theorems about them.

Machine integers are modelled twice: as unbounded `Int` (`init`, `get_work`,
`Phi0_thread`, `Phi0_OpenMP`), and with the two's complement arithmetic of
`int64_t` and `int`, where the results wrap around (`init64`, `get_work64`,
`Phi0_thread64`, `Phi0_OpenMP64`). Clock readings (`double` in the source)
are modelled as exact rationals.
-/

set_option linter.unusedVariables false
set_option maxRecDepth 100000

namespace primecount

/-! ## Helpers that the load balancer uses -/

/-- Signed integer division of C++: the quotient is truncated towards zero. -/
def cdiv (a b : Int) : Int := Int.tdiv a b

/-- The largest value of an `int64_t`. -/
def INT64_MAX : Int := 9223372036854775807

/-- The largest value of an `int`. -/
def INT_MAX : Int := 2147483647

/-- What an `int64_t` holds after the result `a` of an addition, subtraction
or multiplication has been stored in it: two's complement, the result wraps
around modulo `2^64`. -/
def wrap64 (a : Int) : Int :=
  (a + 9223372036854775808) % 18446744073709551616 - 9223372036854775808

/-- What an `int` holds after the result `a` of an arithmetic operation has
been stored in it: the result wraps around modulo `2^32`. -/
def wrap32 (a : Int) : Int := (a + 2147483648) % 4294967296 - 2147483648

/-- Modelled from the spec: `isqrt` is declared in `imath.hpp`, which is not
among the sources. The spec describes it as the "cheap closed-form lower
bound for where sieving begins", "related to the square root of the input
magnitude": the integer square root. -/
def isqrt (x : Int) : Int := Int.sqrt x

/-- Modelled from the spec: `ideal_num_threads` is declared in
`primecount-internal.hpp`, which is not among the sources. It "must return a
value in `[1, requested]`" and returns fewer than `requested` when
`total_work / min_chunk` is smaller:
`max(1, min(threads, sieve_limit / max(1, thread_threshold)))`. -/
def ideal_num_threads (threads sieve_limit thread_threshold : Int) : Int :=
  max 1 (min threads (cdiv sieve_limit (max 1 thread_threshold)))

/-- Modelled from the spec: `get_percent` is declared in
`primecount-internal.hpp`, which is not among the sources. The spec gives
`percent = 100 * progress / total`, here over exact rationals. -/
def get_percent (low limit : Int) : ℚ := 100 * (low : ℚ) / (limit : ℚ)

/-! ## LoadBalancerP2 -/

/-- The data members of `class LoadBalancerP2`. The member `precision_` only
selects the number of printed decimals and `lock_` only serialises the calls
of `get_work`; neither is read by the arithmetic and both are left out. -/
structure LoadBalancerP2 where
  low_ : Int
  sieve_limit_ : Int
  min_thread_dist_ : Int
  thread_dist_ : Int
  time_ : ℚ
  threads_ : Int
  is_print_ : Bool
  deriving DecidableEq

/-- What one call of `get_work` produces: the state it leaves behind, the two
reference parameters `low` and `high`, the returned `bool`, and the percentage
written to the status line by `print_status` (if a line was written). -/
structure Work where
  state : LoadBalancerP2
  low : Int
  high : Int
  ret : Bool
  status : Option ℚ
  deriving DecidableEq

namespace LoadBalancerP2

/-- The constructor `LoadBalancerP2::LoadBalancerP2(x, sieve_limit, threads,
is_print)`, with its arithmetic done on unbounded integers (`init64` below
is the same constructor with the arithmetic of `int64_t` and `int`). The
value of `(int64_t) std::pow(sieve_limit, 2.0 / 3.0)` is a
floating point computation and is taken as the parameter `O_primepi`. The
constructor does not assign `time_`; its initialiser is in
`LoadBalancerP2.hpp`, which is not among the sources. It starts at `0`, the
value that `print_status` tests for (as `double time_ = 0` in `StatusAC.hpp`). -/
def init (x sieve_limit threads : Int) (is_print : Bool) (O_primepi : Int) :
    LoadBalancerP2 :=
  let low_ := isqrt x
  let sieve_limit_ := sieve_limit
  let min_thread_dist_ := O_primepi * 10
  -- `max(O_primepi, 1 << 22)`: this assignment overwrites the one before
  let min_thread_dist_ := max O_primepi 4194304
  let low_ := min low_ sieve_limit_
  let dist := sieve_limit_ - low_
  let thread_dist_ := cdiv dist (threads * 8)
  let thread_dist_ := max min_thread_dist_ thread_dist_
  let threads_ := ideal_num_threads threads dist thread_dist_
  { low_ := low_
    sieve_limit_ := sieve_limit_
    min_thread_dist_ := min_thread_dist_
    thread_dist_ := thread_dist_
    time_ := 0
    threads_ := threads_
    is_print_ := is_print }

/-- The method `LoadBalancerP2::print_status()`, with the clock reading
`get_time()` as the parameter `time`. It returns the state it leaves behind
and the percentage it wrote to `cout`, if any. The source assigns no data
member here. -/
def print_status (s : LoadBalancerP2) (time : ℚ) : LoadBalancerP2 × Option ℚ :=
  if s.is_print_ then
    let old := s.time_
    let threshold : ℚ := 1 / 10
    if old = 0 ∨ time - old ≥ threshold then
      (s, some (get_percent s.low_ s.sieve_limit_))
    else
      (s, none)
  else
    (s, none)

/-- The method `LoadBalancerP2::get_work(low, high)`, called when the clock
reads `time`, with its arithmetic done on unbounded integers (`get_work64`
below is the same method with the arithmetic of `int64_t`). -/
def get_work (s : LoadBalancerP2) (time : ℚ) : Work :=
  let p := s.print_status time
  let s := p.1
  -- Calculate the remaining sieving distance
  let s := { s with low_ := min s.low_ s.sieve_limit_ }
  let dist := s.sieve_limit_ - s.low_
  let s :=
    if s.threads_ = 1 then
      if !s.is_print_ then { s with thread_dist_ := dist } else s
    else
      let max_thread_dist := cdiv dist s.threads_
      if s.thread_dist_ > max_thread_dist then
        { s with thread_dist_ := max s.min_thread_dist_ max_thread_dist }
      else s
  let low := s.low_
  let s := { s with low_ := s.low_ + s.thread_dist_ }
  let s := { s with low_ := min s.low_ s.sieve_limit_ }
  let high := s.low_
  { state := s, low := low, high := high, ret := decide (low < s.sieve_limit_),
    status := p.2 }

/-- The state of the load balancer before call number `n` (counted from `0`)
of `get_work`, when call number `i` is made at clock reading `clock i`. -/
def before (s : LoadBalancerP2) (clock : Nat → ℚ) : Nat → LoadBalancerP2
  | 0 => s
  | n + 1 => ((before s clock n).get_work (clock n)).state

/-- Call number `n` (counted from `0`) of `get_work` on the load balancer
that starts in state `s`. -/
def call (s : LoadBalancerP2) (clock : Nat → ℚ) (n : Nat) : Work :=
  (before s clock n).get_work (clock n)

/-! ### The same code with machine integers -/

/-- The constructor with the arithmetic of the C++ types: `x` is a
`maxint_t`, whose square root is narrowed to the `int64_t` member `low_`, the
`int` product `threads * 8` and the `int64_t` results wrap around, and the
constructor returns nothing (`none`) when the divisor `threads * 8` is `0`,
where the division traps. -/
def init64 (x sieve_limit threads : Int) (is_print : Bool) (O_primepi : Int) :
    Option LoadBalancerP2 :=
  let low_ := wrap64 (isqrt x)
  let sieve_limit_ := sieve_limit
  let min_thread_dist_ := wrap64 (O_primepi * 10)
  -- `max(O_primepi, 1 << 22)`: this assignment overwrites the one before
  let min_thread_dist_ := max O_primepi 4194304
  let low_ := min low_ sieve_limit_
  let dist := wrap64 (sieve_limit_ - low_)
  let threads8 := wrap32 (threads * 8)
  if threads8 = 0 then none
  else
    let thread_dist_ := cdiv dist threads8
    let thread_dist_ := max min_thread_dist_ thread_dist_
    let threads_ := ideal_num_threads threads dist thread_dist_
    some
      { low_ := low_
        sieve_limit_ := sieve_limit_
        min_thread_dist_ := min_thread_dist_
        thread_dist_ := thread_dist_
        time_ := 0
        threads_ := threads_
        is_print_ := is_print }

/-- The method `get_work` with the arithmetic of `int64_t`: the results of
`sieve_limit_ - low_` and of `low_ += thread_dist_` wrap around. The divisor
`threads_` is at least `1` in every state that the constructor builds. -/
def get_work64 (s : LoadBalancerP2) (time : ℚ) : Work :=
  let p := s.print_status time
  let s := p.1
  -- Calculate the remaining sieving distance
  let s := { s with low_ := min s.low_ s.sieve_limit_ }
  let dist := wrap64 (s.sieve_limit_ - s.low_)
  let s :=
    if s.threads_ = 1 then
      if !s.is_print_ then { s with thread_dist_ := dist } else s
    else
      let max_thread_dist := cdiv dist s.threads_
      if s.thread_dist_ > max_thread_dist then
        { s with thread_dist_ := max s.min_thread_dist_ max_thread_dist }
      else s
  let low := s.low_
  let s := { s with low_ := wrap64 (s.low_ + s.thread_dist_) }
  let s := { s with low_ := min s.low_ s.sieve_limit_ }
  let high := s.low_
  { state := s, low := low, high := high, ret := decide (low < s.sieve_limit_),
    status := p.2 }

/-- The state before call number `n` (counted from `0`) of `get_work64`. -/
def before64 (s : LoadBalancerP2) (clock : Nat → ℚ) : Nat → LoadBalancerP2
  | 0 => s
  | n + 1 => ((before64 s clock n).get_work64 (clock n)).state

/-- Call number `n` (counted from `0`) of `get_work64` on the load balancer
that starts in state `s`. -/
def call64 (s : LoadBalancerP2) (clock : Nat → ℚ) (n : Nat) : Work :=
  (before64 s clock n).get_work64 (clock n)

/-- The facts about the data members that hold after the constructor and are
kept by every call of `get_work`. -/
structure Inv (s : LoadBalancerP2) : Prop where
  low_nonneg : 0 ≤ s.low_
  low_le : s.low_ ≤ s.sieve_limit_
  min_pos : 0 < s.min_thread_dist_
  threads_pos : 1 ≤ s.threads_
  dist_ok : s.min_thread_dist_ ≤ s.thread_dist_ ∨ (s.threads_ = 1 ∧ s.is_print_ = false)

end LoadBalancerP2

/-! ## for_atomic_inc -/

/-- Where a thread stands in the loop `for_atomic_inc(start, b < end, atomic_i)`:
`first` before the `compare_exchange_strong` of the loop initialiser, `fetch`
when its next atomic operation is a `fetch_add(1)` (after a failed
`compare_exchange_strong`, or after a run of the loop body), `done` after the
loop condition was false. -/
inductive Pc where
  | first
  | fetch
  | done
  deriving DecidableEq

/-- The shared counter `atomic_i`, the position of every thread, and the
values of `b` for which some thread ran the loop body, latest first. -/
structure AtomicLoop where
  atomic_i : Int
  pc : List Pc
  claimed : List Int
  deriving DecidableEq

namespace AtomicLoop

/-- Before any thread has entered the loop: the counter holds `-1` and each
of the `N` threads is in front of the loop initialiser. -/
def start (N : Nat) : AtomicLoop :=
  { atomic_i := -1, pc := List.replicate N Pc.first, claimed := [] }

/-- Thread `t` has assigned `b`: it evaluates the loop condition `b < end_`,
runs the body when it holds and leaves the loop otherwise. -/
def enter (end_ : Int) (s : AtomicLoop) (t : Nat) (b : Int) : AtomicLoop :=
  if b < end_ then
    { s with pc := s.pc.set t Pc.fetch, claimed := b :: s.claimed }
  else
    { s with pc := s.pc.set t Pc.done }

/-- One atomic operation of thread `t` in `for_atomic_inc(start, b < end_,
atomic_i)`; `none` when there is no thread `t` or it has left the loop. A
`compare_exchange_strong` that fails and the `fetch_add(1)` that follows it
are two atomic operations, so other threads may act between them. -/
def step (start end_ : Int) (s : AtomicLoop) (t : Nat) : Option AtomicLoop :=
  match s.pc.get? t with
  | none => none
  | some Pc.done => none
  | some Pc.first =>
    -- `atomic_i.compare_exchange_strong(is_first_thread, start + 1)`
    if s.atomic_i = -1 then
      some (enter end_ { s with atomic_i := start + 1 } t start)
    else
      some { s with pc := s.pc.set t Pc.fetch }
  | some Pc.fetch =>
    -- `b = atomic_i.fetch_add(1)`
    some (enter end_ { s with atomic_i := s.atomic_i + 1 } t s.atomic_i)

/-- The atomic operations of an interleaving, given as the list of the
threads that act, one after the other. -/
def run (start end_ : Int) (s : AtomicLoop) : List Nat → Option AtomicLoop
  | [] => some s
  | t :: ts => (step start end_ s t).bind fun s1 => run start end_ s1 ts

/-- Every thread has left the loop. -/
def finished (s : AtomicLoop) : Prop := ∀ p ∈ s.pc, p = Pc.done

instance (s : AtomicLoop) : Decidable s.finished := by
  unfold finished; infer_instance

/-- The values `start, start + 1, ..., start + n - 1`, each once. -/
def values (start : Int) (n : Nat) : Multiset Int :=
  Multiset.map (fun j : Nat => start + (j : Int)) (Multiset.range n)

/-- What holds of the loop over `[S, S + K)` run by `N` threads when
`-1 <= S`: either no thread has passed its `compare_exchange_strong` and the
counter still holds `-1`, or the counter is above `S`, the values claimed so
far are those from `S` up to the counter (and below `S + K`), and a thread
has left the loop only if the counter is above `S + K`. -/
def Good (S : Int) (K N : Nat) (s : AtomicLoop) : Prop :=
  s.pc.length = N ∧
  ((s.atomic_i = -1 ∧ s.claimed = [] ∧ ∀ p ∈ s.pc, p = Pc.first) ∨
   (S + 1 ≤ s.atomic_i ∧
    (s.claimed : Multiset Int) = values S (min (s.atomic_i - S).toNat K) ∧
    ∀ p ∈ s.pc, p = Pc.done → S + K < s.atomic_i))

/-! ### for_atomic_add -/

/-- One atomic operation of thread `t` in `for_atomic_add(start, b < end_,
atomic_i, inc)`: as `step`, with `start + inc` stored by the
`compare_exchange_strong` and `inc` added by every `fetch_add`. -/
def step_add (start end_ inc : Int) (s : AtomicLoop) (t : Nat) : Option AtomicLoop :=
  match s.pc.get? t with
  | none => none
  | some Pc.done => none
  | some Pc.first =>
    -- `atomic_i.compare_exchange_strong(is_first_thread, start + inc)`
    if s.atomic_i = -1 then
      some (enter end_ { s with atomic_i := start + inc } t start)
    else
      some { s with pc := s.pc.set t Pc.fetch }
  | some Pc.fetch =>
    -- `b = atomic_i.fetch_add(inc)`
    some (enter end_ { s with atomic_i := s.atomic_i + inc } t s.atomic_i)

/-- The atomic operations of an interleaving of `for_atomic_add`. -/
def run_add (start end_ inc : Int) (s : AtomicLoop) : List Nat → Option AtomicLoop
  | [] => some s
  | t :: ts => (step_add start end_ inc s t).bind fun s1 => run_add start end_ inc s1 ts

/-- The values `start + j * inc` for `j < m` that are below `end_`, each once. -/
def strided (start end_ inc : Int) (m : Nat) : Multiset Int :=
  Multiset.filter (fun v => v < end_)
    (Multiset.map (fun j : Nat => start + (j : Int) * inc) (Multiset.range m))

/-- What holds of the strided loop from `S` to `E` run by `N` threads when
`0 <= S` and `1 <= inc`: either no thread has passed its
`compare_exchange_strong` and the counter still holds `-1`, or the counter is
`S + m * inc` for some `m >= 1`, the values claimed so far are the
`S + j * inc` below `E` with `j < m`, and a thread has left the loop only if
`E <= S + (m - 1) * inc`. -/
def GoodAdd (S E inc : Int) (N : Nat) (s : AtomicLoop) : Prop :=
  s.pc.length = N ∧
  ((s.atomic_i = -1 ∧ s.claimed = [] ∧ ∀ p ∈ s.pc, p = Pc.first) ∨
   ∃ m : Nat, s.atomic_i = S + ((m : Int) + 1) * inc ∧
    (s.claimed : Multiset Int) = strided S E inc (m + 1) ∧
    ∀ p ∈ s.pc, p = Pc.done → E ≤ S + (m : Int) * inc)

end AtomicLoop

/-! ## Phi0: the ordinary leaves -/

/-- The `for` loop of `Phi0_thread<MU>(x, z, b, k, square_free, primes)`, at
the loop test with index `b` and accumulator `phi0`; `fuel` bounds the number
of iterations still to run, and `primes.length - b` of it are enough. The
function `phi_tiny` is declared in `PhiTiny.hpp`, which is not among the
sources, and is a parameter. -/
def Phi0_thread_loop (phi_tiny : Int → Int → Int) (x z k : Int) (primes : List Int) :
    Nat → Int → Nat → Int → Int → Int
  | 0, _, _, _, phi0 => phi0
  | fuel + 1, MU, b, square_free, phi0 =>
    if h : b < primes.length then
      let next := square_free * primes[b]
      if next > z then phi0
      else
        let phi0 := phi0 + MU * phi_tiny (cdiv x next) k
        -- `Phi0_thread<-MU>(x, z, b, k, next, primes)`
        let phi0 := phi0 + Phi0_thread_loop phi_tiny x z k primes fuel (-MU) (b + 1) next 0
        Phi0_thread_loop phi_tiny x z k primes fuel MU (b + 1) square_free phi0
    else phi0

/-- The function `Phi0_thread<MU>(x, z, b, k, square_free, primes)`: the loop
starts at `b + 1` with `phi0 = 0`. -/
def Phi0_thread (phi_tiny : Int → Int → Int) (MU : Int) (x z : Int) (b : Nat) (k : Int)
    (square_free : Int) (primes : List Int) : Int :=
  Phi0_thread_loop phi_tiny x z k primes primes.length MU (b + 1) square_free 0

/-- The function `Phi0_OpenMP(x, y, z, k, threads)`. The vector returned by
`generate_primes<Y>(y)` (not among the sources) is the parameter `primes`;
`threads` only sets the number of OpenMP threads, and the iterations of the
parallel loop with `reduction(+: phi0)` are added up one after the other. -/
def Phi0_OpenMP (phi_tiny : Int → Int → Int) (x : Int) (primes : List Int) (z k : Int) :
    Int :=
  let pi_y := primes.length
  let phi0 := phi_tiny x k
  (List.range' (k + 1).toNat (pi_y - (k + 1).toNat)).foldl
    (fun phi0 b =>
      let phi0 := phi0 - phi_tiny (cdiv x (primes.getD b 0)) k
      phi0 + Phi0_thread phi_tiny 1 x z b k (primes.getD b 0) primes)
    phi0

/-- The loop of `Phi0_thread<MU>` as a recursion over the primes that are
still to come: the sum that the loop adds to `phi0`. -/
def leaves (phi_tiny : Int → Int → Int) (x z k : Int) : Int → Int → List Int → Int
  | _, _, [] => 0
  | MU, square_free, p :: ps =>
    if square_free * p > z then 0
    else MU * phi_tiny (cdiv x (square_free * p)) k
      + leaves phi_tiny x z k (-MU) (square_free * p) ps
      + leaves phi_tiny x z k MU square_free ps

/-- The sum over the subsets `T` of a set `S` of numbers with
`sq * prod(T) <= z` of the terms `(-1)^|T| * phi_tiny(x / (sq * prod(T)), k)`. -/
def subset_leaves (phi_tiny : Int → Int → Int) (x z k : Int) (sq : Int) (S : Finset Nat) :
    Int :=
  ∑ T in S.powerset,
    if sq * ((∏ i in T, i : Nat) : Int) ≤ z then
      (-1) ^ T.card * phi_tiny (cdiv x (sq * ((∏ i in T, i : Nat) : Int))) k
    else 0

/-- The sum of the ordinary leaves as the file comment of `Phi0.cpp`
describes it: over all square free numbers `n <= z` (and `n = 1`) whose prime
factors are among `primes[k + 1], primes[k + 2], ...`, the terms
`mu(n) * phi_tiny(x / n, k)` with `mu(n) = (-1)^(number of prime factors of n)`. -/
def ordinary_leaves (phi_tiny : Int → Int → Int) (x : Int) (primes : List Int) (z k : Int) :
    Int :=
  ∑ n in insert 1 ((Finset.Icc 1 z.toNat).filter fun n =>
      Squarefree n ∧ ∀ p : Nat, p ∈ n.primeFactors → (p : Int) ∈ primes.drop (k + 1).toNat),
    (-1) ^ n.primeFactors.card * phi_tiny ((x : Int) / (n : Int)) k

/-! ### The same code with machine integers -/

/-- The loop of `Phi0_thread<MU>` for `T = int64_t`, as `Phi0(int64_t x, ...)`
instantiates it: the product `square_free * primes[b]` and the sums that
`phi0 += ...` stores wrap around. The divisor `next` is not `0` for the
primes that `generate_primes` returns: a product of distinct primes is not a
multiple of `2^64`. -/
def Phi0_thread_loop64 (phi_tiny : Int → Int → Int) (x z k : Int) (primes : List Int) :
    Nat → Int → Nat → Int → Int → Int
  | 0, _, _, _, phi0 => phi0
  | fuel + 1, MU, b, square_free, phi0 =>
    if h : b < primes.length then
      let next := wrap64 (square_free * primes[b])
      if next > z then phi0
      else
        let phi0 := wrap64 (phi0 + wrap64 (MU * phi_tiny (cdiv x next) k))
        -- `Phi0_thread<-MU>(x, z, b, k, next, primes)`
        let phi0 := wrap64 (phi0
          + Phi0_thread_loop64 phi_tiny x z k primes fuel (-MU) (b + 1) next 0)
        Phi0_thread_loop64 phi_tiny x z k primes fuel MU (b + 1) square_free phi0
    else phi0

/-- The function `Phi0_thread<MU>` for `T = int64_t`. -/
def Phi0_thread64 (phi_tiny : Int → Int → Int) (MU : Int) (x z : Int) (b : Nat) (k : Int)
    (square_free : Int) (primes : List Int) : Int :=
  Phi0_thread_loop64 phi_tiny x z k primes primes.length MU (b + 1) square_free 0

/-- The function `Phi0_OpenMP` for `X = int64_t`, with the vector of
`generate_primes<Y>(y)` as the parameter `primes`: the value of `phi0` is
an `int64_t` from its initialisation on, and `phi0 -= ...` and `phi0 += ...`
wrap around. -/
def Phi0_OpenMP64 (phi_tiny : Int → Int → Int) (x : Int) (primes : List Int) (z k : Int) :
    Int :=
  let pi_y := primes.length
  let phi0 := wrap64 (phi_tiny x k)
  (List.range' (k + 1).toNat (pi_y - (k + 1).toNat)).foldl
    (fun phi0 b =>
      let phi0 := wrap64 (phi0 - phi_tiny (cdiv x (primes.getD b 0)) k)
      wrap64 (phi0 + Phi0_thread64 phi_tiny 1 x z b k (primes.getD b 0) primes))
    phi0

/-- The loop of `Phi0_thread<MU>` for `T = int64_t` as a recursion over the
primes that are still to come: the terms that the loop adds to `phi0`, with
the product `square_free * p` wrapping around. -/
def leaves64 (phi_tiny : Int → Int → Int) (x z k : Int) : Int → Int → List Int → Int
  | _, _, [] => 0
  | MU, square_free, p :: ps =>
    if wrap64 (square_free * p) > z then 0
    else MU * phi_tiny (cdiv x (wrap64 (square_free * p))) k
      + leaves64 phi_tiny x z k (-MU) (wrap64 (square_free * p)) ps
      + leaves64 phi_tiny x z k MU square_free ps

end primecount

/-! ## Theorems about LoadBalancerP2 -/

namespace primecount

theorem cdiv_eq_ediv {a b : Int} (ha : 0 ≤ a) (hb : 0 ≤ b) : cdiv a b = a / b :=
  Int.tdiv_eq_ediv ha hb

theorem cdiv_nonneg {a b : Int} (ha : 0 ≤ a) (hb : 0 ≤ b) : 0 ≤ cdiv a b :=
  Int.tdiv_nonneg ha hb

theorem isqrt_nonneg (x : Int) : 0 ≤ isqrt x := Int.sqrt_nonneg x

theorem ideal_num_threads_pos (t d c : Int) : 1 ≤ ideal_num_threads t d c := by
  unfold ideal_num_threads; omega

namespace LoadBalancerP2

/-- The start of the sieving distance that the constructor stores in `low_`. -/
theorem init_low (x sl t : Int) (p : Bool) (O : Int) :
    (init x sl t p O).low_ = min (isqrt x) sl := rfl

theorem init_sieve_limit (x sl t : Int) (p : Bool) (O : Int) :
    (init x sl t p O).sieve_limit_ = sl := rfl

theorem init_min_thread_dist (x sl t : Int) (p : Bool) (O : Int) :
    (init x sl t p O).min_thread_dist_ = max O 4194304 := rfl

theorem init_inv (x sl t : Int) (p : Bool) (O : Int) (hsl : 0 ≤ sl) :
    Inv (init x sl t p O) := by
  have h := isqrt_nonneg x
  refine ⟨?_, ?_, ?_, ?_, ?_⟩
  · show 0 ≤ min (isqrt x) sl
    omega
  · show min (isqrt x) sl ≤ sl
    omega
  · show 0 < max O 4194304
    omega
  · exact ideal_num_threads_pos _ _ _
  · left
    show max O 4194304 ≤ max (max O 4194304) _
    omega

/-- A call of `print_status` leaves every data member as it was; in
particular it does not store the clock reading in `time_`. -/
theorem print_status_state (s : LoadBalancerP2) (time : ℚ) :
    (s.print_status time).1 = s := by
  simp only [print_status]; split_ifs <;> rfl

/-- The effect of one call of `get_work` in a state that satisfies `Inv`. -/
theorem get_work_spec (s : LoadBalancerP2) (time : ℚ) (h : Inv s) :
    (s.get_work time).low = s.low_ ∧
    (s.get_work time).high = (s.get_work time).state.low_ ∧
    (s.get_work time).ret = decide (s.low_ < s.sieve_limit_) ∧
    (s.get_work time).state.sieve_limit_ = s.sieve_limit_ ∧
    (s.get_work time).state.min_thread_dist_ = s.min_thread_dist_ ∧
    (s.get_work time).state.threads_ = s.threads_ ∧
    (s.get_work time).state.is_print_ = s.is_print_ ∧
    s.low_ ≤ (s.get_work time).state.low_ ∧
    (s.low_ < s.sieve_limit_ → s.low_ < (s.get_work time).state.low_) ∧
    Inv (s.get_work time).state := by
  obtain ⟨h0, h1, h2, h3, h4⟩ := h
  have hp : (s.print_status time).1 = s := print_status_state s time
  have hm : min s.low_ s.sieve_limit_ = s.low_ := min_eq_left h1
  have hd : 0 ≤ cdiv (s.sieve_limit_ - s.low_) s.threads_ :=
    cdiv_nonneg (by omega) (by omega)
  simp only [get_work, hp, hm]
  by_cases ht : s.threads_ = 1
  · by_cases hpr : s.is_print_ = true
    · have h5 : s.min_thread_dist_ ≤ s.thread_dist_ := by
        rcases h4 with h4 | h4
        · exact h4
        · rw [hpr] at h4; exact absurd h4.2 (by decide)
      simp only [ht, hpr, if_true, Bool.not_true, Bool.false_eq_true, if_false]
      refine ⟨?_, ?_, ?_, ?_, ?_, ?_, ?_, ?_, ?_, ?_, ?_, ?_, ?_, ?_⟩ <;>
        (try simp only [min_def, max_def]) <;> (try split_ifs) <;>
        first | trivial | rfl | omega
    · simp only [Bool.not_eq_true] at hpr
      simp only [ht, hpr, if_true, Bool.not_false]
      refine ⟨?_, ?_, ?_, ?_, ?_, ?_, ?_, ?_, ?_, ?_, ?_, ?_, ?_, ?_⟩ <;>
        (try simp only [min_def, max_def]) <;> (try split_ifs) <;>
        first | trivial | rfl | omega | (right; simp)
  · have h5 : s.min_thread_dist_ ≤ s.thread_dist_ := by
      rcases h4 with h4 | h4
      · exact h4
      · exact absurd h4.1 ht
    simp only [ht, if_false]
    split_ifs with hc
    · refine ⟨?_, ?_, ?_, ?_, ?_, ?_, ?_, ?_, ?_, ?_, ?_, ?_, ?_, ?_⟩ <;>
        (try simp only [min_def, max_def]) <;> (try split_ifs) <;>
        first | trivial | rfl | omega
    · refine ⟨?_, ?_, ?_, ?_, ?_, ?_, ?_, ?_, ?_, ?_, ?_, ?_, ?_, ?_⟩ <;>
        (try simp only [min_def, max_def]) <;> (try split_ifs) <;>
        first | trivial | rfl | omega

theorem before_inv (s : LoadBalancerP2) (clock : Nat → ℚ) (h : Inv s) (n : Nat) :
    Inv (before s clock n) := by
  induction n with
  | zero => exact h
  | succ n ih => exact (get_work_spec _ (clock n) ih).2.2.2.2.2.2.2.2.2

theorem before_fixed (s : LoadBalancerP2) (clock : Nat → ℚ) (h : Inv s) (n : Nat) :
    (before s clock n).sieve_limit_ = s.sieve_limit_ ∧
    (before s clock n).min_thread_dist_ = s.min_thread_dist_ ∧
    (before s clock n).threads_ = s.threads_ ∧
    (before s clock n).is_print_ = s.is_print_ := by
  induction n with
  | zero => exact ⟨rfl, rfl, rfl, rfl⟩
  | succ n ih =>
    obtain ⟨-, -, -, h4, h5, h6, h7, -⟩ := get_work_spec _ (clock n) (before_inv s clock h n)
    exact ⟨h4.trans ih.1, h5.trans ih.2.1, h6.trans ih.2.2.1, h7.trans ih.2.2.2⟩

theorem call_low (s : LoadBalancerP2) (clock : Nat → ℚ) (h : Inv s) (n : Nat) :
    (call s clock n).low = (before s clock n).low_ :=
  (get_work_spec _ (clock n) (before_inv s clock h n)).1

theorem call_high (s : LoadBalancerP2) (clock : Nat → ℚ) (h : Inv s) (n : Nat) :
    (call s clock n).high = (before s clock (n + 1)).low_ :=
  (get_work_spec _ (clock n) (before_inv s clock h n)).2.1

theorem call_ret (s : LoadBalancerP2) (clock : Nat → ℚ) (h : Inv s) (n : Nat) :
    (call s clock n).ret = decide ((before s clock n).low_ < s.sieve_limit_) := by
  have h1 := (get_work_spec _ (clock n) (before_inv s clock h n)).2.2.1
  rw [(before_fixed s clock h n).1] at h1
  exact h1

theorem low_le_limit (s : LoadBalancerP2) (clock : Nat → ℚ) (h : Inv s) (n : Nat) :
    (before s clock n).low_ ≤ s.sieve_limit_ := by
  have h1 := (before_inv s clock h n).low_le
  rw [(before_fixed s clock h n).1] at h1
  exact h1

theorem low_step (s : LoadBalancerP2) (clock : Nat → ℚ) (h : Inv s) (n : Nat) :
    (before s clock n).low_ ≤ (before s clock (n + 1)).low_ :=
  (get_work_spec _ (clock n) (before_inv s clock h n)).2.2.2.2.2.2.2.1

theorem low_step_lt (s : LoadBalancerP2) (clock : Nat → ℚ) (h : Inv s) (n : Nat)
    (hlt : (before s clock n).low_ < s.sieve_limit_) :
    (before s clock n).low_ < (before s clock (n + 1)).low_ := by
  have h1 := (get_work_spec _ (clock n) (before_inv s clock h n)).2.2.2.2.2.2.2.2.1
  rw [(before_fixed s clock h n).1] at h1
  exact h1 hlt

theorem low_mono (s : LoadBalancerP2) (clock : Nat → ℚ) (h : Inv s) {i j : Nat}
    (hij : i ≤ j) : (before s clock i).low_ ≤ (before s clock j).low_ := by
  induction j with
  | zero =>
    have : i = 0 := by omega
    subst this; exact le_refl _
  | succ j ih =>
    rcases Nat.lt_or_ge i (j + 1) with hlt | hge
    · exact le_trans (ih (by omega)) (low_step s clock h j)
    · have : i = j + 1 := by omega
      subst this; exact le_refl _

/-- Every call moves `low_` forward by at least one until it reaches
`sieve_limit_`. -/
theorem low_progress (s : LoadBalancerP2) (clock : Nat → ℚ) (h : Inv s) (n : Nat) :
    min s.sieve_limit_ (s.low_ + n) ≤ (before s clock n).low_ := by
  induction n with
  | zero =>
    show min s.sieve_limit_ (s.low_ + ((0 : Nat) : Int)) ≤ s.low_
    have := h.low_le
    omega
  | succ n ih =>
    have h1 := low_step s clock h n
    have h2 := low_le_limit s clock h n
    rcases lt_or_ge (before s clock n).low_ s.sieve_limit_ with hlt | hge
    · have h3 := low_step_lt s clock h n hlt
      push_cast
      omega
    · push_cast
      omega

theorem low_reaches_limit (s : LoadBalancerP2) (clock : Nat → ℚ) (h : Inv s) :
    ∃ n, (before s clock n).low_ = s.sieve_limit_ := by
  refine ⟨(s.sieve_limit_ - s.low_).toNat, ?_⟩
  have h1 := low_progress s clock h (s.sieve_limit_ - s.low_).toNat
  have h2 := low_le_limit s clock h (s.sieve_limit_ - s.low_).toNat
  have h3 := h.low_le
  have h4 : (((s.sieve_limit_ - s.low_).toNat : Nat) : Int) = s.sieve_limit_ - s.low_ :=
    Int.toNat_of_nonneg (by omega)
  omega

/-- The calls of `get_work` that return true: there is an `n` such that
`low_` is below `sieve_limit_` before each of the first `n` calls and equal
to it before call `n`. -/
theorem exists_last_call (s : LoadBalancerP2) (clock : Nat → ℚ) (h : Inv s) :
    ∃ n, (∀ i, i < n → (before s clock i).low_ < s.sieve_limit_) ∧
      (before s clock n).low_ = s.sieve_limit_ := by
  classical
  have hex := low_reaches_limit s clock h
  refine ⟨Nat.find hex, ?_, Nat.find_spec hex⟩
  intro i hi
  have h1 := Nat.find_min hex hi
  have h2 := low_le_limit s clock h i
  omega

/-- A value lies in one of the first `n` adjacent intervals of a
non-decreasing sequence exactly if it lies between its first and its `n`-th
member. -/
theorem mem_chunks (L : Nat → Int) (hL : ∀ i, L i ≤ L (i + 1)) (n : Nat) (v : Int) :
    (∃ i, i < n ∧ L i ≤ v ∧ v < L (i + 1)) ↔ (L 0 ≤ v ∧ v < L n) := by
  induction n with
  | zero =>
    constructor
    · rintro ⟨i, hi, -⟩; omega
    · rintro ⟨h1, h2⟩; omega
  | succ n ih =>
    have hmono : L 0 ≤ L n := by
      clear ih
      induction n with
      | zero => exact le_refl _
      | succ m ihm => exact le_trans ihm (hL m)
    constructor
    · rintro ⟨i, hi, h1, h2⟩
      rcases Nat.lt_or_ge i n with hlt | hge
      · have := (ih.mp ⟨i, hlt, h1, h2⟩)
        have := hL n
        omega
      · have : i = n := by omega
        subst this
        omega
    · rintro ⟨h1, h2⟩
      rcases lt_or_ge v (L n) with hlt | hge
      · obtain ⟨i, hi, h3, h4⟩ := ih.mpr ⟨h1, hlt⟩
        exact ⟨i, by omega, h3, h4⟩
      · exact ⟨n, by omega, hge, h2⟩

/-- C1: the ranges `[low, high)` written by the calls of `get_work` that
return true are contiguous (the first starts at `low0 = min(isqrt(x),
sieve_limit)`, each later one starts at the `high` of the one before),
non-empty, pairwise disjoint and in increasing order; their union is exactly
`[low0, sieve_limit)` and their widths add up to `sieve_limit - low0`. -/
theorem get_work_partition (x sieve_limit threads : Int) (is_print : Bool)
    (O_primepi : Int) (clock : Nat → ℚ)
    (hx : 0 ≤ x) (hs : 0 ≤ sieve_limit) (ht : 1 ≤ threads) :
    ∃ n : Nat,
      (∀ i, i < n → ((init x sieve_limit threads is_print O_primepi).call clock i).ret = true) ∧
      ((init x sieve_limit threads is_print O_primepi).call clock n).ret = false ∧
      (0 < n → ((init x sieve_limit threads is_print O_primepi).call clock 0).low
        = min (isqrt x) sieve_limit) ∧
      (∀ i, i + 1 < n →
        ((init x sieve_limit threads is_print O_primepi).call clock (i + 1)).low
          = ((init x sieve_limit threads is_print O_primepi).call clock i).high) ∧
      (∀ i, i < n →
        ((init x sieve_limit threads is_print O_primepi).call clock i).low
          < ((init x sieve_limit threads is_print O_primepi).call clock i).high) ∧
      (∀ i j, i < j → j < n →
        ((init x sieve_limit threads is_print O_primepi).call clock i).high
          ≤ ((init x sieve_limit threads is_print O_primepi).call clock j).low) ∧
      (∀ v : Int,
        (∃ i, i < n ∧ ((init x sieve_limit threads is_print O_primepi).call clock i).low ≤ v ∧
          v < ((init x sieve_limit threads is_print O_primepi).call clock i).high)
        ↔ (min (isqrt x) sieve_limit ≤ v ∧ v < sieve_limit)) ∧
      ∑ i in Finset.range n,
        (((init x sieve_limit threads is_print O_primepi).call clock i).high
          - ((init x sieve_limit threads is_print O_primepi).call clock i).low)
        = sieve_limit - min (isqrt x) sieve_limit := by
  have hinv := init_inv x sieve_limit threads is_print O_primepi hs
  generalize hlb : init x sieve_limit threads is_print O_primepi = lb at hinv ⊢
  have hsl : lb.sieve_limit_ = sieve_limit := by rw [← hlb]; rfl
  have hlow : lb.low_ = min (isqrt x) sieve_limit := by rw [← hlb]; rfl
  obtain ⟨n, hn1, hn2⟩ := exists_last_call lb clock hinv
  rw [hsl] at hn1 hn2
  have hlo := call_low lb clock hinv
  have hhi := call_high lb clock hinv
  have hret := call_ret lb clock hinv
  rw [hsl] at hret
  have hstep := low_step lb clock hinv
  refine ⟨n, ?_, ?_, ?_, ?_, ?_, ?_, ?_, ?_⟩
  · intro i hi
    rw [hret]
    exact decide_eq_true (hn1 i hi)
  · rw [hret, hn2]
    exact decide_eq_false (lt_irrefl _)
  · intro _
    rw [hlo]
    exact hlow
  · intro i _
    rw [hlo, hhi]
  · intro i hi
    rw [hlo, hhi]
    exact low_step_lt lb clock hinv i (by rw [hsl]; exact hn1 i hi)
  · intro i j hij _
    rw [hlo, hhi]
    exact low_mono lb clock hinv (by omega)
  · intro v
    have hm := mem_chunks (fun i => (before lb clock i).low_) hstep n v
    simp only [hlo, hhi]
    rw [hm, hn2]
    show lb.low_ ≤ v ∧ v < sieve_limit ↔ _
    rw [hlow]
  · simp only [hlo, hhi]
    rw [Finset.sum_range_sub (fun i => (before lb clock i).low_) n, hn2]
    show sieve_limit - lb.low_ = _
    rw [hlow]

/-- C1, witness: `x = 1`, `sieve_limit = 50000000`, four threads. -/
theorem get_work_partition_witness :
    (0 : Int) ≤ 1 ∧ (0 : Int) ≤ 50000000 ∧ (1 : Int) ≤ 4 ∧
    ∃ n : Nat,
      (∀ i, i < n → ((init 1 50000000 4 true 13).call (fun k : Nat => (k : ℚ)) i).ret = true) ∧
      ((init 1 50000000 4 true 13).call (fun k : Nat => (k : ℚ)) n).ret = false ∧
      (0 < n → ((init 1 50000000 4 true 13).call (fun k : Nat => (k : ℚ)) 0).low
        = min (isqrt 1) 50000000) ∧
      (∀ i, i + 1 < n →
        ((init 1 50000000 4 true 13).call (fun k : Nat => (k : ℚ)) (i + 1)).low
          = ((init 1 50000000 4 true 13).call (fun k : Nat => (k : ℚ)) i).high) ∧
      (∀ i, i < n →
        ((init 1 50000000 4 true 13).call (fun k : Nat => (k : ℚ)) i).low
          < ((init 1 50000000 4 true 13).call (fun k : Nat => (k : ℚ)) i).high) ∧
      (∀ i j, i < j → j < n →
        ((init 1 50000000 4 true 13).call (fun k : Nat => (k : ℚ)) i).high
          ≤ ((init 1 50000000 4 true 13).call (fun k : Nat => (k : ℚ)) j).low) ∧
      (∀ v : Int,
        (∃ i, i < n ∧ ((init 1 50000000 4 true 13).call (fun k : Nat => (k : ℚ)) i).low ≤ v ∧
          v < ((init 1 50000000 4 true 13).call (fun k : Nat => (k : ℚ)) i).high)
        ↔ (min (isqrt 1) 50000000 ≤ v ∧ v < 50000000)) ∧
      ∑ i in Finset.range n,
        (((init 1 50000000 4 true 13).call (fun k : Nat => (k : ℚ)) i).high
          - ((init 1 50000000 4 true 13).call (fun k : Nat => (k : ℚ)) i).low)
        = 50000000 - min (isqrt 1) 50000000 :=
  ⟨by decide, by decide, by decide,
    get_work_partition 1 50000000 4 true 13 (fun k : Nat => (k : ℚ))
      (by decide) (by decide) (by decide)⟩

/-- Over unbounded integers the calls of `get_work` come to an end: there is
an `n` such that the first `n` calls return true and the next call returns
false, and before that call the cursor `low_` equals `sieve_limit`. -/
theorem get_work_terminates (x sieve_limit threads : Int) (is_print : Bool)
    (O_primepi : Int) (clock : Nat → ℚ)
    (hx : 0 ≤ x) (hs : 0 ≤ sieve_limit) (ht : 1 ≤ threads) :
    ∃ n : Nat,
      (∀ i, i < n → ((init x sieve_limit threads is_print O_primepi).call clock i).ret = true) ∧
      ((init x sieve_limit threads is_print O_primepi).call clock n).ret = false ∧
      ((init x sieve_limit threads is_print O_primepi).before clock n).low_ = sieve_limit := by
  have hinv := init_inv x sieve_limit threads is_print O_primepi hs
  obtain ⟨n, hn1, hn2⟩ :=
    exists_last_call (init x sieve_limit threads is_print O_primepi) clock hinv
  rw [init_sieve_limit] at hn1 hn2
  refine ⟨n, ?_, ?_, hn2⟩
  · intro i hi
    rw [call_ret _ clock hinv, init_sieve_limit]
    exact decide_eq_true (hn1 i hi)
  · rw [call_ret _ clock hinv, init_sieve_limit, hn2]
    exact decide_eq_false (lt_irrefl _)

/-- Over unbounded integers a call of `get_work` returns true exactly if the
range it writes is non-empty, and a call that returns false writes
`low = high = sieve_limit`. -/
theorem get_work_true_iff_nonempty (x sieve_limit threads : Int) (is_print : Bool)
    (O_primepi : Int) (clock : Nat → ℚ) (n : Nat)
    (hs : 0 ≤ sieve_limit) (ht : 1 ≤ threads) :
    (((init x sieve_limit threads is_print O_primepi).call clock n).ret = true ↔
      ((init x sieve_limit threads is_print O_primepi).call clock n).low
        < ((init x sieve_limit threads is_print O_primepi).call clock n).high) ∧
    (((init x sieve_limit threads is_print O_primepi).call clock n).ret = false →
      ((init x sieve_limit threads is_print O_primepi).call clock n).low = sieve_limit ∧
      ((init x sieve_limit threads is_print O_primepi).call clock n).high = sieve_limit) := by
  have hinv := init_inv x sieve_limit threads is_print O_primepi hs
  rw [call_ret _ clock hinv, call_low _ clock hinv, call_high _ clock hinv, init_sieve_limit]
  have h1 := low_le_limit _ clock hinv n
  have h2 := low_le_limit _ clock hinv (n + 1)
  have h3 := low_step _ clock hinv n
  have h4 := low_step_lt _ clock hinv n
  rw [init_sieve_limit] at h1 h2 h4
  constructor
  · constructor
    · intro h
      exact h4 (of_decide_eq_true h)
    · intro h
      exact decide_eq_true (by omega)
  · intro h
    have := of_decide_eq_false h
    omega

/-- The thread count that the constructor stores: passing the initial
`thread_dist_` to `ideal_num_threads` gives the same result as passing
`min_thread_dist_`. -/
theorem init_threads_eq (x sl t : Int) (p : Bool) (O : Int) (hs : 0 ≤ sl) (ht : 1 ≤ t) :
    (init x sl t p O).threads_
      = ideal_num_threads t (sl - min (isqrt x) sl) (max O 4194304) := by
  show ideal_num_threads t (sl - min (isqrt x) sl)
      (max (max O 4194304) (cdiv (sl - min (isqrt x) sl) (t * 8)))
    = ideal_num_threads t (sl - min (isqrt x) sl) (max O 4194304)
  have hd : 0 ≤ sl - min (isqrt x) sl := by omega
  generalize sl - min (isqrt x) sl = d at hd
  have hm : 4194304 ≤ max O 4194304 := le_max_right _ _
  generalize max O 4194304 = m at hm
  rw [cdiv_eq_ediv hd (by omega)]
  rcases le_total (d / (t * 8)) m with hle | hge
  · rw [max_eq_left hle]
  · rw [max_eq_right hge]
    unfold ideal_num_threads
    have hq : 0 < d / (t * 8) := by omega
    rw [max_eq_right (by omega : (1 : Int) ≤ d / (t * 8)),
      max_eq_right (by omega : (1 : Int) ≤ m),
      cdiv_eq_ediv hd (by omega), cdiv_eq_ediv hd (by omega)]
    have h1 : d / (t * 8) * (t * 8) ≤ d := Int.ediv_mul_le d (by omega)
    have h2 : t * 8 ≤ d / (d / (t * 8)) :=
      Int.le_ediv_of_mul_le hq (by rw [mul_comm]; exact h1)
    have h3 : t * 8 * m ≤ d := by
      have : t * 8 * m ≤ t * 8 * (d / (t * 8)) :=
        mul_le_mul_of_nonneg_left hge (by omega)
      rw [mul_comm (t * 8) (d / (t * 8))] at this
      omega
    have h4 : t * 8 ≤ d / m := Int.le_ediv_of_mul_le (by omega) h3
    rw [min_eq_left (by omega : t ≤ d / (d / (t * 8))), min_eq_left (by omega : t ≤ d / m)]

/-- Over unbounded integers, when `isqrt(x) >= sieve_limit` the first call of
`get_work` returns false and writes `low = high = sieve_limit`. -/
theorem get_work_zero_work (x sieve_limit threads : Int) (is_print : Bool)
    (O_primepi : Int) (clock : Nat → ℚ)
    (hx : 0 ≤ x) (hs : 0 ≤ sieve_limit) (ht : 1 ≤ threads)
    (h : sieve_limit ≤ isqrt x) :
    ((init x sieve_limit threads is_print O_primepi).call clock 0).ret = false ∧
    ((init x sieve_limit threads is_print O_primepi).call clock 0).low = sieve_limit ∧
    ((init x sieve_limit threads is_print O_primepi).call clock 0).high = sieve_limit := by
  have hinv := init_inv x sieve_limit threads is_print O_primepi hs
  have hlow : ((init x sieve_limit threads is_print O_primepi).before clock 0).low_
      = sieve_limit := by
    show min (isqrt x) sieve_limit = sieve_limit
    exact min_eq_right h
  have h1 : ((init x sieve_limit threads is_print O_primepi).before clock 0).low_
      ≤ ((init x sieve_limit threads is_print O_primepi).before clock 1).low_ :=
    low_step _ clock hinv 0
  have h2 := low_le_limit _ clock hinv 1
  rw [init_sieve_limit] at h2
  refine ⟨?_, ?_, ?_⟩
  · rw [call_ret _ clock hinv, hlow, init_sieve_limit]
    exact decide_eq_false (lt_irrefl _)
  · rw [call_low _ clock hinv]; exact hlow
  · rw [call_high _ clock hinv]
    rw [hlow] at h1
    exact le_antisymm h2 h1

/-- Over unbounded integers the constructor stores `threads_ =
ideal_num_threads(threads, sieve_limit - low0, min_thread_dist_)`, and
whenever `threads_ > 1` then `threads_ * min_thread_dist_ <= sieve_limit - low0`. -/
theorem init_threads_min_chunk (x sieve_limit threads : Int) (is_print : Bool)
    (O_primepi : Int) (hx : 0 ≤ x) (hs : 0 ≤ sieve_limit) (ht : 1 ≤ threads) :
    (init x sieve_limit threads is_print O_primepi).threads_
      = ideal_num_threads threads (sieve_limit - min (isqrt x) sieve_limit)
          (init x sieve_limit threads is_print O_primepi).min_thread_dist_ ∧
    (1 < (init x sieve_limit threads is_print O_primepi).threads_ →
      (init x sieve_limit threads is_print O_primepi).threads_
          * (init x sieve_limit threads is_print O_primepi).min_thread_dist_
        ≤ sieve_limit - min (isqrt x) sieve_limit) := by
  rw [init_threads_eq x sieve_limit threads is_print O_primepi hs ht, init_min_thread_dist]
  refine ⟨rfl, ?_⟩
  have hd : 0 ≤ sieve_limit - min (isqrt x) sieve_limit := by omega
  generalize sieve_limit - min (isqrt x) sieve_limit = d at hd
  have hm : 4194304 ≤ max O_primepi 4194304 := le_max_right _ _
  generalize max O_primepi 4194304 = m at hm
  unfold ideal_num_threads
  rw [max_eq_right (by omega : (1 : Int) ≤ m), cdiv_eq_ediv hd (by omega)]
  intro h
  have h1 : max 1 (min threads (d / m)) ≤ d / m := by omega
  have h2 : d / m * m ≤ d := Int.ediv_mul_le d (by omega)
  have h3 : max 1 (min threads (d / m)) * m ≤ d / m * m :=
    mul_le_mul_of_nonneg_right h1 (by omega)
  omega

/-- Over unbounded integers and for `sieve_limit > 0` the percentage
`100 * low_ / sieve_limit` lies in `[0, 100]` before every call of `get_work`,
it does not decrease from one call to a later one, and it is the value that
a call writes to the status line. -/
theorem percent_monotone (x sieve_limit threads : Int) (is_print : Bool)
    (O_primepi : Int) (clock : Nat → ℚ)
    (hx : 0 ≤ x) (hs : 0 < sieve_limit) (ht : 1 ≤ threads) :
    (∀ n, 0 ≤ get_percent
          ((init x sieve_limit threads is_print O_primepi).before clock n).low_ sieve_limit ∧
        get_percent
          ((init x sieve_limit threads is_print O_primepi).before clock n).low_ sieve_limit
          ≤ 100) ∧
    (∀ i j, i ≤ j →
      get_percent
          ((init x sieve_limit threads is_print O_primepi).before clock i).low_ sieve_limit
        ≤ get_percent
          ((init x sieve_limit threads is_print O_primepi).before clock j).low_ sieve_limit) ∧
    (∀ n q, ((init x sieve_limit threads is_print O_primepi).call clock n).status = some q →
      q = get_percent
          ((init x sieve_limit threads is_print O_primepi).before clock n).low_ sieve_limit) := by
  have hinv := init_inv x sieve_limit threads is_print O_primepi (le_of_lt hs)
  have hsq : (0 : ℚ) < (sieve_limit : ℚ) := by exact_mod_cast hs
  refine ⟨?_, ?_, ?_⟩
  · intro n
    have h0 := (before_inv _ clock hinv n).low_nonneg
    have h1 := low_le_limit _ clock hinv n
    rw [init_sieve_limit] at h1
    have h0q : (0 : ℚ) ≤ (((init x sieve_limit threads is_print O_primepi).before clock n).low_ : ℚ) := by
      exact_mod_cast h0
    have h1q : ((((init x sieve_limit threads is_print O_primepi).before clock n).low_ : Int) : ℚ)
        ≤ (sieve_limit : ℚ) := by exact_mod_cast h1
    unfold get_percent
    constructor
    · positivity
    · rw [div_le_iff₀ hsq]
      linarith
  · intro i j hij
    have h1 := low_mono _ clock hinv hij
    have h1q : ((((init x sieve_limit threads is_print O_primepi).before clock i).low_ : Int) : ℚ)
        ≤ ((((init x sieve_limit threads is_print O_primepi).before clock j).low_ : Int) : ℚ) := by
      exact_mod_cast h1
    unfold get_percent
    apply div_le_div_of_nonneg_right _ (le_of_lt hsq)
    linarith
  · intro n q hq
    have hfix := (before_fixed _ clock hinv n).1
    rw [init_sieve_limit] at hfix
    simp only [call, get_work, print_status] at hq
    rw [hfix] at hq
    split_ifs at hq
    exact (Option.some.inj hq).symm

/-- A call of `get_work` leaves `time_` and `is_print_` as they were. -/
theorem get_work_time (s : LoadBalancerP2) (time : ℚ) :
    (s.get_work time).state.time_ = s.time_ ∧
    (s.get_work time).state.is_print_ = s.is_print_ := by
  simp only [get_work, print_status_state]
  split_ifs <;> exact ⟨rfl, rfl⟩

theorem before_time (s : LoadBalancerP2) (clock : Nat → ℚ) (n : Nat) :
    (before s clock n).time_ = s.time_ ∧ (before s clock n).is_print_ = s.is_print_ := by
  induction n with
  | zero => exact ⟨rfl, rfl⟩
  | succ n ih =>
    have h := get_work_time (before s clock n) (clock n)
    exact ⟨h.1.trans ih.1, h.2.trans ih.2⟩

/-- With printing enabled every call of `get_work` writes a status line,
whatever the clock readings are: `time_` is `0` after the constructor and is
never assigned. -/
theorem status_every_call (x sieve_limit threads O_primepi : Int) (clock : Nat → ℚ)
    (n : Nat) :
    ((init x sieve_limit threads true O_primepi).call clock n).status.isSome = true := by
  have h := before_time (init x sieve_limit threads true O_primepi) clock n
  have h1 : ((init x sieve_limit threads true O_primepi).before clock n).time_ = 0 := h.1
  have h2 : ((init x sieve_limit threads true O_primepi).before clock n).is_print_ = true :=
    h.2
  simp only [call, get_work, print_status, h1, h2, if_true, true_or]
  rfl

/-- When a call of `get_work` writes a status line. -/
theorem status_isSome_iff (s : LoadBalancerP2) (t : ℚ) :
    (s.get_work t).status.isSome = true ↔
      s.is_print_ = true ∧ (s.time_ = 0 ∨ t - s.time_ ≥ 1 / 10) := by
  show (s.print_status t).2.isSome = true ↔ _
  simp only [print_status]
  split_ifs with hp hc
  · exact ⟨fun _ => ⟨hp, hc⟩, fun _ => rfl⟩
  · exact ⟨fun h => absurd h (by simp), fun h => absurd h.2 hc⟩
  · exact ⟨fun h => absurd h (by simp), fun h => absurd h.1 hp⟩

/-- Whatever `time_` holds: once a call of `get_work` has written a status
line, the next call writes one too, however close in time it follows. -/
theorem status_again (s : LoadBalancerP2) (t1 t2 : ℚ) (h12 : t1 ≤ t2)
    (h : (s.get_work t1).status.isSome = true) :
    ((s.get_work t1).state.get_work t2).status.isSome = true := by
  have ht := get_work_time s t1
  rw [status_isSome_iff] at h ⊢
  rw [ht.1, ht.2]
  refine ⟨h.1, ?_⟩
  rcases h.2 with hc | hc
  · exact Or.inl hc
  · exact Or.inr (by linarith)

/-- C6, the code at a failing input: with printing enabled and `get_work`
called at the clock readings `1`, `1.01`, `1.02`, ..., the first and the
second call both write a status line although only `0.01` time units lie
between them, and `time_` still holds `0` afterwards. -/
theorem print_status_not_throttled :
    ((init 1 50000000 4 true 13).call (fun k : Nat => 1 + (k : ℚ) / 100) 0).status.isSome
      = true ∧
    ((init 1 50000000 4 true 13).call (fun k : Nat => 1 + (k : ℚ) / 100) 1).status.isSome
      = true ∧
    (fun k : Nat => 1 + (k : ℚ) / 100) 1 - (fun k : Nat => 1 + (k : ℚ) / 100) 0 < 1 / 10 ∧
    ((init 1 50000000 4 true 13).before (fun k : Nat => 1 + (k : ℚ) / 100) 2).time_ = 0 := by
  refine ⟨by decide, by decide, by norm_num, by decide⟩

end LoadBalancerP2

end primecount

/-! ## Theorems about for_atomic_inc -/

namespace primecount

namespace AtomicLoop

theorem values_succ (S : Int) (n : Nat) :
    values S (n + 1) = (S + (n : Int)) ::ₘ values S n := by
  unfold values
  rw [Multiset.range_succ, Multiset.map_cons]

theorem start_good (S : Int) (K N : Nat) : Good S K N (start N) := by
  refine ⟨by simp [start], Or.inl ⟨rfl, rfl, ?_⟩⟩
  intro p hp
  exact List.eq_of_mem_replicate hp

/-- A thread that has assigned the value of the counter keeps `Good`. -/
theorem enter_good (S : Int) (K N : Nat) (s : AtomicLoop) (t : Nat) (c : Int)
    (hlen : s.pc.length = N) (hc : S ≤ c)
    (hcl : (s.claimed : Multiset Int) = values S (min (c - S).toNat K))
    (hdone : ∀ p ∈ s.pc, p = Pc.done → S + K < c) :
    Good S K N (enter (S + K) { s with atomic_i := c + 1 } t c) := by
  have hn : (((c - S).toNat : Nat) : Int) = c - S := Int.toNat_of_nonneg (by omega)
  have hn1 : (c + 1 - S).toNat = (c - S).toNat + 1 := by omega
  unfold enter
  split_ifs with hlt
  · refine ⟨by simp [hlen], Or.inr ⟨by simp only; omega, ?_, ?_⟩⟩
    · simp only
      rw [hn1, min_eq_left (by omega : (c - S).toNat + 1 ≤ K), values_succ, hn,
        ← Multiset.cons_coe, hcl, min_eq_left (by omega : (c - S).toNat ≤ K)]
      congr 1
      omega
    · intro p hp hpd
      simp only at hp ⊢
      rcases List.mem_or_eq_of_mem_set hp with h | h
      · have := hdone p h hpd; omega
      · rw [h] at hpd; exact absurd hpd (by decide)
  · refine ⟨by simp [hlen], Or.inr ⟨by simp only; omega, ?_, ?_⟩⟩
    · simp only
      rw [hcl, min_eq_right (by omega : K ≤ (c - S).toNat),
        min_eq_right (by omega : K ≤ (c + 1 - S).toNat)]
    · intro p _ _
      simp only
      omega

/-- One atomic operation keeps `Good` when `-1 <= S`. -/
theorem step_good (S : Int) (K N : Nat) (s s1 : AtomicLoop) (t : Nat) (hS : -1 ≤ S)
    (h : Good S K N s) (hstep : step S (S + K) s t = some s1) : Good S K N s1 := by
  obtain ⟨hlen, hcase⟩ := h
  unfold step at hstep
  cases hpc : s.pc.get? t with
  | none => rw [hpc] at hstep; exact absurd hstep (by simp)
  | some p =>
    rw [hpc] at hstep
    have hmem : p ∈ s.pc := List.get?_mem hpc
    cases p with
    | done => exact absurd hstep (by simp)
    | first =>
      simp only at hstep
      split_ifs at hstep with hi
      · -- the compare_exchange_strong succeeds
        rcases hcase with ⟨-, hcl, hall⟩ | ⟨hge, -, -⟩
        · have := Option.some.inj hstep
          rw [← this]
          refine enter_good S K N s t S hlen (le_refl _) ?_ ?_
          · rw [hcl]; simp [values]
          · intro q hq hqd
            rw [hall q hq] at hqd
            exact absurd hqd (by decide)
        · omega
      · -- the compare_exchange_strong fails
        rcases hcase with ⟨hi1, -, -⟩ | ⟨hge, hcl, hdone⟩
        · exact absurd hi1 hi
        · have := Option.some.inj hstep
          rw [← this]
          refine ⟨by simp [hlen], Or.inr ⟨hge, hcl, ?_⟩⟩
          intro q hq hqd
          simp only at hq ⊢
          rcases List.mem_or_eq_of_mem_set hq with h1 | h1
          · exact hdone q h1 hqd
          · rw [h1] at hqd; exact absurd hqd (by decide)
    | fetch =>
      simp only at hstep
      have := Option.some.inj hstep
      rw [← this]
      rcases hcase with ⟨-, -, hall⟩ | ⟨hge, hcl, hdone⟩
      · exact absurd (hall _ hmem) (by decide)
      · exact enter_good S K N s t s.atomic_i hlen (by omega) hcl hdone

/-- Every interleaving keeps `Good` when `-1 <= S`. -/
theorem run_good (S : Int) (K N : Nat) (hS : -1 ≤ S) (sched : List Nat) :
    ∀ s s1 : AtomicLoop, Good S K N s → run S (S + K) s sched = some s1 → Good S K N s1 := by
  induction sched with
  | nil =>
    intro s s1 h hrun
    have := Option.some.inj hrun
    rw [← this]; exact h
  | cons t ts ih =>
    intro s s1 h hrun
    unfold run at hrun
    cases hst : step S (S + K) s t with
    | none => rw [hst] at hrun; exact absurd hrun (by simp)
    | some s2 =>
      rw [hst] at hrun
      exact ih s2 s1 (step_good S K N s s2 t hS h hst) hrun

/-- C5, amended: for every start `S >= -1`, every `K >= 0` with
`end = S + K`, every `N >= 1` threads and every interleaving of their atomic
operations after which all threads have left the loop, the values for
which the loop body ran are exactly `S, S + 1, ..., S + K - 1`, each once. -/
theorem for_atomic_inc_complete (S : Int) (K N : Nat) (sched : List Nat) (s : AtomicLoop)
    (hS : -1 ≤ S) (hN : 1 ≤ N)
    (hrun : run S (S + K) (start N) sched = some s) (hfin : s.finished) :
    (s.claimed : Multiset Int) = values S K := by
  obtain ⟨hlen, hcase⟩ := run_good S K N hS sched (start N) s (start_good S K N) hrun
  have hne : s.pc ≠ [] := by
    intro h
    rw [h] at hlen
    simp at hlen
    omega
  obtain ⟨p, hp⟩ := List.exists_mem_of_ne_nil s.pc hne
  have hpd := hfin p hp
  rcases hcase with ⟨-, -, hall⟩ | ⟨hge, hcl, hdone⟩
  · rw [hall p hp] at hpd
    exact absurd hpd (by decide)
  · have h1 := hdone p hp hpd
    rw [hcl, min_eq_right (by omega : K ≤ (s.atomic_i - S).toNat)]

/-- C5, as stated, fails for the start `-2`: with two threads over `[-2, -1)`
both `compare_exchange_strong` operations succeed, because the first one
stores `start + 1 = -1`, the value that marks an unused counter, and the
value `-2` is claimed twice. -/
theorem for_atomic_inc_start_minus_two :
    ∃ s : AtomicLoop, run (-2) (-2 + ((1 : Nat) : Int)) (start 2) [0, 1, 0, 1] = some s ∧
      s.finished ∧ s.claimed = [-2, -2] ∧ (s.claimed : Multiset Int) ≠ values (-2) 1 := by
  refine ⟨⟨1, [Pc.done, Pc.done], [-2, -2]⟩, by decide, by decide, rfl, ?_⟩
  intro h
  have h1 := congrArg Multiset.card h
  simp [values] at h1

/-- C5, witness: three threads over `[10, 20)`. -/
theorem for_atomic_inc_complete_witness :
    (-1 : Int) ≤ 10 ∧ 1 ≤ 3 ∧
    run 10 (10 + ((10 : Nat) : Int)) (start 3) [0, 1, 2, 2, 2, 1, 0, 0, 0, 0, 1, 1, 1, 2, 0]
      = some ⟨23, [Pc.done, Pc.done, Pc.done], [19, 18, 17, 16, 15, 14, 13, 12, 11, 10]⟩ ∧
    finished ⟨23, [Pc.done, Pc.done, Pc.done], [19, 18, 17, 16, 15, 14, 13, 12, 11, 10]⟩ ∧
    (([19, 18, 17, 16, 15, 14, 13, 12, 11, 10] : List Int) : Multiset Int) = values 10 10 :=
  ⟨by decide, by decide, by decide, by decide,
    for_atomic_inc_complete 10 10 3 [0, 1, 2, 2, 2, 1, 0, 0, 0, 0, 1, 1, 1, 2, 0]
      ⟨23, [Pc.done, Pc.done, Pc.done], [19, 18, 17, 16, 15, 14, 13, 12, 11, 10]⟩
      (by decide) (by decide) (by decide) (by decide)⟩

end AtomicLoop

end primecount

/-! ## More theorems about LoadBalancerP2 -/

namespace primecount

namespace LoadBalancerP2

/-- The `thread_dist_` that a call of `get_work` stores, and the `low_` it
stores, in a state that satisfies `Inv`. -/
theorem get_work_dist (s : LoadBalancerP2) (time : ℚ) (h : Inv s) :
    (s.get_work time).state.thread_dist_ =
      (if s.threads_ = 1 then
        (if s.is_print_ = true then s.thread_dist_ else s.sieve_limit_ - s.low_)
      else if s.thread_dist_ > cdiv (s.sieve_limit_ - s.low_) s.threads_ then
        max s.min_thread_dist_ (cdiv (s.sieve_limit_ - s.low_) s.threads_)
      else s.thread_dist_) ∧
    (s.get_work time).state.low_
      = min (s.low_ + (s.get_work time).state.thread_dist_) s.sieve_limit_ := by
  have hp : (s.print_status time).1 = s := print_status_state s time
  have hm : min s.low_ s.sieve_limit_ = s.low_ := min_eq_left h.low_le
  simp only [get_work, hp, hm]
  by_cases ht : s.threads_ = 1
  · by_cases hpr : s.is_print_ = true
    · simp only [ht, hpr, if_true, Bool.not_true, Bool.false_eq_true, if_false]
      exact ⟨trivial, trivial⟩
    · simp only [Bool.not_eq_true] at hpr
      simp only [ht, hpr, if_true, Bool.not_false, Bool.false_eq_true, if_false]
      exact ⟨trivial, trivial⟩
  · simp only [ht, if_false]
    split_ifs with hc
    · exact ⟨rfl, rfl⟩
    · exact ⟨rfl, rfl⟩

/-- The `thread_dist_` and `low_` stored by call number `n`, in terms of the
members that the constructor fixed. -/
theorem before_dist (s : LoadBalancerP2) (clock : Nat → ℚ) (h : Inv s) (n : Nat) :
    (before s clock (n + 1)).thread_dist_ =
      (if s.threads_ = 1 then
        (if s.is_print_ = true then (before s clock n).thread_dist_
          else s.sieve_limit_ - (before s clock n).low_)
      else if (before s clock n).thread_dist_
          > cdiv (s.sieve_limit_ - (before s clock n).low_) s.threads_ then
        max s.min_thread_dist_ (cdiv (s.sieve_limit_ - (before s clock n).low_) s.threads_)
      else (before s clock n).thread_dist_) ∧
    (before s clock (n + 1)).low_
      = min ((before s clock n).low_ + (before s clock (n + 1)).thread_dist_)
          s.sieve_limit_ := by
  have h1 := get_work_dist (before s clock n) (clock n) (before_inv s clock h n)
  obtain ⟨f1, f2, f3, f4⟩ := before_fixed s clock h n
  rw [f1, f2, f3, f4] at h1
  exact h1

/-- In a state reached by calls of `get_work`, `thread_dist_` is at least
`min_thread_dist_` unless the thread count is `1` and printing is disabled. -/
theorem before_dist_ge (s : LoadBalancerP2) (clock : Nat → ℚ) (h : Inv s) (n : Nat)
    (hc : s.threads_ ≠ 1 ∨ s.is_print_ = true) :
    s.min_thread_dist_ ≤ (before s clock n).thread_dist_ := by
  have h1 := (before_inv s clock h n).dist_ok
  obtain ⟨-, f2, f3, f4⟩ := before_fixed s clock h n
  rw [f2, f3, f4] at h1
  rcases h1 with h1 | ⟨h2, h3⟩
  · exact h1
  · rcases hc with hc | hc
    · exact absurd h2 hc
    · rw [hc] at h3; exact absurd h3 (by decide)

/-- Over unbounded integers a range written by `get_work` never ends above
`sieve_limit`; one that ends strictly below `sieve_limit` has exactly the
width `thread_dist_` that the call stored, and that width is at least
`min_thread_dist_`; so a range narrower than `min_thread_dist_` ends at
`sieve_limit`. -/
theorem chunk_floor (x sieve_limit threads : Int) (is_print : Bool)
    (O_primepi : Int) (clock : Nat → ℚ) (n : Nat)
    (hs : 0 ≤ sieve_limit) (ht : 1 ≤ threads) :
    ((init x sieve_limit threads is_print O_primepi).call clock n).high ≤ sieve_limit ∧
    (((init x sieve_limit threads is_print O_primepi).call clock n).high < sieve_limit →
      ((init x sieve_limit threads is_print O_primepi).call clock n).high
          - ((init x sieve_limit threads is_print O_primepi).call clock n).low
        = ((init x sieve_limit threads is_print O_primepi).call clock n).state.thread_dist_ ∧
      (init x sieve_limit threads is_print O_primepi).min_thread_dist_
        ≤ ((init x sieve_limit threads is_print O_primepi).call clock n).high
          - ((init x sieve_limit threads is_print O_primepi).call clock n).low) ∧
    (((init x sieve_limit threads is_print O_primepi).call clock n).high
          - ((init x sieve_limit threads is_print O_primepi).call clock n).low
        < (init x sieve_limit threads is_print O_primepi).min_thread_dist_ →
      ((init x sieve_limit threads is_print O_primepi).call clock n).high = sieve_limit) := by
  have hinv := init_inv x sieve_limit threads is_print O_primepi hs
  have hsl := init_sieve_limit x sieve_limit threads is_print O_primepi
  generalize init x sieve_limit threads is_print O_primepi = lb at hinv hsl ⊢
  rw [call_high lb clock hinv, call_low lb clock hinv]
  show _ ∧ (_ → (before lb clock (n + 1)).low_ - (before lb clock n).low_
      = (before lb clock (n + 1)).thread_dist_ ∧ _) ∧ _
  obtain ⟨hd, hl⟩ := before_dist lb clock hinv n
  have hle := low_le_limit lb clock hinv n
  have hle1 := low_le_limit lb clock hinv (n + 1)
  rw [hsl] at hd hl hle hle1
  have key : (before lb clock (n + 1)).low_ < sieve_limit →
      (before lb clock (n + 1)).low_ - (before lb clock n).low_
        = (before lb clock (n + 1)).thread_dist_ ∧
      lb.min_thread_dist_ ≤ (before lb clock (n + 1)).low_ - (before lb clock n).low_ := by
    intro h
    have hw : (before lb clock (n + 1)).low_ - (before lb clock n).low_
        = (before lb clock (n + 1)).thread_dist_ := by
      rw [min_def] at hl
      split_ifs at hl <;> omega
    refine ⟨hw, ?_⟩
    rw [hw]
    by_cases hc : lb.threads_ ≠ 1 ∨ lb.is_print_ = true
    · exact before_dist_ge lb clock hinv (n + 1) hc
    · exfalso
      have h1 : lb.threads_ = 1 := by
        by_contra h1; exact hc (Or.inl h1)
      have hp : ¬ lb.is_print_ = true := fun hp => hc (Or.inr hp)
      rw [if_pos h1, if_neg hp] at hd
      omega
  refine ⟨hle1, key, ?_⟩
  intro hlt
  by_contra hne
  have := (key (lt_of_le_of_ne hle1 hne)).2
  omega

/-- C15: when the resolved thread count is above `1`, the width of the range
written by a call of `get_work` is at most `max(min_thread_dist_, remaining /
threads_)`, where `remaining = sieve_limit - low_` at the entry of the call. -/
theorem width_le_share (x sieve_limit threads : Int) (is_print : Bool)
    (O_primepi : Int) (clock : Nat → ℚ) (n : Nat)
    (hs : 0 ≤ sieve_limit) (ht : 1 ≤ threads)
    (h : 1 < (init x sieve_limit threads is_print O_primepi).threads_) :
    ((init x sieve_limit threads is_print O_primepi).call clock n).high
        - ((init x sieve_limit threads is_print O_primepi).call clock n).low
      ≤ max (init x sieve_limit threads is_print O_primepi).min_thread_dist_
          (cdiv (sieve_limit
              - ((init x sieve_limit threads is_print O_primepi).before clock n).low_)
            (init x sieve_limit threads is_print O_primepi).threads_) := by
  have hinv := init_inv x sieve_limit threads is_print O_primepi hs
  have hsl := init_sieve_limit x sieve_limit threads is_print O_primepi
  generalize init x sieve_limit threads is_print O_primepi = lb at hinv hsl h ⊢
  rw [call_high lb clock hinv, call_low lb clock hinv]
  obtain ⟨hd, hl⟩ := before_dist lb clock hinv n
  have hge := before_dist_ge lb clock hinv n (Or.inl (by omega))
  have hmin := hinv.min_pos
  rw [hsl] at hd hl
  rw [if_neg (by omega : ¬ lb.threads_ = 1)] at hd
  generalize cdiv (sieve_limit - (before lb clock n).low_) lb.threads_ = m at hd ⊢
  rw [min_def] at hl
  rw [max_def] at hd ⊢
  split_ifs at hd hl ⊢ <;> omega

/-- C15, witness: the first call for `x = 1`, `sieve_limit = 50000000`, four
threads. -/
theorem width_le_share_witness :
    (0 : Int) ≤ 50000000 ∧ (1 : Int) ≤ 4 ∧ 1 < (init 1 50000000 4 true 13).threads_ ∧
    ((init 1 50000000 4 true 13).call (fun k : Nat => (k : ℚ)) 0).high
        - ((init 1 50000000 4 true 13).call (fun k : Nat => (k : ℚ)) 0).low
      ≤ max (init 1 50000000 4 true 13).min_thread_dist_
          (cdiv (50000000
              - ((init 1 50000000 4 true 13).before (fun k : Nat => (k : ℚ)) 0).low_)
            (init 1 50000000 4 true 13).threads_) :=
  ⟨by decide, by decide, by decide,
    width_le_share 1 50000000 4 true 13 (fun k : Nat => (k : ℚ)) 0
      (by decide) (by decide) (by decide)⟩

/-- C16, the code at a failing input: for `x = 10^20` and `sieve_limit =
10^12` the estimate `O_primepi` is `10^8` (`99999999` as the `double`
computation rounds it, where the same holds by `min_thread_dist_lt`), and the
constructor stores `min_thread_dist_ = max(10^8, 1 << 22) = 10^8`, which is
below `10 * O_primepi = 10^9`. -/
theorem min_thread_dist_below_ten_times :
    (init 100000000000000000000 1000000000000 4 true 100000000).min_thread_dist_
      = 100000000 ∧
    ¬ (10 * 100000000
      ≤ (init 100000000000000000000 1000000000000 4 true 100000000).min_thread_dist_) := by
  refine ⟨by decide, by decide⟩

/-- Whatever the inputs, the constructor stores `max(O_primepi, 1 << 22)`,
which is below `10 * O_primepi` as soon as `O_primepi` is above `419430`. -/
theorem min_thread_dist_lt (x sl t : Int) (p : Bool) (O : Int) (hO : 419430 < O) :
    (init x sl t p O).min_thread_dist_ < 10 * O := by
  rw [init_min_thread_dist]
  omega

/-- Over unbounded integers, once `low_` equals `sieve_limit` before a call of
`get_work`, that call and every later call return false, write
`low = high = sieve_limit` and leave `low_` at `sieve_limit`. -/
theorem exhausted_stable (x sieve_limit threads : Int) (is_print : Bool)
    (O_primepi : Int) (clock : Nat → ℚ) (n m : Nat)
    (hs : 0 ≤ sieve_limit) (ht : 1 ≤ threads)
    (h : ((init x sieve_limit threads is_print O_primepi).before clock n).low_ = sieve_limit)
    (hnm : n ≤ m) :
    ((init x sieve_limit threads is_print O_primepi).call clock m).ret = false ∧
    ((init x sieve_limit threads is_print O_primepi).call clock m).low = sieve_limit ∧
    ((init x sieve_limit threads is_print O_primepi).call clock m).high = sieve_limit ∧
    ((init x sieve_limit threads is_print O_primepi).call clock m).state.low_
      = sieve_limit := by
  have hinv := init_inv x sieve_limit threads is_print O_primepi hs
  have hsl := init_sieve_limit x sieve_limit threads is_print O_primepi
  generalize init x sieve_limit threads is_print O_primepi = lb at hinv hsl h ⊢
  have h1 := low_mono lb clock hinv hnm
  have h2 := low_mono lb clock hinv (Nat.le_succ m)
  have h3 := low_le_limit lb clock hinv m
  have h4 := low_le_limit lb clock hinv (m + 1)
  rw [hsl] at h3 h4
  have hm : (before lb clock m).low_ = sieve_limit := by omega
  have hm1 : (before lb clock (m + 1)).low_ = sieve_limit := by
    have : (before lb clock m).low_ ≤ (before lb clock (m + 1)).low_ := h2
    omega
  refine ⟨?_, ?_, ?_, hm1⟩
  · rw [call_ret lb clock hinv, hsl, hm]
    exact decide_eq_false (lt_irrefl _)
  · rw [call_low lb clock hinv, hm]
  · rw [call_high lb clock hinv, hm1]

/-- The constructor itself never stores a `min_thread_dist_` below `1 << 22`. -/
theorem init_min_thread_dist_ge (x sl t : Int) (p : Bool) (O : Int) :
    4194304 ≤ (init x sl t p O).min_thread_dist_ := by
  rw [init_min_thread_dist]
  exact le_max_right _ _

/-! ### get_work with machine integers -/

theorem wrap64_eq (a : Int) (h1 : -9223372036854775808 ≤ a) (h2 : a ≤ INT64_MAX) :
    wrap64 a = a := by
  unfold INT64_MAX at h2
  unfold wrap64
  omega

theorem wrap32_eq (a : Int) (h1 : -2147483648 ≤ a) (h2 : a ≤ INT_MAX) : wrap32 a = a := by
  unfold INT_MAX at h2
  unfold wrap32
  omega

/-- While `thread_dist_` is not set to the whole distance, it never exceeds
the value that the constructor stored. -/
theorem before_dist_le (s : LoadBalancerP2) (clock : Nat → ℚ) (h : Inv s)
    (hc : s.threads_ ≠ 1 ∨ s.is_print_ = true) (n : Nat) :
    (before s clock n).thread_dist_ ≤ s.thread_dist_ := by
  induction n with
  | zero => exact le_refl _
  | succ n ih =>
    have hd := (before_dist s clock h n).1
    have hge := before_dist_ge s clock h n hc
    by_cases h1 : s.threads_ = 1
    · have hp : s.is_print_ = true := by
        rcases hc with hc | hc
        · exact absurd h1 hc
        · exact hc
      rw [if_pos h1, if_pos hp] at hd
      rw [hd]; exact ih
    · rw [if_neg h1] at hd
      rw [hd]
      simp only [max_def]
      split_ifs <;> omega

/-- When the sum `low_ + thread_dist_` of a call does not exceed `INT64_MAX`,
`get_work64` does what `get_work` does. -/
theorem get_work64_eq (s : LoadBalancerP2) (time : ℚ) (h : Inv s)
    (hM : s.sieve_limit_ ≤ INT64_MAX)
    (hb : s.low_ + (s.get_work time).state.thread_dist_ ≤ INT64_MAX)
    (h0 : 0 ≤ (s.get_work time).state.thread_dist_) :
    s.get_work64 time = s.get_work time := by
  have hd := (get_work_dist s time h).1
  rw [hd] at hb h0
  have hp : (s.print_status time).1 = s := print_status_state s time
  have hm : min s.low_ s.sieve_limit_ = s.low_ := min_eq_left h.low_le
  have hl0 := h.low_nonneg
  have hl1 := h.low_le
  have hw : wrap64 (s.sieve_limit_ - s.low_) = s.sieve_limit_ - s.low_ :=
    wrap64_eq _ (by omega) (by omega)
  simp only [get_work64, get_work, hp, hm, hw]
  by_cases ht : s.threads_ = 1
  · by_cases hpr : s.is_print_ = true
    · simp only [ht, hpr, if_true, Bool.not_true, Bool.false_eq_true, if_false] at hb h0 ⊢
      rw [wrap64_eq _ (by omega) hb]
    · simp only [Bool.not_eq_true] at hpr
      simp only [ht, hpr, if_true, Bool.not_false, Bool.false_eq_true, if_false] at hb h0 ⊢
      rw [wrap64_eq _ (by omega) hb]
  · simp only [ht, if_false] at hb h0 ⊢
    split_ifs at hb h0 ⊢ with hc
    · rw [wrap64_eq _ (by omega) hb]
    · rw [wrap64_eq _ (by omega) hb]

/-- When `sieve_limit_ + thread_dist_` does not exceed `INT64_MAX` at the
start, no call of `get_work64` overflows: the states and the calls are those
of `get_work`. -/
theorem before64_eq (s : LoadBalancerP2) (clock : Nat → ℚ) (h : Inv s)
    (hd0 : s.min_thread_dist_ ≤ s.thread_dist_)
    (hov : s.sieve_limit_ + s.thread_dist_ ≤ INT64_MAX) (n : Nat) :
    before64 s clock n = before s clock n ∧ call64 s clock n = call s clock n := by
  have hmin := h.min_pos
  have hstep : ∀ n, (before s clock n).get_work64 (clock n)
      = (before s clock n).get_work (clock n) := by
    intro n
    have hinv := before_inv s clock h n
    obtain ⟨f1, f2, f3, f4⟩ := before_fixed s clock h n
    have hle := low_le_limit s clock h n
    have hl0 := hinv.low_nonneg
    have hd := (before_dist s clock h n).1
    have hstate : ((before s clock n).get_work (clock n)).state = before s clock (n + 1) := rfl
    apply get_work64_eq _ _ hinv (by rw [f1]; omega)
    · rw [hstate]
      by_cases hc : s.threads_ ≠ 1 ∨ s.is_print_ = true
      · have := before_dist_le s clock h hc (n + 1)
        omega
      · have h1 : s.threads_ = 1 := by
          by_contra h1; exact hc (Or.inl h1)
        have hp : ¬ s.is_print_ = true := fun hp => hc (Or.inr hp)
        rw [if_pos h1, if_neg hp] at hd
        omega
    · rw [hstate]
      by_cases hc : s.threads_ ≠ 1 ∨ s.is_print_ = true
      · have := before_dist_ge s clock h (n + 1) hc
        omega
      · have h1 : s.threads_ = 1 := by
          by_contra h1; exact hc (Or.inl h1)
        have hp : ¬ s.is_print_ = true := fun hp => hc (Or.inr hp)
        rw [if_pos h1, if_neg hp] at hd
        omega
  have hb : ∀ n, before64 s clock n = before s clock n := by
    intro n
    induction n with
    | zero => rfl
    | succ n ih =>
      show ((before64 s clock n).get_work64 (clock n)).state
        = ((before s clock n).get_work (clock n)).state
      rw [ih, hstep n]
  refine ⟨hb n, ?_⟩
  show (before64 s clock n).get_work64 (clock n) = (before s clock n).get_work (clock n)
  rw [hb n, hstep n]

/-- When `threads * 8` fits into an `int` and `sieve_limit` into an
`int64_t`, the constructor returns what it returns over unbounded integers. -/
theorem init64_eq (x sl t : Int) (p : Bool) (O : Int) (hq : isqrt x ≤ INT64_MAX)
    (hs : 0 ≤ sl) (hsl : sl ≤ INT64_MAX) (ht : 1 ≤ t) (ht8 : t * 8 ≤ INT_MAX) :
    init64 x sl t p O = some (init x sl t p O) := by
  have hq0 := isqrt_nonneg x
  have h8 : wrap32 (t * 8) = t * 8 := wrap32_eq _ (by omega) ht8
  have hi : wrap64 (isqrt x) = isqrt x := wrap64_eq _ (by omega) hq
  have hw : wrap64 (sl - min (isqrt x) sl) = sl - min (isqrt x) sl :=
    wrap64_eq _ (by omega) (by omega)
  simp only [init64, init, h8, hi, hw]
  rw [if_neg (by omega)]

/-- What the constructor returns and how the calls of `get_work64` go on it
when nothing overflows: as over unbounded integers. -/
theorem no_overflow (x sl t : Int) (p : Bool) (O : Int) (hq : isqrt x ≤ INT64_MAX)
    (hs : 0 ≤ sl) (hsl : sl ≤ INT64_MAX) (ht : 1 ≤ t) (ht8 : t * 8 ≤ INT_MAX)
    (lb : LoadBalancerP2) (hlb : init64 x sl t p O = some lb)
    (hov : sl + lb.thread_dist_ ≤ INT64_MAX) :
    lb = init x sl t p O ∧
    ∀ (clock : Nat → ℚ) (n : Nat),
      before64 lb clock n = before (init x sl t p O) clock n ∧
      call64 lb clock n = call (init x sl t p O) clock n := by
  have he : lb = init x sl t p O := by
    rw [init64_eq x sl t p O hq hs hsl ht ht8] at hlb
    exact (Option.some.inj hlb).symm
  refine ⟨he, ?_⟩
  intro clock n
  rw [he] at hov ⊢
  have hinv := init_inv x sl t p O hs
  have hd0 : (init x sl t p O).min_thread_dist_ ≤ (init x sl t p O).thread_dist_ := by
    show max O 4194304 ≤ max (max O 4194304) _
    exact le_max_left _ _
  exact before64_eq _ clock hinv hd0 (by rw [init_sieve_limit]; exact hov) n

/-- The same as `no_overflow`, with the condition written on the arguments of
the constructor: `sieve_limit` plus the `thread_dist_` that the constructor
stores does not exceed `INT64_MAX`. -/
theorem init64_no_overflow (x sl t : Int) (p : Bool) (O : Int) (hq : isqrt x ≤ INT64_MAX)
    (hs : 0 ≤ sl) (hsl : sl ≤ INT64_MAX) (ht : 1 ≤ t) (ht8 : t * 8 ≤ INT_MAX)
    (hov : sl + max (max O 4194304) ((sl - min (isqrt x) sl) / (t * 8)) ≤ INT64_MAX) :
    init64 x sl t p O = some (init x sl t p O) ∧
    ∀ (clock : Nat → ℚ) (n : Nat),
      before64 (init x sl t p O) clock n = before (init x sl t p O) clock n ∧
      call64 (init x sl t p O) clock n = call (init x sl t p O) clock n := by
  have he := init64_eq x sl t p O hq hs hsl ht ht8
  refine ⟨he, ?_⟩
  have hq0 := isqrt_nonneg x
  have hd : (init x sl t p O).thread_dist_
      = max (max O 4194304) ((sl - min (isqrt x) sl) / (t * 8)) := by
    show max (max O 4194304) (cdiv (sl - min (isqrt x) sl) (t * 8)) = _
    rw [cdiv_eq_ediv (by omega) (by omega)]
  exact (no_overflow x sl t p O hq hs hsl ht ht8 _ he (by rw [hd]; exact hov)).2

/-- C2, amended: when `isqrt(x)` and `sieve_limit` fit into an `int64_t`,
`threads * 8` into an `int`, and `sieve_limit` plus the initial
`thread_dist_` does not exceed `INT64_MAX`, the constructor returns a load
balancer on which the calls of `get_work` (in `int64_t` arithmetic) come to
an end: there is an `n` such that the first `n` calls return true and the
next call returns false, and before that call `low_` equals `sieve_limit`. -/
theorem get_work64_terminates (x sieve_limit threads : Int) (is_print : Bool)
    (O_primepi : Int) (clock : Nat → ℚ)
    (hx : 0 ≤ x) (hq : isqrt x ≤ INT64_MAX)
    (hs : 0 ≤ sieve_limit) (hsl : sieve_limit ≤ INT64_MAX)
    (ht : 1 ≤ threads) (ht8 : threads * 8 ≤ INT_MAX)
    (hov : sieve_limit + max (max O_primepi 4194304)
        ((sieve_limit - min (isqrt x) sieve_limit) / (threads * 8)) ≤ INT64_MAX) :
    ∃ lb, init64 x sieve_limit threads is_print O_primepi = some lb ∧
      ∃ n : Nat,
        (∀ i, i < n → (lb.call64 clock i).ret = true) ∧
        (lb.call64 clock n).ret = false ∧
        (lb.before64 clock n).low_ = sieve_limit := by
  obtain ⟨he, hsim⟩ :=
    init64_no_overflow x sieve_limit threads is_print O_primepi hq hs hsl ht ht8 hov
  refine ⟨_, he, ?_⟩
  obtain ⟨n, h1, h2, h3⟩ :=
    get_work_terminates x sieve_limit threads is_print O_primepi clock hx hs ht
  refine ⟨n, ?_, ?_, ?_⟩
  · intro i hi
    rw [(hsim clock i).2]
    exact h1 i hi
  · rw [(hsim clock n).2]
    exact h2
  · rw [(hsim clock n).1]
    exact h3

/-- C2, witness: `x = 1`, `sieve_limit = 50000000`, `threads = 4`. -/
theorem get_work64_terminates_witness :
    (0 : Int) ≤ 1 ∧ isqrt 1 ≤ INT64_MAX ∧ (0 : Int) ≤ 50000000 ∧
    (50000000 : Int) ≤ INT64_MAX ∧ (1 : Int) ≤ 4 ∧ (4 : Int) * 8 ≤ INT_MAX ∧
    (50000000 : Int) + max (max 135720 4194304)
        ((50000000 - min (isqrt 1) 50000000) / (4 * 8)) ≤ INT64_MAX ∧
    ∃ lb, init64 1 50000000 4 true 135720 = some lb ∧
      ∃ n : Nat,
        (∀ i, i < n → (lb.call64 (fun k : Nat => (k : ℚ)) i).ret = true) ∧
        (lb.call64 (fun k : Nat => (k : ℚ)) n).ret = false ∧
        (lb.before64 (fun k : Nat => (k : ℚ)) n).low_ = 50000000 :=
  ⟨by decide, by decide, by decide, by decide, by decide, by decide, by decide,
    get_work64_terminates 1 50000000 4 true 135720 (fun k : Nat => (k : ℚ))
      (by decide) (by decide) (by decide) (by decide) (by decide) (by decide) (by decide)⟩

/-- One call of `get_work64` on a single thread with printing enabled:
`thread_dist_` stays, and `low_` moves on by it, wrapping around. -/
theorem get_work64_print (s : LoadBalancerP2) (time : ℚ) (h1 : s.threads_ = 1)
    (hp : s.is_print_ = true) (hle : s.low_ ≤ s.sieve_limit_) :
    (s.get_work64 time).low = s.low_ ∧
    (s.get_work64 time).high = min (wrap64 (s.low_ + s.thread_dist_)) s.sieve_limit_ ∧
    (s.get_work64 time).ret = decide (s.low_ < s.sieve_limit_) ∧
    (s.get_work64 time).state.low_ = min (wrap64 (s.low_ + s.thread_dist_)) s.sieve_limit_ ∧
    (s.get_work64 time).state.sieve_limit_ = s.sieve_limit_ ∧
    (s.get_work64 time).state.thread_dist_ = s.thread_dist_ ∧
    (s.get_work64 time).state.threads_ = s.threads_ ∧
    (s.get_work64 time).state.is_print_ = s.is_print_ := by
  have hps : (s.print_status time).1 = s := print_status_state s time
  have hm : min s.low_ s.sieve_limit_ = s.low_ := min_eq_left hle
  simp only [get_work64, hps, hm, h1, hp, if_true, Bool.not_true, Bool.false_eq_true, if_false]
  exact ⟨trivial, trivial, trivial, trivial, trivial, trivial, trivial, trivial⟩

/-- The integer square root of `64`. -/
theorem isqrt_64 : isqrt 64 = 8 := by
  rw [isqrt, show (64 : Int) = 8 * 8 from rfl, Int.sqrt_eq]
  rfl

/-- A single thread with printing enabled, `sieve_limit_ = INT64_MAX` and even
`low_` and `thread_dist_`: `low_` stays even, so it never reaches
`sieve_limit_`, and every call of `get_work64` returns true. -/
theorem even_never_false (lb : LoadBalancerP2) (clock : Nat → ℚ)
    (h1 : lb.sieve_limit_ = 9223372036854775807) (h2 : lb.threads_ = 1)
    (h3 : lb.is_print_ = true) (h4 : lb.thread_dist_ % 2 = 0) (h5 : lb.low_ % 2 = 0)
    (h6 : lb.low_ ≤ 9223372036854775807) (n : Nat) :
    (lb.call64 clock n).ret = true := by
  have key : ∀ n, (before64 lb clock n).sieve_limit_ = 9223372036854775807 ∧
      (before64 lb clock n).threads_ = 1 ∧ (before64 lb clock n).is_print_ = true ∧
      (before64 lb clock n).thread_dist_ % 2 = 0 ∧
      (before64 lb clock n).low_ % 2 = 0 ∧
      (before64 lb clock n).low_ ≤ 9223372036854775807 := by
    intro n
    induction n with
    | zero => exact ⟨h1, h2, h3, h4, h5, h6⟩
    | succ n ih =>
      obtain ⟨i1, i2, i3, i4, i5, i6⟩ := ih
      obtain ⟨-, -, -, g1, g2, g3, g4, g5⟩ :=
        get_work64_print (before64 lb clock n) (clock n) i2 i3 (by rw [i1]; exact i6)
      show ((before64 lb clock n).get_work64 (clock n)).state.sieve_limit_ = _ ∧
        ((before64 lb clock n).get_work64 (clock n)).state.threads_ = 1 ∧
        ((before64 lb clock n).get_work64 (clock n)).state.is_print_ = true ∧
        ((before64 lb clock n).get_work64 (clock n)).state.thread_dist_ % 2 = 0 ∧
        ((before64 lb clock n).get_work64 (clock n)).state.low_ % 2 = 0 ∧
        ((before64 lb clock n).get_work64 (clock n)).state.low_ ≤ _
      rw [g1, g2, g3, g4, g5, i1, i2, i3]
      refine ⟨rfl, rfl, rfl, i4, ?_, ?_⟩
      · simp only [wrap64, min_def]
        split_ifs <;> omega
      · simp only [wrap64, min_def]
        split_ifs <;> omega
  obtain ⟨i1, i2, i3, i4, i5, i6⟩ := key n
  have h := (get_work64_print (before64 lb clock n) (clock n) i2 i3
    (by rw [i1]; exact i6)).2.2.1
  show ((before64 lb clock n).get_work64 (clock n)).ret = true
  rw [h, i1]
  exact decide_eq_true (by omega)

/-- C2, as stated, fails in `int64_t` arithmetic: for `x = 64`,
`sieve_limit = INT64_MAX` and one thread with printing enabled (where
`O_primepi` is `4398046511103`) the constructor stores `low_ = 8` and
`thread_dist_ = 1152921504606846974`, both even; `low_ += thread_dist_` wraps
around, `low_` stays even and never reaches the odd `sieve_limit`, and every
call of `get_work` returns true. -/
theorem get_work64_never_false :
    ∃ lb, init64 64 INT64_MAX 1 true 4398046511103 = some lb ∧
      lb.low_ = 8 ∧ lb.thread_dist_ = 1152921504606846974 ∧
      ∀ (clock : Nat → ℚ) (n : Nat), (lb.call64 clock n).ret = true := by
  refine ⟨{ low_ := 8, sieve_limit_ := INT64_MAX, min_thread_dist_ := 4398046511103,
            thread_dist_ := 1152921504606846974, time_ := 0, threads_ := 1,
            is_print_ := true }, ?_, rfl, rfl, ?_⟩
  · simp only [init64, isqrt_64]
    rfl
  · intro clock n
    exact even_never_false _ clock rfl rfl rfl (by decide) (by decide) (by decide) n

/-- The clock has no effect on the state that a call of `get_work64` leaves
behind nor on what it writes and returns. -/
theorem get_work64_clock (s : LoadBalancerP2) (t1 t2 : ℚ) :
    (s.get_work64 t1).state = (s.get_work64 t2).state ∧
    (s.get_work64 t1).low = (s.get_work64 t2).low ∧
    (s.get_work64 t1).high = (s.get_work64 t2).high ∧
    (s.get_work64 t1).ret = (s.get_work64 t2).ret := by
  simp only [get_work64, print_status_state]
  exact ⟨trivial, trivial, trivial, trivial⟩

/-- The states and the results of the calls of `get_work64` are the same for
every two clocks. -/
theorem call64_clock (s : LoadBalancerP2) (c1 c2 : Nat → ℚ) (n : Nat) :
    before64 s c1 n = before64 s c2 n ∧
    (call64 s c1 n).low = (call64 s c2 n).low ∧
    (call64 s c1 n).high = (call64 s c2 n).high ∧
    (call64 s c1 n).ret = (call64 s c2 n).ret := by
  have hb : ∀ n, before64 s c1 n = before64 s c2 n := by
    intro n
    induction n with
    | zero => rfl
    | succ n ih =>
      show ((before64 s c1 n).get_work64 (c1 n)).state
        = ((before64 s c2 n).get_work64 (c2 n)).state
      rw [ih]
      exact (get_work64_clock _ _ _).1
  refine ⟨hb n, ?_⟩
  show ((before64 s c1 n).get_work64 (c1 n)).low = ((before64 s c2 n).get_work64 (c2 n)).low ∧
    ((before64 s c1 n).get_work64 (c1 n)).high = ((before64 s c2 n).get_work64 (c2 n)).high ∧
    ((before64 s c1 n).get_work64 (c1 n)).ret = ((before64 s c2 n).get_work64 (c2 n)).ret
  rw [hb n]
  exact (get_work64_clock _ _ _).2

/-- C3, amended: when `isqrt(x)` and `sieve_limit` fit into an `int64_t`,
`threads * 8` into an `int`, and `sieve_limit` plus the initial
`thread_dist_` does not exceed `INT64_MAX`, the constructor returns a load
balancer on which every call of `get_work` (in `int64_t` arithmetic) returns
true exactly if the range it writes is non-empty, and a call that returns
false writes `low = high = sieve_limit`. -/
theorem get_work64_true_iff_nonempty (x sieve_limit threads : Int) (is_print : Bool)
    (O_primepi : Int) (clock : Nat → ℚ)
    (hq : isqrt x ≤ INT64_MAX) (hs : 0 ≤ sieve_limit) (hsl : sieve_limit ≤ INT64_MAX)
    (ht : 1 ≤ threads) (ht8 : threads * 8 ≤ INT_MAX)
    (hov : sieve_limit + max (max O_primepi 4194304)
        ((sieve_limit - min (isqrt x) sieve_limit) / (threads * 8)) ≤ INT64_MAX) :
    ∃ lb, init64 x sieve_limit threads is_print O_primepi = some lb ∧
      ∀ n : Nat,
        ((lb.call64 clock n).ret = true ↔ (lb.call64 clock n).low < (lb.call64 clock n).high) ∧
        ((lb.call64 clock n).ret = false →
          (lb.call64 clock n).low = sieve_limit ∧ (lb.call64 clock n).high = sieve_limit) := by
  obtain ⟨he, hsim⟩ :=
    init64_no_overflow x sieve_limit threads is_print O_primepi hq hs hsl ht ht8 hov
  refine ⟨_, he, ?_⟩
  intro n
  rw [(hsim clock n).2]
  exact get_work_true_iff_nonempty x sieve_limit threads is_print O_primepi clock n hs ht

/-- C3, witness: `x = 1`, `sieve_limit = 50000000`, `threads = 4`. -/
theorem get_work64_true_iff_nonempty_witness :
    isqrt 1 ≤ INT64_MAX ∧ (0 : Int) ≤ 50000000 ∧
    (50000000 : Int) ≤ INT64_MAX ∧ (1 : Int) ≤ 4 ∧ (4 : Int) * 8 ≤ INT_MAX ∧
    (50000000 : Int) + max (max 135720 4194304)
        ((50000000 - min (isqrt 1) 50000000) / (4 * 8)) ≤ INT64_MAX ∧
    ∃ lb, init64 1 50000000 4 true 135720 = some lb ∧
      ∀ n : Nat,
        ((lb.call64 (fun k : Nat => (k : ℚ)) n).ret = true ↔
          (lb.call64 (fun k : Nat => (k : ℚ)) n).low
            < (lb.call64 (fun k : Nat => (k : ℚ)) n).high) ∧
        ((lb.call64 (fun k : Nat => (k : ℚ)) n).ret = false →
          (lb.call64 (fun k : Nat => (k : ℚ)) n).low = 50000000 ∧
          (lb.call64 (fun k : Nat => (k : ℚ)) n).high = 50000000) :=
  ⟨by decide, by decide, by decide, by decide, by decide, by decide,
    get_work64_true_iff_nonempty 1 50000000 4 true 135720 (fun k : Nat => (k : ℚ))
      (by decide) (by decide) (by decide) (by decide) (by decide) (by decide)⟩

/-- C3, as stated, fails in `int64_t` arithmetic: for `x = 1`,
`sieve_limit = INT64_MAX` and one thread with printing enabled (where
`O_primepi` is `4398046511103`), the ninth call of `get_work` finds
`low_ = 9223372036854775801`, the sum `low_ + thread_dist_` wraps around, and
the call returns true with `high = -8070450532247928840`, which is below
`low`. -/
theorem get_work64_true_empty :
    ∃ lb, init64 1 INT64_MAX 1 true 4398046511103 = some lb ∧
      ∀ clock : Nat → ℚ,
        (lb.call64 clock 8).ret = true ∧
        (lb.call64 clock 8).low = 9223372036854775801 ∧
        (lb.call64 clock 8).high = -8070450532247928840 ∧
        ¬ (lb.call64 clock 8).low < (lb.call64 clock 8).high := by
  refine ⟨{ low_ := 1, sieve_limit_ := INT64_MAX, min_thread_dist_ := 4398046511103,
            thread_dist_ := 1152921504606846975, time_ := 0, threads_ := 1,
            is_print_ := true }, rfl, ?_⟩
  intro clock
  obtain ⟨-, h1, h2, h3⟩ := call64_clock
    { low_ := 1, sieve_limit_ := INT64_MAX, min_thread_dist_ := 4398046511103,
      thread_dist_ := 1152921504606846975, time_ := 0, threads_ := 1,
      is_print_ := true } clock (fun _ => 0) 8
  rw [h1, h2, h3]
  decide

/-- One call of `get_work64` on a single thread with printing disabled: the
call hands out all that is left. -/
theorem get_work64_single (s : LoadBalancerP2) (time : ℚ) (h1 : s.threads_ = 1)
    (hp : s.is_print_ = false)
    (hmin : -9223372036854775808 ≤ s.sieve_limit_) (hmax : s.sieve_limit_ ≤ INT64_MAX)
    (hd : s.sieve_limit_ - s.low_ ≤ INT64_MAX) :
    (s.get_work64 time).low = min s.low_ s.sieve_limit_ ∧
    (s.get_work64 time).high = s.sieve_limit_ ∧
    (s.get_work64 time).ret = decide (min s.low_ s.sieve_limit_ < s.sieve_limit_) ∧
    (s.get_work64 time).state.low_ = s.sieve_limit_ ∧
    (s.get_work64 time).state.sieve_limit_ = s.sieve_limit_ ∧
    (s.get_work64 time).state.thread_dist_ = s.sieve_limit_ - min s.low_ s.sieve_limit_ ∧
    (s.get_work64 time).state.threads_ = 1 ∧
    (s.get_work64 time).state.is_print_ = false ∧
    (s.get_work64 time).status = none := by
  have hps : (s.print_status time).1 = s := print_status_state s time
  have hst : (s.print_status time).2 = none := by
    simp only [print_status, hp, Bool.false_eq_true, if_false]
  have hw : wrap64 (s.sieve_limit_ - min s.low_ s.sieve_limit_)
      = s.sieve_limit_ - min s.low_ s.sieve_limit_ := by
    apply wrap64_eq
    · have := min_le_right s.low_ s.sieve_limit_
      omega
    · simp only [min_def]
      split_ifs
      · exact hd
      · rw [sub_self]; decide
  have hsum : min s.low_ s.sieve_limit_ + (s.sieve_limit_ - min s.low_ s.sieve_limit_)
      = s.sieve_limit_ := by omega
  have hw2 : wrap64 s.sieve_limit_ = s.sieve_limit_ := wrap64_eq _ hmin hmax
  simp only [get_work64, hps, hst, h1, hp, hw, hsum, hw2, if_true, Bool.not_false, min_self]
  exact ⟨trivial, trivial, trivial, trivial, trivial, trivial, trivial, trivial, trivial⟩

/-- The integer square root of `INT64_MAX * INT64_MAX`. -/
theorem isqrt_max_sq :
    isqrt 85070591730234615847396907784232501249 = 9223372036854775807 := by
  rw [isqrt, show (85070591730234615847396907784232501249 : Int)
    = 9223372036854775807 * 9223372036854775807 from by norm_num, Int.sqrt_eq]
  rfl

/-- With no work to hand out the constructor resolves the thread count to `1`. -/
theorem init_threads_zero_work (x sl t : Int) (p : Bool) (O : Int) (ht : 1 ≤ t)
    (h : sl ≤ isqrt x) : (init x sl t p O).threads_ = 1 := by
  show ideal_num_threads t (sl - min (isqrt x) sl) _ = 1
  rw [min_eq_right h, sub_self]
  unfold ideal_num_threads cdiv
  rw [Int.zero_tdiv]
  omega

/-- C8, amended: when `sieve_limit <= isqrt(x) <= INT64_MAX`, `threads * 8`
fits into an `int`, and printing is disabled or `sieve_limit` plus
`min_thread_dist_ = max(O_primepi, 1 << 22)` does not exceed `INT64_MAX`, the
constructor returns a load balancer on which the first call of `get_work` (in
`int64_t` arithmetic) returns false and writes `low = high = sieve_limit`. -/
theorem get_work64_zero_work (x sieve_limit threads : Int) (is_print : Bool)
    (O_primepi : Int) (clock : Nat → ℚ)
    (hx : 0 ≤ x) (hs : 0 ≤ sieve_limit) (ht : 1 ≤ threads) (ht8 : threads * 8 ≤ INT_MAX)
    (h : sieve_limit ≤ isqrt x) (hq : isqrt x ≤ INT64_MAX)
    (hov : is_print = false ∨ sieve_limit + max O_primepi 4194304 ≤ INT64_MAX) :
    ∃ lb, init64 x sieve_limit threads is_print O_primepi = some lb ∧
      (lb.call64 clock 0).ret = false ∧
      (lb.call64 clock 0).low = sieve_limit ∧
      (lb.call64 clock 0).high = sieve_limit := by
  have hsl : sieve_limit ≤ INT64_MAX := le_trans h hq
  rcases hov with hp | hov
  · subst hp
    have he := init64_eq x sieve_limit threads false O_primepi hq hs hsl ht ht8
    refine ⟨_, he, ?_⟩
    have h1 := init_threads_zero_work x sieve_limit threads false O_primepi ht h
    have hl : (init x sieve_limit threads false O_primepi).low_ = sieve_limit := by
      rw [init_low]; exact min_eq_right h
    have hsv := init_sieve_limit x sieve_limit threads false O_primepi
    obtain ⟨k1, k2, k3, -⟩ :=
      get_work64_single (init x sieve_limit threads false O_primepi) (clock 0) h1 rfl
        (by rw [hsv]; omega) (by rw [hsv]; exact hsl)
        (by rw [hl, hsv, sub_self]; decide)
    rw [hl, hsv, min_self] at k1 k3
    rw [hsv] at k2
    refine ⟨?_, k1, k2⟩
    show ((init x sieve_limit threads false O_primepi).get_work64 (clock 0)).ret = false
    rw [k3]
    exact decide_eq_false (lt_irrefl _)
  · have hov2 : sieve_limit + max (max O_primepi 4194304)
        ((sieve_limit - min (isqrt x) sieve_limit) / (threads * 8)) ≤ INT64_MAX := by
      rw [min_eq_right h, sub_self, Int.zero_ediv]
      rw [max_eq_left (by omega : (0 : Int) ≤ max O_primepi 4194304)]
      exact hov
    obtain ⟨he, hsim⟩ :=
      init64_no_overflow x sieve_limit threads is_print O_primepi hq hs hsl ht ht8 hov2
    refine ⟨_, he, ?_⟩
    rw [(hsim clock 0).2]
    exact get_work_zero_work x sieve_limit threads is_print O_primepi clock hx hs ht h

/-- C8, witness: `x = 1`, `sieve_limit = 0`, `threads = 4`; `isqrt(1) = 1` is
not below `sieve_limit = 0`, the first call returns false. -/
theorem get_work64_zero_work_witness :
    (0 : Int) ≤ 1 ∧ (0 : Int) ≤ 0 ∧ (1 : Int) ≤ 4 ∧ (4 : Int) * 8 ≤ INT_MAX ∧
    (0 : Int) ≤ isqrt 1 ∧ isqrt 1 ≤ INT64_MAX ∧
    (true = false ∨ (0 : Int) + max 0 4194304 ≤ INT64_MAX) ∧
    ∃ lb, init64 1 0 4 true 0 = some lb ∧
      (lb.call64 (fun k : Nat => (k : ℚ)) 0).ret = false ∧
      (lb.call64 (fun k : Nat => (k : ℚ)) 0).low = 0 ∧
      (lb.call64 (fun k : Nat => (k : ℚ)) 0).high = 0 :=
  ⟨by decide, by decide, by decide, by decide, by decide, by decide, by decide,
    get_work64_zero_work 1 0 4 true 0 (fun k : Nat => (k : ℚ))
      (by decide) (by decide) (by decide) (by decide) (by decide) (by decide) (by decide)⟩

/-- C8, as stated, fails in `int64_t` arithmetic: for
`x = INT64_MAX * INT64_MAX`, `sieve_limit = INT64_MAX` and one thread with
printing enabled (where `O_primepi` is `4398046511103`) there is no work,
`isqrt(x) = sieve_limit`; the first call of `get_work` returns false and
writes `low = sieve_limit`, but `low_ += thread_dist_` wraps around and the
call writes `high = -9223367638808264706`. -/
theorem get_work64_zero_work_wraps :
    INT64_MAX ≤ isqrt 85070591730234615847396907784232501249 ∧
    ∃ lb, init64 85070591730234615847396907784232501249 INT64_MAX 1 true 4398046511103
        = some lb ∧
      ∀ clock : Nat → ℚ,
        (lb.call64 clock 0).ret = false ∧
        (lb.call64 clock 0).low = INT64_MAX ∧
        (lb.call64 clock 0).high = -9223367638808264706 ∧
        (lb.call64 clock 0).high ≠ INT64_MAX := by
  refine ⟨by rw [isqrt_max_sq]; decide,
    { low_ := INT64_MAX, sieve_limit_ := INT64_MAX, min_thread_dist_ := 4398046511103,
      thread_dist_ := 4398046511103, time_ := 0, threads_ := 1, is_print_ := true }, ?_, ?_⟩
  · simp only [init64, isqrt_max_sq]
    rfl
  · intro clock
    obtain ⟨-, h1, h2, h3⟩ := call64_clock
      { low_ := INT64_MAX, sieve_limit_ := INT64_MAX, min_thread_dist_ := 4398046511103,
        thread_dist_ := 4398046511103, time_ := 0, threads_ := 1, is_print_ := true }
      clock (fun _ => 0) 0
    rw [h1, h2, h3]
    decide

/-- C18, amended: when `isqrt(x)` and `sieve_limit` fit into an `int64_t`,
`threads * 8` into an `int`, and `sieve_limit` plus the initial
`thread_dist_` does not exceed `INT64_MAX`, the constructor returns a load
balancer on which, once `low_` equals `sieve_limit` before a call of
`get_work` (in `int64_t` arithmetic), that call and every later call return
false, write `low = high = sieve_limit` and leave `low_` at `sieve_limit`. -/
theorem exhausted64_stable (x sieve_limit threads : Int) (is_print : Bool)
    (O_primepi : Int) (clock : Nat → ℚ)
    (hq : isqrt x ≤ INT64_MAX) (hs : 0 ≤ sieve_limit) (hsl : sieve_limit ≤ INT64_MAX)
    (ht : 1 ≤ threads) (ht8 : threads * 8 ≤ INT_MAX)
    (hov : sieve_limit + max (max O_primepi 4194304)
        ((sieve_limit - min (isqrt x) sieve_limit) / (threads * 8)) ≤ INT64_MAX) :
    ∃ lb, init64 x sieve_limit threads is_print O_primepi = some lb ∧
      ∀ n m : Nat, (lb.before64 clock n).low_ = sieve_limit → n ≤ m →
        (lb.call64 clock m).ret = false ∧
        (lb.call64 clock m).low = sieve_limit ∧
        (lb.call64 clock m).high = sieve_limit ∧
        (lb.call64 clock m).state.low_ = sieve_limit := by
  obtain ⟨he, hsim⟩ :=
    init64_no_overflow x sieve_limit threads is_print O_primepi hq hs hsl ht ht8 hov
  refine ⟨_, he, ?_⟩
  intro n m h hnm
  rw [(hsim clock n).1] at h
  rw [(hsim clock m).2]
  exact exhausted_stable x sieve_limit threads is_print O_primepi clock n m hs ht h hnm

/-- C18, witness: `x = 1`, `sieve_limit = 50000000`, `threads = 4`. -/
theorem exhausted64_stable_witness :
    isqrt 1 ≤ INT64_MAX ∧ (0 : Int) ≤ 50000000 ∧
    (50000000 : Int) ≤ INT64_MAX ∧ (1 : Int) ≤ 4 ∧ (4 : Int) * 8 ≤ INT_MAX ∧
    (50000000 : Int) + max (max 135720 4194304)
        ((50000000 - min (isqrt 1) 50000000) / (4 * 8)) ≤ INT64_MAX ∧
    ∃ lb, init64 1 50000000 4 true 135720 = some lb ∧
      ∀ n m : Nat, (lb.before64 (fun k : Nat => (k : ℚ)) n).low_ = 50000000 → n ≤ m →
        (lb.call64 (fun k : Nat => (k : ℚ)) m).ret = false ∧
        (lb.call64 (fun k : Nat => (k : ℚ)) m).low = 50000000 ∧
        (lb.call64 (fun k : Nat => (k : ℚ)) m).high = 50000000 ∧
        (lb.call64 (fun k : Nat => (k : ℚ)) m).state.low_ = 50000000 :=
  ⟨by decide, by decide, by decide, by decide, by decide, by decide,
    exhausted64_stable 1 50000000 4 true 135720 (fun k : Nat => (k : ℚ))
      (by decide) (by decide) (by decide) (by decide) (by decide) (by decide)⟩

/-- C18, as stated, fails in `int64_t` arithmetic: for
`x = INT64_MAX * INT64_MAX`, `sieve_limit = INT64_MAX` and one thread with
printing enabled (where `O_primepi` is `4398046511103`), the first call of
`get_work` is made with `low_ = sieve_limit_` and returns false, but it
leaves `low_ = -9223367638808264706` behind, and the second call returns
true and writes `[-9223367638808264706, -9223363240761753603)`. -/
theorem exhausted64_resumes :
    ∃ lb, init64 85070591730234615847396907784232501249 INT64_MAX 1 true 4398046511103
        = some lb ∧
      ∀ clock : Nat → ℚ,
        (lb.before64 clock 0).low_ = INT64_MAX ∧
        (lb.call64 clock 0).ret = false ∧
        (lb.before64 clock 1).low_ = -9223367638808264706 ∧
        (lb.call64 clock 1).ret = true ∧
        (lb.call64 clock 1).low = -9223367638808264706 ∧
        (lb.call64 clock 1).high = -9223363240761753603 := by
  refine ⟨LoadBalancerP2.mk INT64_MAX INT64_MAX 4398046511103 4398046511103 0 1 true, ?_, ?_⟩
  · simp only [init64, isqrt_max_sq]
    rfl
  · intro clock
    obtain ⟨-, -, -, h3⟩ := call64_clock
      { low_ := INT64_MAX, sieve_limit_ := INT64_MAX, min_thread_dist_ := 4398046511103,
        thread_dist_ := 4398046511103, time_ := 0, threads_ := 1, is_print_ := true }
      clock (fun _ => 0) 0
    obtain ⟨k0, k1, k2, k3⟩ := call64_clock
      { low_ := INT64_MAX, sieve_limit_ := INT64_MAX, min_thread_dist_ := 4398046511103,
        thread_dist_ := 4398046511103, time_ := 0, threads_ := 1, is_print_ := true }
      clock (fun _ => 0) 1
    refine ⟨rfl, ?_⟩
    rw [h3, k0, k1, k2, k3]
    decide

/-- C14, amended: when `isqrt(x)` and `sieve_limit` fit into an `int64_t`,
`threads * 8` into an `int`, and `sieve_limit` plus the initial
`thread_dist_` does not exceed `INT64_MAX`, the constructor returns a load
balancer on which a range written by `get_work` (in `int64_t` arithmetic)
never ends above `sieve_limit`; one that ends strictly below `sieve_limit`
has exactly the width `thread_dist_` that the call stored, and that width is
at least `min_thread_dist_`; so a range narrower than `min_thread_dist_` ends
at `sieve_limit`. -/
theorem chunk_floor64 (x sieve_limit threads : Int) (is_print : Bool)
    (O_primepi : Int) (clock : Nat → ℚ)
    (hq : isqrt x ≤ INT64_MAX) (hs : 0 ≤ sieve_limit) (hsl : sieve_limit ≤ INT64_MAX)
    (ht : 1 ≤ threads) (ht8 : threads * 8 ≤ INT_MAX)
    (hov : sieve_limit + max (max O_primepi 4194304)
        ((sieve_limit - min (isqrt x) sieve_limit) / (threads * 8)) ≤ INT64_MAX) :
    ∃ lb, init64 x sieve_limit threads is_print O_primepi = some lb ∧
      ∀ n : Nat,
        (lb.call64 clock n).high ≤ sieve_limit ∧
        ((lb.call64 clock n).high < sieve_limit →
          (lb.call64 clock n).high - (lb.call64 clock n).low
            = (lb.call64 clock n).state.thread_dist_ ∧
          lb.min_thread_dist_ ≤ (lb.call64 clock n).high - (lb.call64 clock n).low) ∧
        ((lb.call64 clock n).high - (lb.call64 clock n).low < lb.min_thread_dist_ →
          (lb.call64 clock n).high = sieve_limit) := by
  obtain ⟨he, hsim⟩ :=
    init64_no_overflow x sieve_limit threads is_print O_primepi hq hs hsl ht ht8 hov
  refine ⟨_, he, ?_⟩
  intro n
  rw [(hsim clock n).2]
  exact chunk_floor x sieve_limit threads is_print O_primepi clock n hs ht

/-- C14, witness: `x = 1`, `sieve_limit = 50000000`, `threads = 4`. -/
theorem chunk_floor64_witness :
    isqrt 1 ≤ INT64_MAX ∧ (0 : Int) ≤ 50000000 ∧
    (50000000 : Int) ≤ INT64_MAX ∧ (1 : Int) ≤ 4 ∧ (4 : Int) * 8 ≤ INT_MAX ∧
    (50000000 : Int) + max (max 135720 4194304)
        ((50000000 - min (isqrt 1) 50000000) / (4 * 8)) ≤ INT64_MAX ∧
    ∃ lb, init64 1 50000000 4 true 135720 = some lb ∧
      ∀ n : Nat,
        (lb.call64 (fun k : Nat => (k : ℚ)) n).high ≤ 50000000 ∧
        ((lb.call64 (fun k : Nat => (k : ℚ)) n).high < 50000000 →
          (lb.call64 (fun k : Nat => (k : ℚ)) n).high - (lb.call64 (fun k : Nat => (k : ℚ)) n).low
            = (lb.call64 (fun k : Nat => (k : ℚ)) n).state.thread_dist_ ∧
          lb.min_thread_dist_ ≤ (lb.call64 (fun k : Nat => (k : ℚ)) n).high - (lb.call64 (fun k : Nat => (k : ℚ)) n).low) ∧
        ((lb.call64 (fun k : Nat => (k : ℚ)) n).high - (lb.call64 (fun k : Nat => (k : ℚ)) n).low < lb.min_thread_dist_ →
          (lb.call64 (fun k : Nat => (k : ℚ)) n).high = 50000000) :=
  ⟨by decide, by decide, by decide, by decide, by decide, by decide,
    chunk_floor64 1 50000000 4 true 135720 (fun k : Nat => (k : ℚ))
      (by decide) (by decide) (by decide) (by decide) (by decide) (by decide)⟩

/-- C14, as stated, fails in `int64_t` arithmetic: for `x = 1`,
`sieve_limit = INT64_MAX` and one thread with printing enabled (where
`O_primepi` is `4398046511103`), the ninth call of `get_work` writes
`low = 9223372036854775801` and, after `low_ += thread_dist_` has wrapped
around, `high = -8070450532247928840`: the range ends strictly below
`sieve_limit`, yet its width `high - low` is negative, it is not the stored
`thread_dist_ = 1152921504606846975` and it is below `min_thread_dist_`. -/
theorem chunk_floor64_wraps :
    ∃ lb, init64 1 INT64_MAX 1 true 4398046511103 = some lb ∧
      lb.min_thread_dist_ = 4398046511103 ∧
      ∀ clock : Nat → ℚ,
        (lb.call64 clock 8).ret = true ∧
        (lb.call64 clock 8).high < INT64_MAX ∧
        (lb.call64 clock 8).high - (lb.call64 clock 8).low = -17293822569102704641 ∧
        (lb.call64 clock 8).state.thread_dist_ = 1152921504606846975 ∧
        (lb.call64 clock 8).high - (lb.call64 clock 8).low < lb.min_thread_dist_ := by
  refine ⟨{ low_ := 1, sieve_limit_ := INT64_MAX, min_thread_dist_ := 4398046511103,
            thread_dist_ := 1152921504606846975, time_ := 0, threads_ := 1,
            is_print_ := true }, rfl, rfl, ?_⟩
  intro clock
  obtain ⟨-, h1, h2, h3⟩ := call64_clock
    { low_ := 1, sieve_limit_ := INT64_MAX, min_thread_dist_ := 4398046511103,
      thread_dist_ := 1152921504606846975, time_ := 0, threads_ := 1,
      is_print_ := true } clock (fun _ => 0) 8
  have h4 := (call64_clock
    { low_ := 1, sieve_limit_ := INT64_MAX, min_thread_dist_ := 4398046511103,
      thread_dist_ := 1152921504606846975, time_ := 0, threads_ := 1,
      is_print_ := true } clock (fun _ => 0) 9).1
  have h5 : (call64 (LoadBalancerP2.mk 1 INT64_MAX 4398046511103 1152921504606846975 0 1 true)
      clock 8).state
      = before64 (LoadBalancerP2.mk 1 INT64_MAX 4398046511103 1152921504606846975 0 1 true)
        clock 9 := rfl
  rw [h1, h2, h3, h5, h4]
  decide

/-- C9, amended: when `isqrt(x)` and `sieve_limit` fit into an `int64_t` and
`threads * 8` into an `int`, the constructor returns a load balancer whose
`threads_` equals `ideal_num_threads(threads, sieve_limit - low0,
min_thread_dist_)`, and whenever `threads_ > 1` then
`threads_ * min_thread_dist_ <= sieve_limit - low0`. -/
theorem init64_threads_min_chunk (x sieve_limit threads : Int) (is_print : Bool)
    (O_primepi : Int) (hx : 0 ≤ x) (hq : isqrt x ≤ INT64_MAX)
    (hs : 0 ≤ sieve_limit) (hsl : sieve_limit ≤ INT64_MAX)
    (ht : 1 ≤ threads) (ht8 : threads * 8 ≤ INT_MAX) :
    ∃ lb, init64 x sieve_limit threads is_print O_primepi = some lb ∧
      lb.threads_ = ideal_num_threads threads (sieve_limit - min (isqrt x) sieve_limit)
          lb.min_thread_dist_ ∧
      (1 < lb.threads_ →
        lb.threads_ * lb.min_thread_dist_ ≤ sieve_limit - min (isqrt x) sieve_limit) :=
  ⟨_, init64_eq x sieve_limit threads is_print O_primepi hq hs hsl ht ht8,
    init_threads_min_chunk x sieve_limit threads is_print O_primepi hx hs ht⟩

/-- C9, witness: `x = 1`, `sieve_limit = 50000000`, `threads = 4`. -/
theorem init64_threads_min_chunk_witness :
    (0 : Int) ≤ 1 ∧ isqrt 1 ≤ INT64_MAX ∧ (0 : Int) ≤ 50000000 ∧
    (50000000 : Int) ≤ INT64_MAX ∧ (1 : Int) ≤ 4 ∧ (4 : Int) * 8 ≤ INT_MAX ∧
    ∃ lb, init64 1 50000000 4 true 135720 = some lb ∧
      lb.threads_ = ideal_num_threads 4 (50000000 - min (isqrt 1) 50000000)
          lb.min_thread_dist_ ∧
      (1 < lb.threads_ →
        lb.threads_ * lb.min_thread_dist_ ≤ 50000000 - min (isqrt 1) 50000000) :=
  ⟨by decide, by decide, by decide, by decide, by decide, by decide,
    init64_threads_min_chunk 1 50000000 4 true 135720
      (by decide) (by decide) (by decide) (by decide) (by decide) (by decide)⟩

/-- C9, as stated, fails in the arithmetic of `int`: for `x = 1`,
`sieve_limit = 50000000` and `threads = 2^29 + 1` the product `threads * 8`
wraps around to `8`, the constructor stores `thread_dist_ = 49999999 / 8 =
6249999` and `threads_ = 49999999 / 6249999 = 8`, whereas
`ideal_num_threads(threads, sieve_limit - low0, min_thread_dist_)` is
`49999999 / 4194304 = 11`. For `threads = 2^29` the product wraps around to
`0` and the division in the constructor traps. -/
theorem init64_threads_wrapped :
    (∃ lb, init64 1 50000000 536870913 true 135720 = some lb ∧
      lb.min_thread_dist_ = 4194304 ∧ lb.thread_dist_ = 6249999 ∧ lb.threads_ = 8 ∧
      ideal_num_threads 536870913 (50000000 - min (isqrt 1) 50000000)
        lb.min_thread_dist_ = 11) ∧
    init64 1 50000000 536870912 true 135720 = none :=
  ⟨⟨{ low_ := 1, sieve_limit_ := 50000000, min_thread_dist_ := 4194304,
      thread_dist_ := 6249999, time_ := 0, threads_ := 8, is_print_ := true },
    by decide, rfl, rfl, rfl, by decide⟩, by decide⟩

/-- The status line of a call of `get_work64` is the one that `print_status`
writes in the state before the call. -/
theorem call64_status (s : LoadBalancerP2) (clock : Nat → ℚ) (n : Nat) :
    (call64 s clock n).status = ((before64 s clock n).print_status (clock n)).2 := rfl

/-- C10, amended: when `sieve_limit > 0`, `isqrt(x)` and `sieve_limit` fit
into an `int64_t`, `threads * 8` into an `int`, and `sieve_limit` plus the
initial `thread_dist_` does not exceed `INT64_MAX`, the constructor returns a
load balancer on which the percentage `100 * low_ / sieve_limit` lies in
`[0, 100]` before every call of `get_work` (in `int64_t` arithmetic), it does
not decrease from one call to a later one, and it is the value that a call
writes to the status line. -/
theorem percent64_monotone (x sieve_limit threads : Int) (is_print : Bool)
    (O_primepi : Int) (clock : Nat → ℚ)
    (hx : 0 ≤ x) (hq : isqrt x ≤ INT64_MAX)
    (hs : 0 < sieve_limit) (hsl : sieve_limit ≤ INT64_MAX)
    (ht : 1 ≤ threads) (ht8 : threads * 8 ≤ INT_MAX)
    (hov : sieve_limit + max (max O_primepi 4194304)
        ((sieve_limit - min (isqrt x) sieve_limit) / (threads * 8)) ≤ INT64_MAX) :
    ∃ lb, init64 x sieve_limit threads is_print O_primepi = some lb ∧
      (∀ n, 0 ≤ get_percent (lb.before64 clock n).low_ sieve_limit ∧
        get_percent (lb.before64 clock n).low_ sieve_limit ≤ 100) ∧
      (∀ i j, i ≤ j →
        get_percent (lb.before64 clock i).low_ sieve_limit
          ≤ get_percent (lb.before64 clock j).low_ sieve_limit) ∧
      (∀ n q, (lb.call64 clock n).status = some q →
        q = get_percent (lb.before64 clock n).low_ sieve_limit) := by
  obtain ⟨he, hsim⟩ :=
    init64_no_overflow x sieve_limit threads is_print O_primepi hq (le_of_lt hs) hsl ht ht8 hov
  refine ⟨_, he, ?_⟩
  have hb : ∀ n, before64 (init x sieve_limit threads is_print O_primepi) clock n
      = before (init x sieve_limit threads is_print O_primepi) clock n :=
    fun n => (hsim clock n).1
  have hc : ∀ n, call64 (init x sieve_limit threads is_print O_primepi) clock n
      = call (init x sieve_limit threads is_print O_primepi) clock n :=
    fun n => (hsim clock n).2
  simp only [hb, hc]
  exact percent_monotone x sieve_limit threads is_print O_primepi clock hx hs ht

/-- C10, witness: `x = 1`, `sieve_limit = 50000000`, `threads = 4`. -/
theorem percent64_monotone_witness :
    (0 : Int) ≤ 1 ∧ isqrt 1 ≤ INT64_MAX ∧ (0 : Int) < 50000000 ∧
    (50000000 : Int) ≤ INT64_MAX ∧ (1 : Int) ≤ 4 ∧ (4 : Int) * 8 ≤ INT_MAX ∧
    (50000000 : Int) + max (max 135720 4194304)
        ((50000000 - min (isqrt 1) 50000000) / (4 * 8)) ≤ INT64_MAX ∧
    ∃ lb, init64 1 50000000 4 true 135720 = some lb ∧
      (∀ n, 0 ≤ get_percent (lb.before64 (fun k : Nat => (k : ℚ)) n).low_ 50000000 ∧
        get_percent (lb.before64 (fun k : Nat => (k : ℚ)) n).low_ 50000000 ≤ 100) ∧
      (∀ i j, i ≤ j →
        get_percent (lb.before64 (fun k : Nat => (k : ℚ)) i).low_ 50000000
          ≤ get_percent (lb.before64 (fun k : Nat => (k : ℚ)) j).low_ 50000000) ∧
      (∀ n q, (lb.call64 (fun k : Nat => (k : ℚ)) n).status = some q →
        q = get_percent (lb.before64 (fun k : Nat => (k : ℚ)) n).low_ 50000000) :=
  ⟨by decide, by decide, by decide, by decide, by decide, by decide, by decide,
    percent64_monotone 1 50000000 4 true 135720 (fun k : Nat => (k : ℚ))
      (by decide) (by decide) (by decide) (by decide) (by decide) (by decide) (by decide)⟩

/-- C10, as stated, fails in `int64_t` arithmetic: for `x = 1`,
`sieve_limit = INT64_MAX` and one thread with printing enabled (where
`O_primepi` is `4398046511103`), `low_` is `9223372036854775801` before the
ninth call of `get_work` and, after `low_ += thread_dist_` has wrapped around,
`-8070450532247928840` before the tenth call, which writes the percentage
`100 * low_ / sieve_limit` of it to the status line: a negative value, below
the one before. -/
theorem percent64_negative :
    ∃ lb, init64 1 INT64_MAX 1 true 4398046511103 = some lb ∧
      ∀ clock : Nat → ℚ,
        (lb.before64 clock 8).low_ = 9223372036854775801 ∧
        (lb.before64 clock 9).low_ = -8070450532247928840 ∧
        (lb.call64 clock 9).status
          = some (get_percent (lb.before64 clock 9).low_ INT64_MAX) ∧
        get_percent (lb.before64 clock 9).low_ INT64_MAX < 0 ∧
        get_percent (lb.before64 clock 9).low_ INT64_MAX
          < get_percent (lb.before64 clock 8).low_ INT64_MAX := by
  refine ⟨LoadBalancerP2.mk 1 INT64_MAX 4398046511103 1152921504606846975 0 1 true, rfl, ?_⟩
  intro clock
  have h8 : before64 (LoadBalancerP2.mk 1 INT64_MAX 4398046511103 1152921504606846975 0 1 true)
      clock 8
      = LoadBalancerP2.mk 9223372036854775801 INT64_MAX 4398046511103 1152921504606846975 0 1
          true := by
    rw [(call64_clock _ clock (fun _ => 0) 8).1]
    decide
  have h9 : before64 (LoadBalancerP2.mk 1 INT64_MAX 4398046511103 1152921504606846975 0 1 true)
      clock 9
      = LoadBalancerP2.mk (-8070450532247928840) INT64_MAX 4398046511103 1152921504606846975 0 1
          true := by
    rw [(call64_clock _ clock (fun _ => 0) 9).1]
    decide
  rw [call64_status, h8, h9]
  refine ⟨rfl, rfl, ?_, ?_, ?_⟩
  · simp only [print_status, if_true, true_or]
  · unfold get_percent INT64_MAX
    norm_num
  · unfold get_percent INT64_MAX
    norm_num

end LoadBalancerP2

end primecount

/-! ## Theorems about for_atomic_add -/

namespace primecount

namespace AtomicLoop

theorem strided_succ_of_lt (S E inc : Int) (m : Nat) (h : S + (m : Int) * inc < E) :
    strided S E inc (m + 1) = (S + (m : Int) * inc) ::ₘ strided S E inc m := by
  unfold strided
  rw [Multiset.range_succ, Multiset.map_cons]
  exact Multiset.filter_cons_of_pos _ h

theorem strided_succ_of_not_lt (S E inc : Int) (m : Nat) (h : ¬ S + (m : Int) * inc < E) :
    strided S E inc (m + 1) = strided S E inc m := by
  unfold strided
  rw [Multiset.range_succ, Multiset.map_cons]
  exact Multiset.filter_cons_of_neg _ h

theorem start_good_add (S E inc : Int) (N : Nat) : GoodAdd S E inc N (start N) := by
  refine ⟨by simp [start], Or.inl ⟨rfl, rfl, ?_⟩⟩
  intro p hp
  exact List.eq_of_mem_replicate hp

/-- A thread that has assigned the value `S + m * inc` of the counter keeps
`GoodAdd`. -/
theorem enter_good_add (S E inc : Int) (N : Nat) (s : AtomicLoop) (t : Nat) (m : Nat)
    (hinc : 1 ≤ inc) (hlen : s.pc.length = N)
    (hcl : (s.claimed : Multiset Int) = strided S E inc m)
    (hdone : ∀ p ∈ s.pc, p = Pc.done → E ≤ S + (m : Int) * inc) :
    GoodAdd S E inc N
      (enter E { s with atomic_i := S + ((m : Int) + 1) * inc } t (S + (m : Int) * inc)) := by
  unfold enter
  split_ifs with hlt
  · refine ⟨by simp [hlen], Or.inr ⟨m, rfl, ?_, ?_⟩⟩
    · simp only
      rw [strided_succ_of_lt S E inc m hlt, ← Multiset.cons_coe, hcl]
    · intro p hp hpd
      simp only at hp
      rcases List.mem_or_eq_of_mem_set hp with h | h
      · exact hdone p h hpd
      · rw [h] at hpd; exact absurd hpd (by decide)
  · refine ⟨by simp [hlen], Or.inr ⟨m, rfl, ?_, ?_⟩⟩
    · simp only
      rw [strided_succ_of_not_lt S E inc m hlt, hcl]
    · intro p _ _
      omega

/-- One atomic operation of `for_atomic_add` keeps `GoodAdd` when `0 <= S`
and `1 <= inc`. -/
theorem step_add_good (S E inc : Int) (N : Nat) (s s1 : AtomicLoop) (t : Nat)
    (hS : 0 ≤ S) (hinc : 1 ≤ inc)
    (h : GoodAdd S E inc N s) (hstep : step_add S E inc s t = some s1) :
    GoodAdd S E inc N s1 := by
  obtain ⟨hlen, hcase⟩ := h
  unfold step_add at hstep
  cases hpc : s.pc.get? t with
  | none => rw [hpc] at hstep; exact absurd hstep (by simp)
  | some p =>
    rw [hpc] at hstep
    have hmem : p ∈ s.pc := List.get?_mem hpc
    cases p with
    | done => exact absurd hstep (by simp)
    | first =>
      simp only at hstep
      split_ifs at hstep with hi
      · -- the compare_exchange_strong succeeds
        rcases hcase with ⟨-, hcl, hall⟩ | ⟨m, hge, -, -⟩
        · have := Option.some.inj hstep
          rw [← this]
          have h0 := enter_good_add S E inc N s t 0 hinc hlen
            (by rw [hcl]; simp [strided])
            (by
              intro q hq hqd
              rw [hall q hq] at hqd
              exact absurd hqd (by decide))
          simpa using h0
        · have hpos : 0 ≤ (m : Int) * inc := mul_nonneg (Int.ofNat_nonneg m) (by omega)
          have : ((m : Int) + 1) * inc = (m : Int) * inc + inc := by ring
          omega
      · -- the compare_exchange_strong fails
        rcases hcase with ⟨hi1, -, -⟩ | ⟨m, hge, hcl, hdone⟩
        · exact absurd hi1 hi
        · have := Option.some.inj hstep
          rw [← this]
          refine ⟨by simp [hlen], Or.inr ⟨m, hge, hcl, ?_⟩⟩
          intro q hq hqd
          simp only at hq
          rcases List.mem_or_eq_of_mem_set hq with h1 | h1
          · exact hdone q h1 hqd
          · rw [h1] at hqd; exact absurd hqd (by decide)
    | fetch =>
      simp only at hstep
      have := Option.some.inj hstep
      rw [← this]
      rcases hcase with ⟨-, -, hall⟩ | ⟨m, hge, hcl, hdone⟩
      · exact absurd (hall _ hmem) (by decide)
      · have h1 := enter_good_add S E inc N s t (m + 1) hinc hlen hcl
          (by
            intro q hq hqd
            have := hdone q hq hqd
            have e : (((m + 1 : Nat) : Int)) * inc = (m : Int) * inc + inc := by
              push_cast; ring
            omega)
        have e1 : s.atomic_i + inc = S + (((m + 1 : Nat) : Int) + 1) * inc := by
          rw [hge]; push_cast; ring
        have e2 : s.atomic_i = S + ((m + 1 : Nat) : Int) * inc := by
          rw [hge]; push_cast; ring
        rw [e1]
        rw [← e2] at h1
        exact h1

/-- Every interleaving of `for_atomic_add` keeps `GoodAdd`. -/
theorem run_add_good (S E inc : Int) (N : Nat) (hS : 0 ≤ S) (hinc : 1 ≤ inc)
    (sched : List Nat) :
    ∀ s s1 : AtomicLoop, GoodAdd S E inc N s → run_add S E inc s sched = some s1 →
      GoodAdd S E inc N s1 := by
  induction sched with
  | nil =>
    intro s s1 h hrun
    have := Option.some.inj hrun
    rw [← this]; exact h
  | cons t ts ih =>
    intro s s1 h hrun
    unfold run_add at hrun
    cases hst : step_add S E inc s t with
    | none => rw [hst] at hrun; exact absurd hrun (by simp)
    | some s2 =>
      rw [hst] at hrun
      exact ih s2 s1 (step_add_good S E inc N s s2 t hS hinc h hst) hrun

/-- With `inc = 1` an atomic operation of `for_atomic_add` is the atomic
operation of `for_atomic_inc`. -/
theorem step_add_one (S E : Int) (s : AtomicLoop) (t : Nat) :
    step_add S E 1 s t = step S E s t := rfl

/-- C12: for every `start >= 0`, `inc >= 1`, `end`, `N >= 1` threads and
every interleaving of `for_atomic_add` after which all threads have left the
loop, no value is claimed twice and the claimed values are exactly the
`start + j * inc` (`j >= 0`) below `end`; and with `inc = 1` every atomic
operation, and so every interleaving, is that of `for_atomic_inc`. -/
theorem for_atomic_add_complete (S E inc : Int) (N : Nat) (sched : List Nat)
    (s : AtomicLoop) (hS : 0 ≤ S) (hinc : 1 ≤ inc) (hN : 1 ≤ N)
    (hrun : run_add S E inc (start N) sched = some s) (hfin : s.finished) :
    s.claimed.Nodup ∧
    (∀ v : Int, v ∈ s.claimed ↔ (v < E ∧ ∃ j : Nat, v = S + (j : Int) * inc)) ∧
    (∀ (s0 : AtomicLoop) (t : Nat), step_add S E 1 s0 t = step S E s0 t) ∧
    (∀ (s0 : AtomicLoop) (l : List Nat), run_add S E 1 s0 l = run S E s0 l) := by
  obtain ⟨hlen, hcase⟩ :=
    run_add_good S E inc N hS hinc sched (start N) s (start_good_add S E inc N) hrun
  have hne : s.pc ≠ [] := by
    intro h
    rw [h] at hlen
    simp at hlen
    omega
  obtain ⟨p, hp⟩ := List.exists_mem_of_ne_nil s.pc hne
  have hpd := hfin p hp
  have hinj : Function.Injective (fun j : Nat => S + (j : Int) * inc) := by
    intro a b hab
    have h1 : (a : Int) * inc = (b : Int) * inc := by
      have : S + (a : Int) * inc = S + (b : Int) * inc := hab
      omega
    have h2 : (a : Int) = (b : Int) := mul_right_cancel₀ (by omega : inc ≠ 0) h1
    exact_mod_cast h2
  refine ⟨?_, ?_, fun _ _ => rfl, ?_⟩
  · rcases hcase with ⟨-, -, hall⟩ | ⟨m, -, hcl, -⟩
    · rw [hall p hp] at hpd
      exact absurd hpd (by decide)
    · rw [← Multiset.coe_nodup, hcl]
      unfold strided
      exact Multiset.Nodup.filter _ ((Multiset.nodup_range (m + 1)).map hinj)
  · intro v
    rcases hcase with ⟨-, -, hall⟩ | ⟨m, -, hcl, hdone⟩
    · rw [hall p hp] at hpd
      exact absurd hpd (by decide)
    · have hE := hdone p hp hpd
      rw [← Multiset.mem_coe, hcl]
      unfold strided
      rw [Multiset.mem_filter, Multiset.mem_map]
      constructor
      · rintro ⟨⟨j, -, rfl⟩, hv⟩
        exact ⟨hv, j, rfl⟩
      · rintro ⟨hv, j, rfl⟩
        refine ⟨⟨j, ?_, rfl⟩, hv⟩
        rw [Multiset.mem_range]
        have h1 : (j : Int) * inc < (m : Int) * inc := by omega
        have h2 : (j : Int) < (m : Int) := lt_of_mul_lt_mul_right h1 (by omega)
        omega
  · intro s0 l
    induction l generalizing s0 with
    | nil => rfl
    | cons t ts ih =>
      show (step_add S E 1 s0 t).bind (fun s1 => run_add S E 1 s1 ts)
        = (step S E s0 t).bind (fun s1 => run S E s1 ts)
      rw [step_add_one]
      congr 1
      funext s1
      exact ih s1

/-- C12, witness: three threads over `[10, 20)` in steps of `3`. -/
theorem for_atomic_add_complete_witness :
    (0 : Int) ≤ 10 ∧ (1 : Int) ≤ 3 ∧ 1 ≤ 3 ∧
    run_add 10 20 3 (start 3) [0, 1, 2, 2, 1, 0, 0, 1, 2]
      = some ⟨31, [Pc.done, Pc.done, Pc.done], [19, 16, 13, 10]⟩ ∧
    finished ⟨31, [Pc.done, Pc.done, Pc.done], [19, 16, 13, 10]⟩ ∧
    ([19, 16, 13, 10] : List Int).Nodup ∧
    (∀ v : Int, v ∈ ([19, 16, 13, 10] : List Int)
      ↔ (v < 20 ∧ ∃ j : Nat, v = 10 + (j : Int) * 3)) ∧
    (∀ (s0 : AtomicLoop) (t : Nat), step_add 10 20 1 s0 t = step 10 20 s0 t) ∧
    (∀ (s0 : AtomicLoop) (l : List Nat), run_add 10 20 1 s0 l = run 10 20 s0 l) :=
  ⟨by decide, by decide, by decide, by decide, by decide,
    for_atomic_add_complete 10 20 3 3 [0, 1, 2, 2, 1, 0, 0, 1, 2]
      ⟨31, [Pc.done, Pc.done, Pc.done], [19, 16, 13, 10]⟩
      (by decide) (by decide) (by decide) (by decide) (by decide)⟩

end AtomicLoop

end primecount

/-! ## Theorems about Phi0 -/

namespace primecount

/-- The loop of `Phi0_thread<-MU>` started with `-phi0` ends with the negated
result of the loop of `Phi0_thread<MU>` started with `phi0`. -/
theorem Phi0_thread_loop_neg (phi_tiny : Int → Int → Int) (x z k : Int) (primes : List Int)
    (fuel : Nat) :
    ∀ (MU : Int) (b : Nat) (square_free phi0 : Int),
      Phi0_thread_loop phi_tiny x z k primes fuel (-MU) b square_free (-phi0)
        = - Phi0_thread_loop phi_tiny x z k primes fuel MU b square_free phi0 := by
  induction fuel with
  | zero => intro MU b sq phi0; rfl
  | succ fuel ih =>
    intro MU b sq phi0
    simp only [Phi0_thread_loop]
    split_ifs with h hz
    · rfl
    · have h1 := ih (-MU) (b + 1) (sq * primes[b]) 0
      rw [neg_zero] at h1
      rw [h1, ← ih MU (b + 1) sq]
      congr 1
      ring
    · rfl

/-- C19: `Phi0_thread<-1>(x, z, b, k, square_free, primes)` is
`-Phi0_thread<1>(x, z, b, k, square_free, primes)`, for all arguments. -/
theorem Phi0_thread_neg (phi_tiny : Int → Int → Int) (x z : Int) (b : Nat) (k : Int)
    (square_free : Int) (primes : List Int) :
    Phi0_thread phi_tiny (-1) x z b k square_free primes
      = - Phi0_thread phi_tiny 1 x z b k square_free primes := by
  unfold Phi0_thread
  have h := Phi0_thread_loop_neg phi_tiny x z k primes primes.length 1 (b + 1) square_free 0
  rw [neg_zero] at h
  exact h

theorem leaves_nil (phi_tiny : Int → Int → Int) (x z k MU sq : Int) :
    leaves phi_tiny x z k MU sq [] = 0 := by
  simp [leaves]

theorem leaves_cons (phi_tiny : Int → Int → Int) (x z k MU sq p : Int) (ps : List Int) :
    leaves phi_tiny x z k MU sq (p :: ps) =
      if sq * p > z then 0
      else MU * phi_tiny (cdiv x (sq * p)) k
        + leaves phi_tiny x z k (-MU) (sq * p) ps
        + leaves phi_tiny x z k MU sq ps := by
  simp [leaves]

/-- With enough fuel the loop of `Phi0_thread` adds `leaves` of the primes
from index `b` on to `phi0`. -/
theorem Phi0_thread_loop_eq (phi_tiny : Int → Int → Int) (x z k : Int) (primes : List Int)
    (fuel : Nat) :
    ∀ (MU : Int) (b : Nat) (sq phi0 : Int), primes.length ≤ fuel + b →
      Phi0_thread_loop phi_tiny x z k primes fuel MU b sq phi0
        = phi0 + leaves phi_tiny x z k MU sq (primes.drop b) := by
  induction fuel with
  | zero =>
    intro MU b sq phi0 hb
    rw [List.drop_eq_nil_of_le (by omega), leaves_nil]
    simp [Phi0_thread_loop]
  | succ fuel ih =>
    intro MU b sq phi0 hb
    simp only [Phi0_thread_loop]
    split_ifs with h hz
    · rw [List.drop_eq_getElem_cons h, leaves_cons, if_pos hz, add_zero]
    · rw [List.drop_eq_getElem_cons h, leaves_cons, if_neg hz,
        ih (-MU) (b + 1) _ 0 (by omega), ih MU (b + 1) sq _ (by omega)]
      ring
    · rw [List.drop_eq_nil_of_le (by omega), leaves_nil, add_zero]

theorem Phi0_thread_eq (phi_tiny : Int → Int → Int) (MU x z : Int) (b : Nat) (k sq : Int)
    (primes : List Int) :
    Phi0_thread phi_tiny MU x z b k sq primes
      = leaves phi_tiny x z k MU sq (primes.drop (b + 1)) := by
  unfold Phi0_thread
  rw [Phi0_thread_loop_eq phi_tiny x z k primes primes.length MU (b + 1) sq 0 (by omega),
    zero_add]

/-- The parallel loop of `Phi0_OpenMP` from index `a` on adds `leaves` with
sign `-1` and square free part `1`, when no prime is above `z`. -/
theorem Phi0_OpenMP_loop_eq (phi_tiny : Int → Int → Int) (x z k : Int) (primes : List Int)
    (n : Nat) :
    ∀ (a : Nat) (acc : Int), n = primes.length - a → (∀ p ∈ primes.drop a, p ≤ z) →
      (List.range' a n).foldl
        (fun phi0 b =>
          phi0 - phi_tiny (cdiv x (primes.getD b 0)) k
            + Phi0_thread phi_tiny 1 x z b k (primes.getD b 0) primes) acc
      = acc + leaves phi_tiny x z k (-1) 1 (primes.drop a) := by
  induction n with
  | zero =>
    intro a acc hn _
    rw [List.drop_eq_nil_of_le (by omega), leaves_nil]
    simp
  | succ n ih =>
    intro a acc hn hz
    have ha : a < primes.length := by omega
    have hdrop := List.drop_eq_getElem_cons ha
    have hz1 : ∀ p ∈ primes.drop (a + 1), p ≤ z := by
      intro p hp
      apply hz
      rw [hdrop]
      exact List.mem_cons_of_mem _ hp
    have hza : primes[a] ≤ z := by
      apply hz
      rw [hdrop]
      exact List.mem_cons_self _ _
    have hget : primes.getD a 0 = primes[a] := by
      simp [List.getD, List.getElem?_eq_getElem ha]
    rw [List.range'_succ, List.foldl_cons, ih (a + 1) _ (by omega) hz1, hdrop, leaves_cons,
      one_mul, if_neg (by omega), hget, Phi0_thread_eq, neg_neg]
    ring

/-- The result of `Phi0_OpenMP` is `phi_tiny(x, k)` plus `leaves` of the
primes from index `k + 1` on, when no prime is above `z`. -/
theorem Phi0_OpenMP_eq_leaves (phi_tiny : Int → Int → Int) (x z k : Int) (primes : List Int)
    (hz : ∀ p ∈ primes.drop (k + 1).toNat, p ≤ z) :
    Phi0_OpenMP phi_tiny x primes z k
      = phi_tiny x k + leaves phi_tiny x z k (-1) 1 (primes.drop (k + 1).toNat) := by
  unfold Phi0_OpenMP
  exact Phi0_OpenMP_loop_eq phi_tiny x z k primes _ (k + 1).toNat (phi_tiny x k) rfl hz

theorem subset_leaves_insert (phi_tiny : Int → Int → Int) (x z k sq : Int) (S : Finset Nat)
    (q : Nat) (hq : q ∉ S) :
    subset_leaves phi_tiny x z k sq (insert q S)
      = subset_leaves phi_tiny x z k sq S - subset_leaves phi_tiny x z k (sq * q) S := by
  unfold subset_leaves
  rw [Finset.sum_powerset_insert hq, sub_eq_add_neg, ← Finset.sum_neg_distrib]
  congr 1
  apply Finset.sum_congr rfl
  intro T hT
  have hqT : q ∉ T := fun h => hq (Finset.mem_powerset.mp hT h)
  rw [Finset.prod_insert hqT, Finset.card_insert_of_not_mem hqT]
  have e : sq * ((q * ∏ i in T, i : Nat) : Int) = sq * (q : Int) * ((∏ i in T, i : Nat) : Int) := by
    push_cast; ring
  rw [e]
  split_ifs
  · ring
  · ring

theorem subset_leaves_single (phi_tiny : Int → Int → Int) (x z k sq : Int) (S : Finset Nat)
    (h : ∀ T, T ⊆ S → T.Nonempty → z < sq * ((∏ i in T, i : Nat) : Int)) :
    subset_leaves phi_tiny x z k sq S = if sq ≤ z then phi_tiny (cdiv x sq) k else 0 := by
  unfold subset_leaves
  rw [Finset.sum_eq_single ∅]
  · simp
  · intro T hT hne
    rw [if_neg]
    have := h T (Finset.mem_powerset.mp hT) (Finset.nonempty_iff_ne_empty.mpr hne)
    omega
  · intro h0
    exact absurd (Finset.empty_mem_powerset S) h0

/-- A non-empty set of numbers that are all at least `q >= 1` has a product
of at least `q`. -/
theorem le_prod_of_le (q : Nat) (T : Finset Nat) (hT : T.Nonempty)
    (h : ∀ t ∈ T, q ≤ t) (hq : 1 ≤ q) : q ≤ ∏ i in T, i := by
  obtain ⟨a, ha⟩ := hT
  have hpos : 0 < ∏ i in T, i := Finset.prod_pos fun i hi => by
    have := h i hi
    omega
  exact le_trans (h a ha) (Nat.le_of_dvd hpos (Finset.dvd_prod_of_mem (fun i => i) ha))

/-- The recursion `leaves` over a strictly increasing list of positive
numbers adds up the terms of the non-empty subsets of the list. -/
theorem leaves_eq_subset_leaves (phi_tiny : Int → Int → Int) (x z k : Int) (qs : List Nat) :
    ∀ (MU sq : Int), 1 ≤ sq → qs.Pairwise (fun a b => a < b) → (∀ q ∈ qs, 1 ≤ q) →
      leaves phi_tiny x z k MU sq (qs.map fun q : Nat => (q : Int))
        = -MU * (subset_leaves phi_tiny x z k sq qs.toFinset
            - if sq ≤ z then phi_tiny (cdiv x sq) k else 0) := by
  induction qs with
  | nil =>
    intro MU sq _ _ _
    rw [List.map_nil, leaves_nil, List.toFinset_nil, subset_leaves_single]
    · ring
    · intro T hT hne
      rw [Finset.subset_empty.mp hT] at hne
      exact absurd hne Finset.not_nonempty_empty
  | cons q qs ih =>
    intro MU sq hsq hsorted hpos
    have hq1 : 1 ≤ q := hpos q (List.mem_cons_self _ _)
    have hlt : ∀ t ∈ qs, q < t := (List.pairwise_cons.mp hsorted).1
    have hs' : qs.Pairwise (fun a b => a < b) := (List.pairwise_cons.mp hsorted).2
    have hpos' : ∀ t ∈ qs, 1 ≤ t := fun t ht => hpos t (List.mem_cons_of_mem _ ht)
    have hqS : q ∉ qs.toFinset := by
      rw [List.mem_toFinset]
      intro hmem
      exact lt_irrefl q (hlt q hmem)
    have hsq1 : (1 : Int) ≤ sq * (q : Int) := by
      have : (1 : Int) ≤ (q : Int) := by exact_mod_cast hq1
      nlinarith
    rw [List.map_cons, leaves_cons, List.toFinset_cons, subset_leaves_insert _ _ _ _ _ _ _ hqS]
    have hqI : (1 : Int) ≤ (q : Int) := by exact_mod_cast hq1
    by_cases hz : sq * (q : Int) > z
    · -- the loop breaks at `q`: no non-empty subset has a small enough product
      have h1 : ∀ T, T ⊆ qs.toFinset → T.Nonempty →
          z < sq * ((∏ i in T, i : Nat) : Int) := by
        intro T hT hne
        have hle : q ≤ ∏ i in T, i :=
          le_prod_of_le q T hne
            (fun t ht => le_of_lt (hlt t (List.mem_toFinset.mp (hT ht)))) hq1
        have hleI : (q : Int) ≤ ((∏ i in T, i : Nat) : Int) := by exact_mod_cast hle
        have : sq * (q : Int) ≤ sq * ((∏ i in T, i : Nat) : Int) :=
          mul_le_mul_of_nonneg_left hleI (by omega)
        omega
      have h2 : ∀ T, T ⊆ qs.toFinset → T.Nonempty →
          z < sq * (q : Int) * ((∏ i in T, i : Nat) : Int) := by
        intro T hT hne
        have hpos1 : 0 < ∏ i in T, i := Finset.prod_pos fun i hi => by
          have := hpos' i (List.mem_toFinset.mp (hT hi))
          omega
        have hposI : (1 : Int) ≤ ((∏ i in T, i : Nat) : Int) := by exact_mod_cast hpos1
        have : sq * (q : Int) * 1 ≤ sq * (q : Int) * ((∏ i in T, i : Nat) : Int) :=
          mul_le_mul_of_nonneg_left hposI (by omega)
        omega
      rw [if_pos hz, subset_leaves_single _ _ _ _ _ _ h1, subset_leaves_single _ _ _ _ _ _ h2,
        if_neg (by omega : ¬ sq * (q : Int) ≤ z)]
      ring
    · rw [if_neg hz, ih (-MU) (sq * (q : Int)) hsq1 hs' hpos', ih MU sq hsq hs' hpos',
        if_pos (by omega : sq * (q : Int) ≤ z)]
      ring

/-- A product of distinct primes is square free. -/
theorem squarefree_prod_primes (T : Finset Nat) (hT : ∀ p ∈ T, p.Prime) :
    Squarefree (∏ p in T, p) := by
  classical
  induction T using Finset.induction_on with
  | empty => simp
  | insert ha ih =>
    rename_i a T
    rw [Finset.prod_insert ha, Nat.squarefree_mul_iff]
    have hpa : a.Prime := hT a (Finset.mem_insert_self a T)
    refine ⟨?_, hpa.prime.squarefree, ih fun p hp => hT p (Finset.mem_insert_of_mem hp)⟩
    apply Nat.Coprime.prod_right
    intro q hq
    have hpq : q.Prime := hT q (Finset.mem_insert_of_mem hq)
    exact (Nat.coprime_primes hpa hpq).mpr (fun h => ha (h ▸ hq))

/-- Over a set `S` of primes, the subsets with product at most `z` are the
square free numbers up to `z` with all prime factors in `S`. -/
theorem subset_leaves_eq_sum (phi_tiny : Int → Int → Int) (x z k : Int) (S : Finset Nat)
    (hS : ∀ p ∈ S, p.Prime) (hx : 0 ≤ x) :
    subset_leaves phi_tiny x z k 1 S
      = ∑ n in (Finset.Icc 1 z.toNat).filter
            (fun n => Squarefree n ∧ ∀ p : Nat, p ∈ n.primeFactors → p ∈ S),
          (-1) ^ n.primeFactors.card * phi_tiny (x / (n : Int)) k := by
  unfold subset_leaves
  simp only [one_mul]
  rw [← Finset.sum_filter]
  apply Finset.sum_nbij' (fun T => ∏ i in T, i) (fun n => n.primeFactors)
  · intro T hT
    rw [Finset.mem_filter, Finset.mem_powerset] at hT
    have hTp : ∀ p ∈ T, p.Prime := fun p hp => hS p (hT.1 hp)
    have hpos : 0 < ∏ i in T, i := Finset.prod_pos fun i hi => (hTp i hi).pos
    rw [Finset.mem_filter, Finset.mem_Icc, Nat.primeFactors_prod hTp]
    refine ⟨⟨hpos, ?_⟩, squarefree_prod_primes T hTp, fun p hp => hT.1 hp⟩
    have := hT.2
    omega
  · intro n hn
    rw [Finset.mem_filter, Finset.mem_Icc] at hn
    rw [Finset.mem_filter, Finset.mem_powerset, Nat.prod_primeFactors_of_squarefree hn.2.1]
    refine ⟨fun p hp => hn.2.2 p hp, ?_⟩
    have := hn.1
    omega
  · intro T hT
    rw [Finset.mem_filter, Finset.mem_powerset] at hT
    exact Nat.primeFactors_prod fun p hp => hS p (hT.1 hp)
  · intro n hn
    rw [Finset.mem_filter] at hn
    exact Nat.prod_primeFactors_of_squarefree hn.2.1
  · intro T hT
    rw [Finset.mem_filter, Finset.mem_powerset] at hT
    show _ = (-1) ^ (Nat.primeFactors (∏ i in T, i)).card * _
    rw [Nat.primeFactors_prod fun p hp => hS p (hT.1 hp),
      cdiv_eq_ediv hx (Int.ofNat_nonneg _)]

/-- For every list whose entries from index `1` on are positive and strictly
increasing, with none above `z >= 1`: `Phi0_OpenMP` returns the sum over the
sets `T` of entries at the indices above `k` with product at most `z` of the
terms `(-1)^|T| * phi_tiny(x / prod(T), k)`. -/
theorem Phi0_OpenMP_eq_subsets (phi_tiny : Int → Int → Int) (x z k : Int)
    (primes : List Int) (hk : 0 ≤ k)
    (hpos : ∀ p ∈ primes.tail, 1 ≤ p)
    (hsorted : primes.tail.Pairwise (fun a b => a < b))
    (hz : ∀ p ∈ primes, p ≤ z) (h1 : 1 ≤ z) :
    Phi0_OpenMP phi_tiny x primes z k
      = subset_leaves phi_tiny x z k 1
          ((primes.drop (k + 1).toNat).map Int.toNat).toFinset := by
  have hsub : (primes.drop (k + 1).toNat).Sublist primes.tail := by
    have e : (k + 1).toNat = k.toNat + 1 := by omega
    rw [e]
    cases primes with
    | nil => simp
    | cons a l =>
      show (List.drop k.toNat l).Sublist l
      exact List.drop_sublist _ _
  have hz' : ∀ p ∈ primes.drop (k + 1).toNat, p ≤ z :=
    fun p hp => hz p (List.mem_of_mem_drop hp)
  rw [Phi0_OpenMP_eq_leaves phi_tiny x z k primes hz']
  generalize primes.drop (k + 1).toNat = ds at hsub hz' ⊢
  have hd1 : ∀ p ∈ ds, (1 : Int) ≤ p := fun p hp => hpos p (hsub.subset hp)
  have hqs : (ds.map Int.toNat).map (fun q : Nat => (q : Int)) = ds := by
    rw [List.map_map]
    conv_rhs => rw [← List.map_id ds]
    apply List.map_congr_left
    intro p hp
    have := hd1 p hp
    show ((p.toNat : Nat) : Int) = p
    omega
  have hpair : (ds.map Int.toNat).Pairwise (fun a b => a < b) := by
    rw [List.pairwise_map]
    refine List.Pairwise.imp_of_mem ?_ (hsorted.sublist hsub)
    intro a b ha hb hab
    have := hd1 a ha
    have := hd1 b hb
    omega
  have hq1 : ∀ q ∈ ds.map Int.toNat, 1 ≤ q := by
    intro q hq
    obtain ⟨p, hp, rfl⟩ := List.mem_map.mp hq
    have := hd1 p hp
    omega
  conv_lhs => rw [← hqs]
  rw [leaves_eq_subset_leaves phi_tiny x z k _ (-1) 1 (le_refl _) hpair hq1, if_pos h1,
    show cdiv x 1 = x from Int.tdiv_one x]
  ring

/-- Over unbounded integers: when the entries of `primes` from index `1` on are
prime numbers in strictly increasing order and none is above `z`,
`Phi0_OpenMP` returns the sum over all square free `n <= z` (and `n = 1`)
whose prime factors are among `primes[k + 1], primes[k + 2], ...` of
`(-1)^(number of prime factors of n) * phi_tiny(x / n, k)`, each `n` once. -/
theorem Phi0_OpenMP_ordinary_leaves (phi_tiny : Int → Int → Int) (x z k : Int)
    (primes : List Int) (hx : 0 ≤ x) (hk : 0 ≤ k)
    (hprime : ∀ p ∈ primes.tail, Nat.Prime p.toNat)
    (hsorted : primes.tail.Pairwise (fun a b => a < b))
    (hz : ∀ p ∈ primes, p ≤ z) :
    Phi0_OpenMP phi_tiny x primes z k = ordinary_leaves phi_tiny x primes z k := by
  have hp2 : ∀ p ∈ primes.tail, (2 : Int) ≤ p := by
    intro p hp
    have := (hprime p hp).two_le
    omega
  have hsub : ∀ p ∈ primes.drop (k + 1).toNat, p ∈ primes.tail := by
    have e : (k + 1).toNat = k.toNat + 1 := by omega
    rw [e]
    cases primes with
    | nil => simp
    | cons a l =>
      intro p hp
      exact List.mem_of_mem_drop hp
  unfold ordinary_leaves
  by_cases h1 : 1 ≤ z
  · rw [Phi0_OpenMP_eq_subsets phi_tiny x z k primes hk
        (fun p hp => by have := hp2 p hp; omega) hsorted hz h1]
    generalize primes.drop (k + 1).toNat = ds at hsub ⊢
    have hmem : ∀ q : Nat, (q : Int) ∈ ds ↔ q ∈ (ds.map Int.toNat).toFinset := by
      intro q
      rw [List.mem_toFinset, List.mem_map]
      constructor
      · intro h
        exact ⟨(q : Int), h, by simp⟩
      · rintro ⟨p, hp, rfl⟩
        have := hp2 p (hsub p hp)
        have e : ((p.toNat : Nat) : Int) = p := by omega
        rw [e]; exact hp
    have hfilter : ((Finset.Icc 1 z.toNat).filter fun n =>
        Squarefree n ∧ ∀ p : Nat, p ∈ n.primeFactors → (p : Int) ∈ ds)
        = (Finset.Icc 1 z.toNat).filter fun n =>
        Squarefree n ∧ ∀ p : Nat, p ∈ n.primeFactors → p ∈ (ds.map Int.toNat).toFinset := by
      apply Finset.filter_congr
      intro n _
      constructor
      · rintro ⟨h1, h2⟩
        exact ⟨h1, fun p hp => (hmem p).mp (h2 p hp)⟩
      · rintro ⟨h1, h2⟩
        exact ⟨h1, fun p hp => (hmem p).mpr (h2 p hp)⟩
    have hqp : ∀ q ∈ (ds.map Int.toNat).toFinset, Nat.Prime q := by
      intro q hq
      obtain ⟨p, hp, rfl⟩ := List.mem_map.mp (List.mem_toFinset.mp hq)
      exact hprime p (hsub p hp)
    rw [hfilter, subset_leaves_eq_sum phi_tiny x z k _ hqp hx, Finset.insert_eq_of_mem]
    rw [Finset.mem_filter, Finset.mem_Icc]
    refine ⟨⟨le_refl _, by omega⟩, squarefree_one, ?_⟩
    intro p hp
    simp at hp
  · -- no prime is at most `z < 1`: the loop of `Phi0_OpenMP` does not run
    have hnil : primes.drop (k + 1).toNat = [] := by
      apply List.eq_nil_iff_forall_not_mem.mpr
      intro p hp
      have := hp2 p (hsub p hp)
      have := hz p (List.mem_of_mem_drop hp)
      omega
    have hempty : Finset.Icc 1 z.toNat = ∅ := by
      apply Finset.Icc_eq_empty
      omega
    rw [Phi0_OpenMP_eq_leaves phi_tiny x z k primes (by rw [hnil]; simp), hnil, leaves_nil,
      hempty, Finset.filter_empty]
    simp

/-- The entries of `primes` have to be primes, as `generate_primes` returns
them: for the list `[0, 4]`, `x = 8`, `z = 4`, `k = 0` and
`phi_tiny(a, k) = a` the loop returns `8 - 8 / 4 = 6`, while the only square
free `n <= 4` whose prime factors are among the entries is `1`, which gives
the sum `8`. -/
theorem Phi0_OpenMP_composite_entry :
    (0 : Int) ≤ 8 ∧ (0 : Int) ≤ 0 ∧
    (∀ p ∈ ([0, 4] : List Int).tail, 0 < p) ∧
    ([0, 4] : List Int).Pairwise (fun a b => a < b) ∧
    (∀ p ∈ ([0, 4] : List Int), p ≤ 4) ∧
    Phi0_OpenMP (fun a _ => a) 8 [0, 4] 4 0 = 6 ∧
    ordinary_leaves (fun a _ => a) 8 [0, 4] 4 0 = 8 ∧
    Phi0_OpenMP (fun a _ => a) 8 [0, 4] 4 0 ≠ ordinary_leaves (fun a _ => a) 8 [0, 4] 4 0 := by
  have hcode : Phi0_OpenMP (fun a _ => a) 8 [0, 4] 4 0 = 6 := by decide
  have hspec : ordinary_leaves (fun a _ => a) 8 [0, 4] 4 0 = 8 := by
    unfold ordinary_leaves
    have hf : ((Finset.Icc 1 (4 : Int).toNat).filter fun n =>
        Squarefree n ∧ ∀ p : Nat, p ∈ n.primeFactors →
          (p : Int) ∈ ([0, 4] : List Int).drop ((0 : Int) + 1).toNat) = {1} := by
      ext n
      rw [Finset.mem_filter, Finset.mem_Icc, Finset.mem_singleton]
      constructor
      · rintro ⟨⟨h1, h4⟩, hsq, hp⟩
        have h4' : n ≤ 4 := h4
        interval_cases n
        · rfl
        · have := hp 2 (by simp [Nat.prime_two.primeFactors])
          simp at this
        · have := hp 3 (by simp [Nat.prime_three.primeFactors])
          simp at this
        · have h2 := hsq 2 ⟨1, by norm_num⟩
          rw [Nat.isUnit_iff] at h2
          exact absurd h2 (by decide)
      · rintro rfl
        refine ⟨⟨le_refl _, by decide⟩, squarefree_one, ?_⟩
        intro p hp
        simp at hp
    rw [hf]
    simp
  refine ⟨by decide, by decide, by decide, by decide, by decide, hcode, hspec, ?_⟩
  rw [hcode, hspec]
  decide

/-- The loop of `Phi0_thread` does not depend on the fuel once there is
enough of it. -/
theorem Phi0_thread_loop_fuel (phi_tiny : Int → Int → Int) (x z k : Int) (primes : List Int)
    (f1 f2 : Nat) (MU : Int) (b : Nat) (sq phi0 : Int)
    (h1 : primes.length ≤ f1 + b) (h2 : primes.length ≤ f2 + b) :
    Phi0_thread_loop phi_tiny x z k primes f1 MU b sq phi0
      = Phi0_thread_loop phi_tiny x z k primes f2 MU b sq phi0 := by
  rw [Phi0_thread_loop_eq phi_tiny x z k primes f1 MU b sq phi0 h1,
    Phi0_thread_loop_eq phi_tiny x z k primes f2 MU b sq phi0 h2]

/-! ### Phi0 with machine integers -/

theorem wrap64_add_left (a b : Int) : wrap64 (wrap64 a + b) = wrap64 (a + b) := by
  unfold wrap64
  omega

theorem wrap64_add_right (a b : Int) : wrap64 (a + wrap64 b) = wrap64 (a + b) := by
  unfold wrap64
  omega

theorem wrap64_idem (a : Int) : wrap64 (wrap64 a) = wrap64 a := by
  unfold wrap64
  omega

theorem leaves64_nil (phi_tiny : Int → Int → Int) (x z k MU sq : Int) :
    leaves64 phi_tiny x z k MU sq [] = 0 := by
  simp [leaves64]

theorem leaves64_cons (phi_tiny : Int → Int → Int) (x z k MU sq p : Int) (ps : List Int) :
    leaves64 phi_tiny x z k MU sq (p :: ps) =
      if wrap64 (sq * p) > z then 0
      else MU * phi_tiny (cdiv x (wrap64 (sq * p))) k
        + leaves64 phi_tiny x z k (-MU) (wrap64 (sq * p)) ps
        + leaves64 phi_tiny x z k MU sq ps := by
  simp [leaves64]

/-- With enough fuel the loop of `Phi0_thread` for `int64_t` returns, up to
wrapping around, `phi0` plus `leaves64` of the primes from index `b` on. -/
theorem Phi0_thread_loop64_eq (phi_tiny : Int → Int → Int) (x z k : Int) (primes : List Int)
    (fuel : Nat) :
    ∀ (MU : Int) (b : Nat) (sq phi0 : Int), primes.length ≤ fuel + b →
      wrap64 (Phi0_thread_loop64 phi_tiny x z k primes fuel MU b sq phi0)
        = wrap64 (phi0 + leaves64 phi_tiny x z k MU sq (primes.drop b)) := by
  induction fuel with
  | zero =>
    intro MU b sq phi0 hb
    rw [List.drop_eq_nil_of_le (by omega), leaves64_nil]
    simp [Phi0_thread_loop64]
  | succ fuel ih =>
    intro MU b sq phi0 hb
    simp only [Phi0_thread_loop64]
    split_ifs with h hz
    · rw [List.drop_eq_getElem_cons h, leaves64_cons, if_pos hz, add_zero]
    · rw [List.drop_eq_getElem_cons h, leaves64_cons, if_neg hz,
        ih MU (b + 1) sq _ (by omega)]
      have h1 := ih (-MU) (b + 1) (wrap64 (sq * primes[b])) 0 (by omega)
      rw [zero_add] at h1
      generalize Phi0_thread_loop64 phi_tiny x z k primes fuel (-MU) (b + 1)
        (wrap64 (sq * primes[b])) 0 = R at h1 ⊢
      generalize leaves64 phi_tiny x z k (-MU) (wrap64 (sq * primes[b]))
        (List.drop (b + 1) primes) = L1 at h1 ⊢
      generalize leaves64 phi_tiny x z k MU sq (List.drop (b + 1) primes) = L2
      generalize MU * phi_tiny (cdiv x (wrap64 (sq * primes[b]))) k = t
      unfold wrap64 at h1 ⊢
      omega
    · rw [List.drop_eq_nil_of_le (by omega), leaves64_nil, add_zero]

theorem Phi0_thread64_eq (phi_tiny : Int → Int → Int) (MU x z : Int) (b : Nat) (k sq : Int)
    (primes : List Int) :
    wrap64 (Phi0_thread64 phi_tiny MU x z b k sq primes)
      = wrap64 (leaves64 phi_tiny x z k MU sq (primes.drop (b + 1))) := by
  unfold Phi0_thread64
  rw [Phi0_thread_loop64_eq phi_tiny x z k primes primes.length MU (b + 1) sq 0 (by omega),
    zero_add]

/-- The parallel loop of `Phi0_OpenMP` for `int64_t` from index `a` on adds,
up to wrapping around, `leaves64` with sign `-1` and square free part `1`,
when the primes are values of an `int64_t` and none is above `z`. -/
theorem Phi0_OpenMP64_loop_eq (phi_tiny : Int → Int → Int) (x z k : Int) (primes : List Int)
    (hzm : z ≤ INT64_MAX) (n : Nat) :
    ∀ (a : Nat) (acc : Int), n = primes.length - a →
      (∀ p ∈ primes.drop a, 0 ≤ p ∧ p ≤ z) → wrap64 acc = acc →
      (List.range' a n).foldl
        (fun phi0 b =>
          wrap64 (wrap64 (phi0 - phi_tiny (cdiv x (primes.getD b 0)) k)
            + Phi0_thread64 phi_tiny 1 x z b k (primes.getD b 0) primes)) acc
      = wrap64 (acc + leaves64 phi_tiny x z k (-1) 1 (primes.drop a)) := by
  induction n with
  | zero =>
    intro a acc hn _ hacc
    rw [List.drop_eq_nil_of_le (by omega), leaves64_nil, add_zero, hacc]
    simp
  | succ n ih =>
    intro a acc hn hz hacc
    have ha : a < primes.length := by omega
    have hdrop := List.drop_eq_getElem_cons ha
    have hz1 : ∀ p ∈ primes.drop (a + 1), 0 ≤ p ∧ p ≤ z := by
      intro p hp
      apply hz
      rw [hdrop]
      exact List.mem_cons_of_mem _ hp
    have hza : 0 ≤ primes[a] ∧ primes[a] ≤ z := by
      apply hz
      rw [hdrop]
      exact List.mem_cons_self _ _
    have hget : primes.getD a 0 = primes[a] := by
      simp [List.getD, List.getElem?_eq_getElem ha]
    have hw : wrap64 (1 * primes[a]) = primes[a] := by
      rw [one_mul]
      exact LoadBalancerP2.wrap64_eq _ (by omega) (by omega)
    rw [List.range'_succ, List.foldl_cons, ih (a + 1) _ (by omega) hz1 (wrap64_idem _), hdrop,
      leaves64_cons, hw, if_neg (by omega), hget, neg_neg]
    have h1 := Phi0_thread64_eq phi_tiny 1 x z a k primes[a] primes
    generalize Phi0_thread64 phi_tiny 1 x z a k primes[a] primes = R at h1 ⊢
    generalize leaves64 phi_tiny x z k 1 primes[a] (List.drop (a + 1) primes) = L1 at h1 ⊢
    generalize leaves64 phi_tiny x z k (-1) 1 (List.drop (a + 1) primes) = L2
    generalize phi_tiny (cdiv x primes[a]) k = t
    unfold wrap64 at h1 ⊢
    omega

/-- The result of `Phi0_OpenMP` for `int64_t` is, up to wrapping around,
`phi_tiny(x, k)` plus `leaves64` of the primes from index `k + 1` on. -/
theorem Phi0_OpenMP64_eq_leaves64 (phi_tiny : Int → Int → Int) (x z k : Int)
    (primes : List Int) (hzm : z ≤ INT64_MAX)
    (hz : ∀ p ∈ primes.drop (k + 1).toNat, 0 ≤ p ∧ p ≤ z) :
    Phi0_OpenMP64 phi_tiny x primes z k
      = wrap64 (phi_tiny x k
          + leaves64 phi_tiny x z k (-1) 1 (primes.drop (k + 1).toNat)) := by
  unfold Phi0_OpenMP64
  rw [← wrap64_add_left]
  exact Phi0_OpenMP64_loop_eq phi_tiny x z k primes hzm _ (k + 1).toNat _ rfl hz
    (wrap64_idem _)

theorem one_le_prod (ps : List Int) (h : ∀ p ∈ ps, 1 ≤ p) : 1 ≤ ps.prod := by
  induction ps with
  | nil => simp
  | cons p ps ih =>
    rw [List.prod_cons]
    have h1 := h p (List.mem_cons_self _ _)
    have h2 := ih (fun q hq => h q (List.mem_cons_of_mem _ hq))
    nlinarith

/-- While no product `square_free * p` leaves the range of an `int64_t`, as
when `z * p <= INT64_MAX` for every prime `p`, the recursion for `int64_t`
adds the same terms as the one over unbounded integers. -/
theorem leaves64_eq_leaves (phi_tiny : Int → Int → Int) (x z k : Int) :
    ∀ (ps : List Int) (MU sq : Int), 0 ≤ sq → sq ≤ z →
      (∀ p ∈ ps, 0 ≤ p ∧ z * p ≤ INT64_MAX) →
      leaves64 phi_tiny x z k MU sq ps = leaves phi_tiny x z k MU sq ps := by
  intro ps
  induction ps with
  | nil =>
    intro MU sq _ _ _
    rw [leaves64_nil, leaves_nil]
  | cons p ps ih =>
    intro MU sq h0 hz hp
    obtain ⟨hp0, hpz⟩ := hp p (List.mem_cons_self _ _)
    have hps : ∀ q ∈ ps, 0 ≤ q ∧ z * q ≤ INT64_MAX :=
      fun q hq => hp q (List.mem_cons_of_mem _ hq)
    have h1 : 0 ≤ sq * p := mul_nonneg h0 hp0
    have h2 : sq * p ≤ z * p := mul_le_mul_of_nonneg_right hz hp0
    have hw : wrap64 (sq * p) = sq * p :=
      LoadBalancerP2.wrap64_eq _ (by omega) (by omega)
    rw [leaves64_cons, leaves_cons, hw]
    split_ifs with hc
    · rfl
    · rw [ih (-MU) (sq * p) h1 (by omega) hps, ih MU sq h0 hz hps]

/-- When the product of `square_free` and all the primes still to come does
not exceed `INT64_MAX`, no product wraps around. -/
theorem leaves64_safe (phi_tiny : Int → Int → Int) (x z k : Int) :
    ∀ (ps : List Int) (MU sq : Int), 0 ≤ sq → (∀ p ∈ ps, 1 ≤ p) →
      sq * ps.prod ≤ INT64_MAX →
      leaves64 phi_tiny x z k MU sq ps = leaves phi_tiny x z k MU sq ps := by
  intro ps
  induction ps with
  | nil =>
    intro MU sq _ _ _
    rw [leaves64_nil, leaves_nil]
  | cons p ps ih =>
    intro MU sq h0 hp hprod
    have hp1 := hp p (List.mem_cons_self _ _)
    have hps : ∀ q ∈ ps, 1 ≤ q := fun q hq => hp q (List.mem_cons_of_mem _ hq)
    have hP := one_le_prod ps hps
    rw [List.prod_cons] at hprod
    have h1 : 0 ≤ sq * p := mul_nonneg h0 (by omega)
    have h2 : sq * p ≤ sq * (p * ps.prod) := by
      apply mul_le_mul_of_nonneg_left _ h0
      nlinarith
    have h3 : sq * ps.prod ≤ sq * (p * ps.prod) := by
      apply mul_le_mul_of_nonneg_left _ h0
      nlinarith
    have hw : wrap64 (sq * p) = sq * p :=
      LoadBalancerP2.wrap64_eq _ (by omega) (by omega)
    rw [leaves64_cons, leaves_cons, hw]
    split_ifs with hc
    · rfl
    · rw [ih (-MU) (sq * p) h1 hps (by rw [mul_assoc]; exact hprod),
        ih MU sq h0 hps (by omega)]

/-- One step of the recursion where the product `sq * p` does not wrap
around: the difference between the recursion for `int64_t` and the one over
unbounded integers is the sum of the differences of the two branches. -/
theorem leaves64_node (phi_tiny : Int → Int → Int) (x z k MU sq p : Int) (ps : List Int)
    (h0 : 0 ≤ sq * p) (hz : sq * p ≤ z) (hzm : z ≤ INT64_MAX) :
    leaves64 phi_tiny x z k MU sq (p :: ps) - leaves phi_tiny x z k MU sq (p :: ps)
      = (leaves64 phi_tiny x z k (-MU) (sq * p) ps - leaves phi_tiny x z k (-MU) (sq * p) ps)
        + (leaves64 phi_tiny x z k MU sq ps - leaves phi_tiny x z k MU sq ps) := by
  have hw : wrap64 (sq * p) = sq * p :=
    LoadBalancerP2.wrap64_eq _ (by omega) (by omega)
  rw [leaves64_cons, leaves_cons, hw, if_neg (by omega), if_neg (by omega)]
  ring

/-- A chain of steps that each take the next prime of `qs`: when leaving out
any one of them keeps the product of all the primes below `INT64_MAX`, the
two recursions differ only by what they add for the last prime `r`. -/
theorem leaves64_chain (phi_tiny : Int → Int → Int) (x z k r : Int) (hzm : z ≤ INT64_MAX)
    (hr : 1 ≤ r) :
    ∀ (qs : List Int) (MU sq : Int), 0 ≤ sq → (∀ q ∈ qs, 1 ≤ q) → sq * qs.prod ≤ z →
      (∀ q ∈ qs, sq * (qs.prod * r) ≤ q * INT64_MAX) →
      leaves64 phi_tiny x z k MU sq (qs ++ [r]) - leaves phi_tiny x z k MU sq (qs ++ [r])
        = leaves64 phi_tiny x z k ((-1) ^ qs.length * MU) (sq * qs.prod) [r]
          - leaves phi_tiny x z k ((-1) ^ qs.length * MU) (sq * qs.prod) [r] := by
  intro qs
  induction qs with
  | nil =>
    intro MU sq _ _ _ _
    simp
  | cons q qs ih =>
    intro MU sq h0 hq hz hs
    have hq1 := hq q (List.mem_cons_self _ _)
    have hqs : ∀ q ∈ qs, 1 ≤ q := fun a ha => hq a (List.mem_cons_of_mem _ ha)
    have hP := one_le_prod qs hqs
    rw [List.prod_cons] at hz
    have h1 : 0 ≤ sq * q := mul_nonneg h0 (by omega)
    have h2 : sq * q ≤ sq * (q * qs.prod) := by
      apply mul_le_mul_of_nonneg_left _ h0
      nlinarith
    have hsafe : sq * (qs ++ [r]).prod ≤ INT64_MAX := by
      have h3 := hs q (List.mem_cons_self _ _)
      rw [List.prod_cons] at h3
      rw [List.prod_append, List.prod_singleton]
      have h4 : q * (sq * (qs.prod * r)) ≤ q * INT64_MAX := by
        calc q * (sq * (qs.prod * r)) = sq * (q * qs.prod * r) := by ring
          _ ≤ q * INT64_MAX := h3
      exact le_of_mul_le_mul_left h4 (by omega)
    have hr1 : ∀ a ∈ qs ++ [r], 1 ≤ a := by
      intro a ha
      rcases List.mem_append.mp ha with ha | ha
      · exact hqs a ha
      · rw [List.mem_singleton.mp ha]; exact hr
    rw [List.cons_append, leaves64_node phi_tiny x z k MU sq q _ h1 (by omega) hzm,
      leaves64_safe phi_tiny x z k (qs ++ [r]) MU sq h0 hr1 hsafe, sub_self, add_zero,
      ih (-MU) (sq * q) h1 hqs (by rw [mul_assoc]; exact hz)
        (fun a ha => by
          have h3 := hs a (List.mem_cons_of_mem _ ha)
          rw [List.prod_cons] at h3
          calc sq * q * (qs.prod * r) = sq * (q * qs.prod * r) := by ring
            _ ≤ a * INT64_MAX := h3)]
    rw [List.prod_cons, List.length_cons, pow_succ, mul_assoc]
    congr 2 <;> ring

/-- For `x = z = INT64_MAX`, `k = 0`, `phi_tiny(a, 0) = a` and the primes up
to `53`, the recursion for `int64_t` adds `3` more than the one over
unbounded integers: the products `2 * 3 * ... * 53`, `3 * 5 * ... * 53` and
`2 * 5 * ... * 53` exceed `INT64_MAX`, they wrap around to negative numbers,
which are not above `z`, and the loop adds the terms `-2`, `4` and `1` for
them. -/
theorem leaves64_primes_53 :
    leaves64 (fun a _ => a) 9223372036854775807 9223372036854775807 0 (-1) 1
        (2 :: 3 :: ([5, 7, 11, 13, 17, 19, 23, 29, 31, 37, 41, 43, 47] ++ [53]))
      = leaves (fun a _ => a) 9223372036854775807 9223372036854775807 0 (-1) 1
          (2 :: 3 :: ([5, 7, 11, 13, 17, 19, 23, 29, 31, 37, 41, 43, 47] ++ [53])) + 3 := by
  have hzm : (9223372036854775807 : Int) ≤ INT64_MAX := by decide
  have s1 := leaves64_node (fun a _ => a) 9223372036854775807 9223372036854775807 0 (-1) 1 2
    (3 :: ([5, 7, 11, 13, 17, 19, 23, 29, 31, 37, 41, 43, 47] ++ [53])) (by decide) (by decide) hzm
  have s2 := leaves64_node (fun a _ => a) 9223372036854775807 9223372036854775807 0 (-(-1)) (1 * 2) 3
    ([5, 7, 11, 13, 17, 19, 23, 29, 31, 37, 41, 43, 47] ++ [53]) (by decide) (by decide) hzm
  have s3 := leaves64_node (fun a _ => a) 9223372036854775807 9223372036854775807 0 (-1) 1 3
    ([5, 7, 11, 13, 17, 19, 23, 29, 31, 37, 41, 43, 47] ++ [53]) (by decide) (by decide) hzm
  have s4 := leaves64_safe (fun a _ => a) 9223372036854775807 9223372036854775807 0 ([5, 7, 11, 13, 17, 19, 23, 29, 31, 37, 41, 43, 47] ++ [53]) (-1) 1
    (by decide) (by decide) (by decide)
  have c1 := leaves64_chain (fun a _ => a) 9223372036854775807 9223372036854775807 0 53 hzm (by decide) [5, 7, 11, 13, 17, 19, 23, 29, 31, 37, 41, 43, 47]
    (-(-(-1))) (1 * 2 * 3) (by decide) (by decide) (by decide) (by decide)
  have c2 := leaves64_chain (fun a _ => a) 9223372036854775807 9223372036854775807 0 53 hzm (by decide) [5, 7, 11, 13, 17, 19, 23, 29, 31, 37, 41, 43, 47]
    (-(-1)) (1 * 2) (by decide) (by decide) (by decide) (by decide)
  have c3 := leaves64_chain (fun a _ => a) 9223372036854775807 9223372036854775807 0 53 hzm (by decide) [5, 7, 11, 13, 17, 19, 23, 29, 31, 37, 41, 43, 47]
    (-(-1)) (1 * 3) (by decide) (by decide) (by decide) (by decide)
  have e1 : leaves64 (fun a _ => a) 9223372036854775807 9223372036854775807 0
        ((-1) ^ ([5, 7, 11, 13, 17, 19, 23, 29, 31, 37, 41, 43, 47] : List Int).length * (-(-(-1)))) (1 * 2 * 3 * ([5, 7, 11, 13, 17, 19, 23, 29, 31, 37, 41, 43, 47] : List Int).prod) [53]
      - leaves (fun a _ => a) 9223372036854775807 9223372036854775807 0
        ((-1) ^ ([5, 7, 11, 13, 17, 19, 23, 29, 31, 37, 41, 43, 47] : List Int).length * (-(-(-1)))) (1 * 2 * 3 * ([5, 7, 11, 13, 17, 19, 23, 29, 31, 37, 41, 43, 47] : List Int).prod) [53]
      = -2 := by decide
  have e2 : leaves64 (fun a _ => a) 9223372036854775807 9223372036854775807 0
        ((-1) ^ ([5, 7, 11, 13, 17, 19, 23, 29, 31, 37, 41, 43, 47] : List Int).length * (-(-1))) (1 * 2 * ([5, 7, 11, 13, 17, 19, 23, 29, 31, 37, 41, 43, 47] : List Int).prod) [53]
      - leaves (fun a _ => a) 9223372036854775807 9223372036854775807 0
        ((-1) ^ ([5, 7, 11, 13, 17, 19, 23, 29, 31, 37, 41, 43, 47] : List Int).length * (-(-1))) (1 * 2 * ([5, 7, 11, 13, 17, 19, 23, 29, 31, 37, 41, 43, 47] : List Int).prod) [53]
      = 1 := by decide
  have e3 : leaves64 (fun a _ => a) 9223372036854775807 9223372036854775807 0
        ((-1) ^ ([5, 7, 11, 13, 17, 19, 23, 29, 31, 37, 41, 43, 47] : List Int).length * (-(-1))) (1 * 3 * ([5, 7, 11, 13, 17, 19, 23, 29, 31, 37, 41, 43, 47] : List Int).prod) [53]
      - leaves (fun a _ => a) 9223372036854775807 9223372036854775807 0
        ((-1) ^ ([5, 7, 11, 13, 17, 19, 23, 29, 31, 37, 41, 43, 47] : List Int).length * (-(-1))) (1 * 3 * ([5, 7, 11, 13, 17, 19, 23, 29, 31, 37, 41, 43, 47] : List Int).prod) [53]
      = 4 := by decide
  rw [e1] at c1
  rw [e2] at c2
  rw [e3] at c3
  rw [c1, c2] at s2
  rw [c3, s4, sub_self, add_zero] at s3
  rw [s2, s3] at s1
  omega

/-- C17, amended: when the entries of `primes` from index `1` on are prime
numbers in strictly increasing order, none is above `z`, and `z * p` does not
exceed `INT64_MAX` for any entry `p` (so that no product
`square_free * primes[b]` leaves the range of an `int64_t`), `Phi0_OpenMP`
for `int64_t` returns the sum over all square free `n <= z` (and `n = 1`)
whose prime factors are among `primes[k + 1], primes[k + 2], ...` of
`(-1)^(number of prime factors of n) * phi_tiny(x / n, k)`, each `n` once: the
sum reduced to the range of an `int64_t`, which is the sum itself when it
lies in that range. -/
theorem Phi0_OpenMP64_ordinary_leaves (phi_tiny : Int → Int → Int) (x z k : Int)
    (primes : List Int) (hx : 0 ≤ x) (hk : 0 ≤ k)
    (hprime : ∀ p ∈ primes.tail, Nat.Prime p.toNat)
    (hsorted : primes.tail.Pairwise (fun a b => a < b))
    (hz : ∀ p ∈ primes, p ≤ z) (hzm : z ≤ INT64_MAX)
    (hov : ∀ p ∈ primes, z * p ≤ INT64_MAX) :
    Phi0_OpenMP64 phi_tiny x primes z k = wrap64 (ordinary_leaves phi_tiny x primes z k) ∧
    (-9223372036854775808 ≤ ordinary_leaves phi_tiny x primes z k →
      ordinary_leaves phi_tiny x primes z k ≤ INT64_MAX →
      Phi0_OpenMP64 phi_tiny x primes z k = ordinary_leaves phi_tiny x primes z k) := by
  have hp2 : ∀ p ∈ primes.tail, (2 : Int) ≤ p := by
    intro p hp
    have := (hprime p hp).two_le
    omega
  have hsub : ∀ p ∈ primes.drop (k + 1).toNat, p ∈ primes.tail := by
    have e : (k + 1).toNat = k.toNat + 1 := by omega
    rw [e]
    cases primes with
    | nil => simp
    | cons a l =>
      intro p hp
      exact List.mem_of_mem_drop hp
  have hz1 : ∀ p ∈ primes.drop (k + 1).toNat, 0 ≤ p ∧ p ≤ z := by
    intro p hp
    have := hp2 p (hsub p hp)
    exact ⟨by omega, hz p (List.mem_of_mem_drop hp)⟩
  have hov1 : ∀ p ∈ primes.drop (k + 1).toNat, 0 ≤ p ∧ z * p ≤ INT64_MAX := by
    intro p hp
    have := hp2 p (hsub p hp)
    exact ⟨by omega, hov p (List.mem_of_mem_drop hp)⟩
  have hl : leaves64 phi_tiny x z k (-1) 1 (primes.drop (k + 1).toNat)
      = leaves phi_tiny x z k (-1) 1 (primes.drop (k + 1).toNat) := by
    by_cases h1 : 1 ≤ z
    · exact leaves64_eq_leaves phi_tiny x z k _ (-1) 1 (by decide) h1 hov1
    · have hnil : primes.drop (k + 1).toNat = [] := by
        rw [List.eq_nil_iff_forall_not_mem]
        intro p hp
        have := hp2 p (hsub p hp)
        have := (hz1 p hp).2
        omega
      rw [hnil, leaves64_nil, leaves_nil]
  have hmain : Phi0_OpenMP64 phi_tiny x primes z k
      = wrap64 (ordinary_leaves phi_tiny x primes z k) := by
    rw [Phi0_OpenMP64_eq_leaves64 phi_tiny x z k primes hzm hz1, hl,
      ← Phi0_OpenMP_eq_leaves phi_tiny x z k primes (fun p hp => (hz1 p hp).2),
      Phi0_OpenMP_ordinary_leaves phi_tiny x z k primes hx hk hprime hsorted hz]
  refine ⟨hmain, ?_⟩
  intro h1 h2
  rw [hmain]
  exact LoadBalancerP2.wrap64_eq _ h1 h2

/-- C17, witness: the primes up to `13`, `z = 13`, `k = 0` and
`phi_tiny(a, k) = a`. -/
theorem Phi0_OpenMP64_ordinary_leaves_witness :
    (0 : Int) ≤ 1000 ∧ (0 : Int) ≤ 0 ∧
    (∀ p ∈ ([0, 2, 3, 5, 7, 11, 13] : List Int).tail, Nat.Prime p.toNat) ∧
    ([0, 2, 3, 5, 7, 11, 13] : List Int).tail.Pairwise (fun a b => a < b) ∧
    (∀ p ∈ ([0, 2, 3, 5, 7, 11, 13] : List Int), p ≤ 13) ∧ (13 : Int) ≤ INT64_MAX ∧
    (∀ p ∈ ([0, 2, 3, 5, 7, 11, 13] : List Int), 13 * p ≤ INT64_MAX) ∧
    Phi0_OpenMP64 (fun a _ => a) 1000 [0, 2, 3, 5, 7, 11, 13] 13 0
      = wrap64 (ordinary_leaves (fun a _ => a) 1000 [0, 2, 3, 5, 7, 11, 13] 13 0) ∧
    (-9223372036854775808 ≤ ordinary_leaves (fun a _ => a) 1000 [0, 2, 3, 5, 7, 11, 13] 13 0 →
      ordinary_leaves (fun a _ => a) 1000 [0, 2, 3, 5, 7, 11, 13] 13 0 ≤ INT64_MAX →
      Phi0_OpenMP64 (fun a _ => a) 1000 [0, 2, 3, 5, 7, 11, 13] 13 0
        = ordinary_leaves (fun a _ => a) 1000 [0, 2, 3, 5, 7, 11, 13] 13 0) :=
  ⟨by decide, by decide, by decide, by decide, by decide, by decide, by decide,
    Phi0_OpenMP64_ordinary_leaves (fun a _ => a) 1000 13 0 [0, 2, 3, 5, 7, 11, 13]
      (by decide) (by decide) (by decide) (by decide) (by decide) (by decide) (by decide)⟩

/-- C17, as stated, fails in `int64_t` arithmetic: for `x = z = INT64_MAX`,
`k = 0`, `phi_tiny(a, 0) = a` and the primes up to `53` (the vector of
`generate_primes(53)`), the products `2 * 3 * ... * 53`, `3 * 5 * ... * 53`
and `2 * 5 * ... * 53` wrap around to negative numbers, the test `next > z`
does not stop the loop, which adds the terms `-2`, `4` and `1` for them:
`Phi0_OpenMP` returns the sum plus `3`. -/
theorem Phi0_OpenMP64_wraps :
    (0 : Int) ≤ 9223372036854775807 ∧ (0 : Int) ≤ 0 ∧
    (∀ p ∈ ([0, 2, 3, 5, 7, 11, 13, 17, 19, 23, 29, 31, 37, 41, 43, 47, 53] : List Int).tail, Nat.Prime p.toNat) ∧
    ([0, 2, 3, 5, 7, 11, 13, 17, 19, 23, 29, 31, 37, 41, 43, 47, 53] : List Int).Pairwise (fun a b => a < b) ∧
    (∀ p ∈ ([0, 2, 3, 5, 7, 11, 13, 17, 19, 23, 29, 31, 37, 41, 43, 47, 53] : List Int).tail, 0 < p) ∧
    (∀ p ∈ ([0, 2, 3, 5, 7, 11, 13, 17, 19, 23, 29, 31, 37, 41, 43, 47, 53] : List Int), p ≤ 9223372036854775807) ∧
    wrap64 (2 * 3 * 5 * 7 * 11 * 13 * 17 * 19 * 23 * 29 * 31 * 37 * 41 * 43 * 47 * 53)
      = -4304329670229058502 ∧
    wrap64 (3 * 5 * 7 * 11 * 13 * 17 * 19 * 23 * 29 * 31 * 37 * 41 * 43 * 47 * 53)
      = -2152164835114529251 ∧
    wrap64 (2 * 5 * 7 * 11 * 13 * 17 * 19 * 23 * 29 * 31 * 37 * 41 * 43 * 47 * 53)
      = -7583691247979536706 ∧
    cdiv 9223372036854775807 (-4304329670229058502) = -2 ∧
    cdiv 9223372036854775807 (-2152164835114529251) = -4 ∧
    cdiv 9223372036854775807 (-7583691247979536706) = -1 ∧
    Phi0_OpenMP64 (fun a _ => a) 9223372036854775807 [0, 2, 3, 5, 7, 11, 13, 17, 19, 23, 29, 31, 37, 41, 43, 47, 53] 9223372036854775807 0
      = wrap64 (ordinary_leaves (fun a _ => a) 9223372036854775807 [0, 2, 3, 5, 7, 11, 13, 17, 19, 23, 29, 31, 37, 41, 43, 47, 53] 9223372036854775807 0 + 3) ∧
    Phi0_OpenMP64 (fun a _ => a) 9223372036854775807 [0, 2, 3, 5, 7, 11, 13, 17, 19, 23, 29, 31, 37, 41, 43, 47, 53] 9223372036854775807 0
      ≠ ordinary_leaves (fun a _ => a) 9223372036854775807 [0, 2, 3, 5, 7, 11, 13, 17, 19, 23, 29, 31, 37, 41, 43, 47, 53] 9223372036854775807 0 := by
  have hprime : ∀ p ∈ ([0, 2, 3, 5, 7, 11, 13, 17, 19, 23, 29, 31, 37, 41, 43, 47, 53] : List Int).tail, Nat.Prime p.toNat := by
    decide
  have hz : ∀ p ∈ ([0, 2, 3, 5, 7, 11, 13, 17, 19, 23, 29, 31, 37, 41, 43, 47, 53] : List Int), p ≤ 9223372036854775807 := by decide
  have hspec := Phi0_OpenMP_ordinary_leaves (fun a _ => a) 9223372036854775807 9223372036854775807 0 [0, 2, 3, 5, 7, 11, 13, 17, 19, 23, 29, 31, 37, 41, 43, 47, 53]
    (by decide) (by decide) hprime (by decide) hz
  have hunb := Phi0_OpenMP_eq_leaves (fun a _ => a) 9223372036854775807 9223372036854775807 0 [0, 2, 3, 5, 7, 11, 13, 17, 19, 23, 29, 31, 37, 41, 43, 47, 53] (by decide)
  have h64 := Phi0_OpenMP64_eq_leaves64 (fun a _ => a) 9223372036854775807 9223372036854775807 0 [0, 2, 3, 5, 7, 11, 13, 17, 19, 23, 29, 31, 37, 41, 43, 47, 53] (by decide) (by decide)
  have hd : ([0, 2, 3, 5, 7, 11, 13, 17, 19, 23, 29, 31, 37, 41, 43, 47, 53] : List Int).drop ((0 : Int) + 1).toNat
      = 2 :: 3 :: ([5, 7, 11, 13, 17, 19, 23, 29, 31, 37, 41, 43, 47] ++ [53]) := rfl
  rw [hd] at hunb h64
  rw [leaves64_primes_53] at h64
  have hcode : Phi0_OpenMP64 (fun a _ => a) 9223372036854775807 [0, 2, 3, 5, 7, 11, 13, 17, 19, 23, 29, 31, 37, 41, 43, 47, 53] 9223372036854775807 0
      = wrap64 (ordinary_leaves (fun a _ => a) 9223372036854775807 [0, 2, 3, 5, 7, 11, 13, 17, 19, 23, 29, 31, 37, 41, 43, 47, 53] 9223372036854775807 0 + 3) := by
    rw [h64, ← hspec, hunb, add_assoc]
  refine ⟨by decide, by decide, hprime, by decide, by decide, hz, by decide, by decide,
    by decide, by decide, by decide, by decide, hcode, ?_⟩
  rw [hcode]
  unfold wrap64
  omega

end primecount
